import Mathlib

/-!
# flowpl/config: a shallow embedding of `config.go`

The Go package keeps, per `*Config`, a loader, a slice of path elements and a
slice of errors.  Slices are modelled as Go has them: a pointer to a backing
array, a length and a capacity, with `append` writing in place while spare
capacity remains and moving to a fresh array otherwise.  `*Config` pointers
are indices into a store of `Config` structs, and every loader invocation is
logged together with the contents of the path it was given.

Go strings are Lean strings.  The functions of packages strings and strconv
used here inspect ASCII bytes only, and no byte of the UTF-8 encoding of a rune
outside ASCII is an ASCII byte, so reading runes instead of bytes gives the
same answers.  The integer type `int` is `Int` with explicit wrap-around at the
width of the platform.  A `float64` is its IEEE 754 bit pattern; the getters take
the floating-point operations as a parameter, and `goFloatOps` gives those of
Go: `strconv.ParseFloat` and the conversions from `int` and `float32`, which
round to the nearest float64.
-/

namespace GoConfig

/-! ## Go runtime: slices and `append` -/

/-- A slice header. All slices of this program start at offset 0 of their
backing array, so the pointer is the index of that array in memory. -/
structure Slice where
  ptr : Nat
  len : Nat
  cap : Nat
deriving DecidableEq, Repr

/-- The backing arrays allocated so far, in allocation order. -/
abbrev Mem (α : Type) := List (List α)

/-- The backing array at a pointer. -/
def Mem.array {α : Type} (m : Mem α) (p : Nat) : List α := m.getD p []

/-- The elements visible through a slice: the first `len` cells of its array. -/
def Mem.view {α : Type} (m : Mem α) (s : Slice) : List α := (m.array s.ptr).take s.len

/-- What the program leaves to the Go implementation: the width of `int`
(`strconv.IntSize`) and the capacity `append` picks when it has to grow a slice
(old capacity, required length).  The language only promises that the new array
is sufficiently large. -/
structure Runtime where
  intSize : Nat
  intSize_ok : intSize = 32 ∨ intSize = 64
  growCap : Nat → Nat → Nat
  growCap_ge : ∀ oldCap newLen, newLen ≤ growCap oldCap newLen

/-- The nil slice. -/
def nilSlice : Slice := ⟨0, 0, 0⟩

/-- Go builtin `append(s, x)` for one element: with spare capacity the element is
written into the shared backing array at index `len`; otherwise a new array of
the grown capacity is allocated, the visible elements are copied and the rest
is zeroed. -/
def append {α : Type} [Inhabited α] (rt : Runtime) (m : Mem α) (s : Slice) (x : α) :
    Mem α × Slice :=
  if s.len < s.cap then
    (m.set s.ptr ((m.array s.ptr).set s.len x), { s with len := s.len + 1 })
  else
    let newCap := rt.growCap s.cap (s.len + 1)
    (m ++ [m.view s ++ x :: List.replicate (newCap - (s.len + 1)) default],
      ⟨m.length, s.len + 1, newCap⟩)

/-- Loop of `runtime.nextslicecap` for capacities from the threshold 256 on:
grow by a quarter plus 192 until the required length fits. -/
def nextslicecapLoop (newLen : Nat) : Nat → Nat → Nat
  | 0, newcap => newcap
  | fuel + 1, newcap =>
    let newcap1 := newcap + (newcap + 3 * 256) / 4
    if newLen ≤ newcap1 then newcap1 else nextslicecapLoop newLen fuel newcap1

/-- The capacity `runtime.growslice` asks for (gc toolchain): the required
length if it exceeds twice the old capacity, twice the old capacity below 256,
the loop above otherwise.  The allocator then rounds the byte size up to a size
class, which only enlarges the result and leaves 1, 2 and 4 strings unchanged. -/
def nextslicecap (newLen oldCap : Nat) : Nat :=
  let doublecap := oldCap + oldCap
  if newLen > doublecap then newLen
  else if oldCap < 256 then doublecap
  else nextslicecapLoop newLen newLen oldCap

/-- The gc toolchain on a 64-bit platform, with the capacity `growslice` asks for
before the allocator rounds it up to a size class; the two agree for slices of
strings up to capacity 32, beyond which the real capacity is larger. -/
def gc64 : Runtime where
  intSize := 64
  intSize_ok := Or.inr rfl
  growCap := fun oldCap newLen => nextslicecap newLen oldCap
  growCap_ge := by
    have key : ∀ (newLen fuel c : Nat), newLen ≤ c + 192 * fuel →
        newLen ≤ nextslicecapLoop newLen fuel c := by
      intro newLen fuel
      induction fuel with
      | zero => intro c h; simpa [nextslicecapLoop] using h
      | succ k ih =>
        intro c h
        simp only [nextslicecapLoop]
        split
        · assumption
        · apply ih
          omega
    intro oldCap newLen
    unfold nextslicecap
    simp only
    split
    · exact Nat.le_refl _
    · split
      · omega
      · apply key
        omega

/-- The gc toolchain on a 32-bit platform. -/
def gc32 : Runtime := { gc64 with intSize := 32, intSize_ok := Or.inl rfl }

/-! ## Errors and raw values -/

/-- The two sentinel errors of package strconv. -/
inductive NumErrKind where
  | ErrSyntax
  | ErrRange
deriving DecidableEq, Repr

/-- Type `strconv.NumError`: the failing function, the input and the reason. -/
structure NumError where
  Func : String
  Num : String
  Err : NumErrKind
deriving DecidableEq, Repr

/-- The dynamic values behind the interface type `error` that occur here:
`errors.New(text)` and `*strconv.NumError`. -/
inductive ErrorValue where
  | errorString (s : String)
  | numError (e : NumError)
deriving DecidableEq, Repr

/-- Go interface type `error`; `none` is the nil error. -/
abbrev GoError := Option ErrorValue

/-- Function `errors.New`. -/
def errorsNew (text : String) : GoError := some (ErrorValue.errorString text)

/-- A 32-bit float, by its IEEE 754 bit pattern. -/
structure Float32 where
  bits : Nat
deriving DecidableEq, Repr

/-- A 64-bit float, by its IEEE 754 bit pattern; the zero value is `+0.0`. -/
structure Float64 where
  bits : Nat
deriving DecidableEq, Repr

/-- The dynamic value behind the `interface{}` a loader returns: the five types
the getters switch on, and `other` for a value of any other type. -/
inductive Value where
  | string (s : String)
  | bool (b : Bool)
  | int (n : Int)
  | float32 (x : Float32)
  | float64 (x : Float64)
  | other (typeName : String)
deriving DecidableEq, Repr

/-! ## Package strings -/

/-- Function `unicode.ToLower` as far as its ASCII image goes: the letters `A`-`Z`
map to `a`-`z`, and exactly two runes outside ASCII have an ASCII lower case,
U+0130 (to `i`) and U+212A, the Kelvin sign (to `k`).  Every other rune outside
ASCII is mapped by the Unicode tables to a rune outside ASCII and stands for
its own image here. -/
def toLowerRune (c : Char) : Char :=
  if 65 ≤ c.toNat ∧ c.toNat ≤ 90 then Char.ofNat (c.toNat + 32)
  else if c.toNat = 0x130 then 'i'
  else if c.toNat = 0x212A then 'k'
  else c

/-- Function `strings.ToLower`. -/
def ToLower (s : String) : String := ⟨s.data.map toLowerRune⟩

/-- Function `strings.Contains`. -/
def Contains (s substr : String) : Prop := substr.data <:+: s.data

instance (s substr : String) : Decidable (Contains s substr) := by
  unfold Contains
  infer_instance

/-! ## Package strconv -/

/-- Hexadecimal digit of `strconv.Quote`. -/
def lowerhex (n : Nat) : Char := "0123456789abcdef".data.getD n '0'

/-- One rune of `strconv.Quote`: the quote and the backslash are escaped, printable
runes stand for themselves, control characters get their escape and other
runes that `strconv.IsPrint` rejects are written as a backslash, `u` and four
hexadecimal digits.  Up to U+00FF the printable runes are those of `IsPrint`:
U+0020 to U+007E and U+00A1 to U+00FF without U+00AD.  Runes above U+00FF are
taken to be printable (the tables of `IsPrint` are not reproduced). -/
def quoteRune (c : Char) : List Char :=
  if c = '"' ∨ c = '\\' then ['\\', c]
  else if (32 ≤ c.toNat ∧ c.toNat ≤ 126) ∨ (161 ≤ c.toNat ∧ c.toNat ≤ 255 ∧ c.toNat ≠ 173) ∨
      256 ≤ c.toNat then [c]
  else if c.toNat = 7 then ['\\', 'a']
  else if c.toNat = 8 then ['\\', 'b']
  else if c.toNat = 12 then ['\\', 'f']
  else if c.toNat = 10 then ['\\', 'n']
  else if c.toNat = 13 then ['\\', 'r']
  else if c.toNat = 9 then ['\\', 't']
  else if c.toNat = 11 then ['\\', 'v']
  else if c.toNat < 32 ∨ c.toNat = 127 then
    ['\\', 'x', lowerhex (c.toNat / 16), lowerhex (c.toNat % 16)]
  else
    ['\\', 'u', lowerhex (c.toNat / 4096 % 16), lowerhex (c.toNat / 256 % 16),
      lowerhex (c.toNat / 16 % 16), lowerhex (c.toNat % 16)]

/-- Function `strconv.Quote`, exact on strings of runes up to U+00FF (see
`quoteRune`). -/
def Quote (s : String) : String := ⟨'"' :: (s.data.flatMap quoteRune ++ ['"'])⟩

/-- Message of a strconv sentinel error. -/
def NumErrKind.Error : NumErrKind → String
  | .ErrSyntax => "invalid syntax"
  | .ErrRange => "value out of range"

/-- Method `Error()` of `*strconv.NumError`. -/
def NumError.Error (e : NumError) : String :=
  "strconv." ++ e.Func ++ ": parsing " ++ Quote e.Num ++ ": " ++ e.Err.Error

/-- Method `Error()` of an error value. -/
def ErrorValue.Error : ErrorValue → String
  | .errorString s => s
  | .numError e => e.Error

/-- Function `strconv.lower`, on a byte: `c | ('x' - 'X')`. -/
def lower (c : Nat) : Nat := c ||| 32

/-- Value of a byte as a digit in `ParseUint`: decimal digits, then letters from
ten on (which base 10 rejects); `none` for any other byte, and for any rune
outside ASCII (whose bytes are all above the letters). -/
def digitVal (c : Nat) : Option Nat :=
  if 48 ≤ c ∧ c ≤ 57 then some (c - 48)
  else if 97 ≤ lower c ∧ lower c ≤ 122 then some (lower c - 97 + 10)
  else none

/-- Digit loop of `strconv.ParseUint(s, 10, bitSize)` over `uint64`: returns the
value and the kind of error raised, if any.  `maxVal` is `1<<bitSize - 1`. -/
def parseUintLoop (maxVal : Nat) : List Char → Nat → Nat × Option NumErrKind
  | [], n => (n, none)
  | ch :: rest, n =>
    match digitVal ch.toNat with
    | none => (0, some .ErrSyntax)
    | some d =>
      if d ≥ 10 then (0, some .ErrSyntax)
      else if n ≥ (2 ^ 64 - 1) / 10 + 1 then (maxVal, some .ErrRange)
      else
        let n10 := (n * 10) % 2 ^ 64
        let n1 := (n10 + d) % 2 ^ 64
        if n1 < n10 ∨ n1 > maxVal then (maxVal, some .ErrRange)
        else parseUintLoop maxVal rest n1

/-- Function `strconv.ParseUint(s, 10, bitSize)`; its error is always a
`*NumError`. -/
def ParseUint (s : String) (bitSize : Nat) : Nat × Option NumError :=
  if s = "" then (0, some ⟨"ParseUint", s, .ErrSyntax⟩)
  else
    match parseUintLoop (2 ^ bitSize - 1) s.data 0 with
    | (n, none) => (n, none)
    | (n, some k) => (n, some ⟨"ParseUint", s, k⟩)

/-- Conversion of an integer to a signed integer type of the given width
(two's complement wrap-around). -/
def wrapInt (bits : Nat) (x : Int) : Int :=
  (x + 2 ^ (bits - 1)) % 2 ^ bits - 2 ^ (bits - 1)

/-- Second half of `strconv.ParseInt(s0, 10, bitSize)`, after the sign is picked
off: convert the rest `s` unsigned and check the range. -/
def ParseInt.convert (s0 : String) (bitSize : Nat) (neg : Bool) (s : String) :
    Int × Option NumError :=
  let (un, err) := ParseUint s bitSize
  if err.isSome ∧ err.map NumError.Err ≠ some .ErrRange then
    (0, err.map (fun e => { e with Func := "ParseInt", Num := s0 }))
  else
    let cutoff : Nat := 2 ^ (bitSize - 1)
    if neg = false ∧ un ≥ cutoff then ((cutoff : Int) - 1, some ⟨"ParseInt", s0, .ErrRange⟩)
    else if neg = true ∧ un > cutoff then (-(cutoff : Int), some ⟨"ParseInt", s0, .ErrRange⟩)
    else
      let n := wrapInt 64 un
      (if neg then wrapInt 64 (-n) else n, none)

/-- Function `strconv.ParseInt(s, 10, bitSize)`: pick off the leading sign,
convert unsigned, check the range. -/
def ParseInt (s : String) (bitSize : Nat) : Int × Option NumError :=
  if s = "" then (0, some ⟨"ParseInt", s, .ErrSyntax⟩)
  else if s.data.head? = some '+' then ParseInt.convert s bitSize false ⟨s.data.tail⟩
  else if s.data.head? = some '-' then ParseInt.convert s bitSize true ⟨s.data.tail⟩
  else ParseInt.convert s bitSize false s

/-- Function `strconv.Atoi`: `ParseInt(s, 10, 0)` converted to `int`, a
`*NumError` renamed after Atoi. -/
def Atoi (rt : Runtime) (s : String) : Int × GoError :=
  let (i64, err) := ParseInt s rt.intSize
  (wrapInt rt.intSize i64, err.map (fun e => .numError { e with Func := "Atoi" }))

/-- The floating-point operations `GetFloat` relies on: `strconv.ParseFloat(s, 64)`,
the widening of a `float32` and the conversion of an `int`.  Statements that
hold whatever these do are made for every `FloatOps`; `goFloatOps` has Go's. -/
structure FloatOps where
  ParseFloat : String → Float64 × GoError
  ofFloat32 : Float32 → Float64
  ofInt : Int → Float64

/-! ## The package: `Config`, its constructors and getters -/

/-- Type `Loader`: a Go func from the path elements to a raw value and an
error.  A Go func may keep state between calls, so its answer may depend on
the invocations logged so far (first argument) as well as on the path.  It is
handed the contents of the slice; a loader that writes to the slice it is
given is outside this model. -/
abbrev Loader := List (List String) → List String → Value × GoError

/-- Struct `Config`. -/
structure Config where
  loader : Loader
  pathElements : Slice
  errors : Slice

/-- A `*Config`: the index of the struct in the store. -/
abbrev Ptr := Nat

/-- The program state: the backing arrays of the string slices and of the error
slices, the allocated `Config` structs, and the log of loader invocations (the
contents of the slice each one received). -/
structure World where
  strings : Mem String
  errs : Mem GoError
  configs : List Config
  calls : List (List String)

/-- The state before anything is allocated. -/
def World.empty : World := ⟨[], [], [], []⟩

/-- Variable `ACCEPTABLE_TRUETHY`. -/
def ACCEPTABLE_TRUETHY : List String := ["yes", "1", "true", "y"]

/-- Variable `ACCEPTABLE_FALSY`. -/
def ACCEPTABLE_FALSY : List String := ["no", "0", "false", "n"]

/-- Function `inArray`: whether some element of the haystack equals the
lower-cased needle. -/
def inArray (needle : String) : List String → Bool
  | [] => false
  | v :: haystack => if v = ToLower needle then true else inArray needle haystack

/-- Method `GetErrors`: the contents of the slice `c.errors`. -/
def GetErrors (c : Ptr) (w : World) : Option (List GoError) :=
  w.configs[c]?.map (fun cfg => w.errs.view cfg.errors)

/-- Function `NewConfig`: a struct with the loader and the one-element slice
literal holding the application name; the errors field stays nil. -/
def NewConfig (applicationName : String) (loader : Loader) (w : World) : Ptr × World :=
  (w.configs.length,
    { w with
      strings := w.strings ++ [[applicationName]]
      configs := w.configs ++ [⟨loader, ⟨w.strings.length, 1, 1⟩, nilSlice⟩] })

/-- Method `ChildConfig`: a struct with the same loader and
`append(c.pathElements, name)`; the errors field stays nil. -/
def ChildConfig (rt : Runtime) (c : Ptr) (name : String) (w : World) : Option (Ptr × World) :=
  match w.configs[c]? with
  | none => none
  | some cfg =>
    let (strs, path) := append rt w.strings cfg.pathElements name
    some (w.configs.length,
      { w with strings := strs, configs := w.configs ++ [⟨cfg.loader, path, nilSlice⟩] })

/-- The first statement of every getter: `c.loader(append(c.pathElements, name))`.
The invocation is logged with the contents of the slice passed. -/
def callLoader (rt : Runtime) (cfg : Config) (name : String) (w : World) :
    (Value × GoError) × World :=
  let (strs, arg) := append rt w.strings cfg.pathElements name
  (cfg.loader w.calls (Mem.view strs arg),
    { w with strings := strs, calls := w.calls ++ [Mem.view strs arg] })

/-- The statement `c.errors = append(c.errors, err)`. -/
def recordError (rt : Runtime) (c : Ptr) (err : GoError) (w : World) : World :=
  match w.configs[c]? with
  | none => w
  | some cfg =>
    let (errs, es) := append rt w.errs cfg.errors err
    { w with errs := errs, configs := w.configs.set c { cfg with errors := es } }

/-- Method `GetString`. -/
def GetString (rt : Runtime) (c : Ptr) (name : String) (w : World) :
    Option ((String × GoError) × World) :=
  match w.configs[c]? with
  | none => none
  | some cfg =>
    let ((value, loadErr), w1) := callLoader rt cfg name w
    if loadErr ≠ none then some (("", loadErr), recordError rt c loadErr w1)
    else
      match value with
      | .string t => some ((t, none), w1)
      | _ =>
        let err := errorsNew ("value is not a string for name " ++ name)
        some (("", err), recordError rt c err w1)

/-- Method `MayGetString`. -/
def MayGetString (rt : Runtime) (c : Ptr) (name : String) (w : World) :
    Option (String × World) :=
  (GetString rt c name w).map (fun r => (r.1.1, r.2))

/-- Method `GetBool`. -/
def GetBool (rt : Runtime) (c : Ptr) (name : String) (w : World) :
    Option ((Bool × GoError) × World) :=
  match w.configs[c]? with
  | none => none
  | some cfg =>
    let ((value, loadErr), w1) := callLoader rt cfg name w
    let err := errorsNew ("value is not a valid boolean or parseable string for name " ++ name)
    if loadErr ≠ none then some ((false, loadErr), recordError rt c loadErr w1)
    else
      match value with
      | .string s =>
        if inArray s ACCEPTABLE_TRUETHY then some ((true, none), w1)
        else if inArray s ACCEPTABLE_FALSY then some ((false, none), w1)
        else some ((false, err), recordError rt c err w1)
      | .bool t => some ((t, none), w1)
      | _ => some ((false, err), recordError rt c err w1)

/-- Method `MayGetBool`. -/
def MayGetBool (rt : Runtime) (c : Ptr) (name : String) (w : World) :
    Option (Bool × World) :=
  (GetBool rt c name w).map (fun r => (r.1.1, r.2))

/-- Method `GetInt`. -/
def GetInt (rt : Runtime) (c : Ptr) (name : String) (w : World) :
    Option ((Int × GoError) × World) :=
  match w.configs[c]? with
  | none => none
  | some cfg =>
    let ((value, loadErr), w1) := callLoader rt cfg name w
    if loadErr ≠ none then some ((0, loadErr), recordError rt c loadErr w1)
    else
      match value with
      | .string s =>
        let (intval, parseErr) := Atoi rt s
        if parseErr ≠ none then some ((0, parseErr), recordError rt c parseErr w1)
        else some ((intval, none), w1)
      | .int t => some ((t, none), w1)
      | _ =>
        let err := errorsNew ("value is not an int or parseable string for name " ++ name)
        some ((0, err), recordError rt c err w1)

/-- Method `MayGetInt`. -/
def MayGetInt (rt : Runtime) (c : Ptr) (name : String) (w : World) :
    Option (Int × World) :=
  (GetInt rt c name w).map (fun r => (r.1.1, r.2))

/-- Method `GetFloat`. -/
def GetFloat (rt : Runtime) (fl : FloatOps) (c : Ptr) (name : String) (w : World) :
    Option ((Float64 × GoError) × World) :=
  match w.configs[c]? with
  | none => none
  | some cfg =>
    let ((value, loadErr), w1) := callLoader rt cfg name w
    if loadErr ≠ none then some ((⟨0⟩, loadErr), recordError rt c loadErr w1)
    else
      match value with
      | .string t =>
        let (floatVal, parseErr) := fl.ParseFloat t
        if parseErr ≠ none then some ((⟨0⟩, parseErr), recordError rt c parseErr w1)
        else some ((floatVal, none), w1)
      | .float32 t => some ((fl.ofFloat32 t, none), w1)
      | .float64 t => some ((t, none), w1)
      | .int t => some ((fl.ofInt t, none), w1)
      | _ =>
        let err := errorsNew
          ("value is not a compatible float (32, 64), int or parseable string for name " ++ name)
        some ((⟨0⟩, err), recordError rt c err w1)

/-- Method `MayGetFloat`. -/
def MayGetFloat (rt : Runtime) (fl : FloatOps) (c : Ptr) (name : String) (w : World) :
    Option (Float64 × World) :=
  (GetFloat rt fl c name w).map (fun r => (r.1.1, r.2))

/-! ## Sequences of calls, and the vocabulary of the statements -/

/-- Repeated `ChildConfig`: `c.ChildConfig(s1)...ChildConfig(sn)`. -/
def ChildConfigs (rt : Runtime) : Ptr → List String → World → Option (Ptr × World)
  | c, [], w => some (c, w)
  | c, s :: segs, w =>
    match ChildConfig rt c s w with
    | none => none
    | some (c1, w1) => ChildConfigs rt c1 segs w1

/-- A call of one of the eight getters, with the field name. -/
inductive Call where
  | getString (name : String)
  | mayGetString (name : String)
  | getBool (name : String)
  | mayGetBool (name : String)
  | getInt (name : String)
  | mayGetInt (name : String)
  | getFloat (name : String)
  | mayGetFloat (name : String)
deriving DecidableEq, Repr

/-- The field name of a call. -/
def Call.name : Call → String
  | .getString n | .mayGetString n | .getBool n | .mayGetBool n => n
  | .getInt n | .mayGetInt n | .getFloat n | .mayGetFloat n => n

/-- The state after a call on the accessor `c`. -/
def Call.exec (rt : Runtime) (fl : FloatOps) (c : Ptr) : Call → World → Option World
  | .getString n, w => (GetString rt c n w).map (fun r => r.2)
  | .mayGetString n, w => (MayGetString rt c n w).map (fun r => r.2)
  | .getBool n, w => (GetBool rt c n w).map (fun r => r.2)
  | .mayGetBool n, w => (MayGetBool rt c n w).map (fun r => r.2)
  | .getInt n, w => (GetInt rt c n w).map (fun r => r.2)
  | .mayGetInt n, w => (MayGetInt rt c n w).map (fun r => r.2)
  | .getFloat n, w => (GetFloat rt fl c n w).map (fun r => r.2)
  | .mayGetFloat n, w => (MayGetFloat rt fl c n w).map (fun r => r.2)

/-- The error that the `Get*` method behind a call returns in a state (a
`MayGet*` runs its `Get*` and drops the error); nil if the call does not run. -/
def Call.error (rt : Runtime) (fl : FloatOps) (c : Ptr) : Call → World → GoError
  | .getString n, w | .mayGetString n, w => ((GetString rt c n w).map (fun r => r.1.2)).getD none
  | .getBool n, w | .mayGetBool n, w => ((GetBool rt c n w).map (fun r => r.1.2)).getD none
  | .getInt n, w | .mayGetInt n, w => ((GetInt rt c n w).map (fun r => r.1.2)).getD none
  | .getFloat n, w | .mayGetFloat n, w => ((GetFloat rt fl c n w).map (fun r => r.1.2)).getD none

/-- A sequence of calls on one accessor, in order. -/
def runCalls (rt : Runtime) (fl : FloatOps) (c : Ptr) : List Call → World → Option World
  | [], w => some w
  | call :: calls, w =>
    match call.exec rt fl c w with
    | none => none
    | some w1 => runCalls rt fl c calls w1

/-- The non-nil errors returned along a sequence of calls, in call order. -/
def returnedErrors (rt : Runtime) (fl : FloatOps) (c : Ptr) : List Call → World → List GoError
  | [], _ => []
  | call :: calls, w =>
    (if call.error rt fl c w ≠ none then [call.error rt fl c w] else []) ++
      match call.exec rt fl c w with
      | none => []
      | some w1 => returnedErrors rt fl c calls w1

/-- A slice header is valid in a memory: its length is within its capacity and
its capacity within its backing array. -/
def Slice.Valid {α : Type} (m : Mem α) (s : Slice) : Prop :=
  s.len ≤ s.cap ∧ s.cap ≤ (m.array s.ptr).length

/-- The accessor `c` exists, its path slice is valid and shows the path `p`. -/
def PathIs (w : World) (c : Ptr) (p : List String) : Prop :=
  ∃ cfg, w.configs[c]? = some cfg ∧ cfg.pathElements.Valid w.strings ∧
    w.strings.view cfg.pathElements = p

/-- Well-formed states: every accessor has valid slices, and no two accessors
share a backing array for their errors. -/
structure World.WF (w : World) : Prop where
  paths : ∀ (c : Ptr) (cfg : Config), w.configs[c]? = some cfg →
    cfg.pathElements.Valid w.strings
  errors : ∀ (c : Ptr) (cfg : Config), w.configs[c]? = some cfg → cfg.errors.Valid w.errs
  apart : ∀ (c d : Ptr) (cfg cfg1 : Config), c ≠ d →
    w.configs[c]? = some cfg → w.configs[d]? = some cfg1 →
    0 < cfg.errors.cap → 0 < cfg1.errors.cap → cfg.errors.ptr ≠ cfg1.errors.ptr

/-- What a getter does to the state once its result is known: the loader call,
then the recording of the error if there is one. -/
def finish (rt : Runtime) (c : Ptr) (cfg : Config) (name : String) (err : GoError)
    (w : World) : World :=
  if err ≠ none then recordError rt c err (callLoader rt cfg name w).2
  else (callLoader rt cfg name w).2

/-- Result of `GetString` as a function of the loader's answer. -/
def stringResult (name : String) (a : Value × GoError) : String × GoError :=
  if a.2 ≠ none then ("", a.2)
  else
    match a.1 with
    | .string t => (t, none)
    | _ => ("", errorsNew ("value is not a string for name " ++ name))

/-- Result of `GetBool` as a function of the loader's answer. -/
def boolResult (name : String) (a : Value × GoError) : Bool × GoError :=
  if a.2 ≠ none then (false, a.2)
  else
    match a.1 with
    | .string s =>
      if inArray s ACCEPTABLE_TRUETHY then (true, none)
      else if inArray s ACCEPTABLE_FALSY then (false, none)
      else (false,
        errorsNew ("value is not a valid boolean or parseable string for name " ++ name))
    | .bool t => (t, none)
    | _ => (false,
        errorsNew ("value is not a valid boolean or parseable string for name " ++ name))

/-- Result of `GetInt` as a function of the loader's answer. -/
def intResult (rt : Runtime) (name : String) (a : Value × GoError) : Int × GoError :=
  if a.2 ≠ none then (0, a.2)
  else
    match a.1 with
    | .string s => if (Atoi rt s).2 ≠ none then (0, (Atoi rt s).2) else ((Atoi rt s).1, none)
    | .int t => (t, none)
    | _ => (0, errorsNew ("value is not an int or parseable string for name " ++ name))

/-- Result of `GetFloat` as a function of the loader's answer. -/
def floatResult (fl : FloatOps) (name : String) (a : Value × GoError) : Float64 × GoError :=
  if a.2 ≠ none then (⟨0⟩, a.2)
  else
    match a.1 with
    | .string t =>
      if (fl.ParseFloat t).2 ≠ none then (⟨0⟩, (fl.ParseFloat t).2)
      else ((fl.ParseFloat t).1, none)
    | .float32 t => (fl.ofFloat32 t, none)
    | .float64 t => (t, none)
    | .int t => (fl.ofInt t, none)
    | _ => (⟨0⟩, errorsNew
        ("value is not a compatible float (32, 64), int or parseable string for name " ++ name))

/-- The accessor `c` exists, its errors slice is valid and shows the list `es`. -/
def ErrsAre (w : World) (c : Ptr) (es : List GoError) : Prop :=
  ∃ cfg, w.configs[c]? = some cfg ∧ cfg.errors.Valid w.errs ∧ w.errs.view cfg.errors = es

/-- A loader as the tests write them: it ignores the path and always answers
with the same raw value and error. -/
def constLoader (v : Value) (err : GoError) : Loader := fun _ _ => (v, err)

/-- Floating-point operations for worked examples only: every string is
rejected as a syntax error and every number is sent to zero. -/
def exampleFloatOps : FloatOps where
  ParseFloat := fun s => (⟨0⟩, some (.numError ⟨"ParseFloat", s, .ErrSyntax⟩))
  ofFloat32 := fun _ => ⟨0⟩
  ofInt := fun _ => ⟨0⟩

/-- All spellings of a word in any letter case: every character either as it
stands or as its ASCII capital. -/
def caseVariants : List Char → List (List Char)
  | [] => [[]]
  | c :: cs => (caseVariants cs).flatMap (fun v => [c :: v, c.toUpper :: v])

/-- The string equals one of the words, in any letter case. -/
def EqualsAnyCase (s : String) (words : List String) : Prop :=
  ∃ v ∈ words, s.data ∈ caseVariants v.data

/-- A decimal digit or a small ASCII letter other than `i` and `k`. -/
def PlainChar (d : Char) : Prop :=
  (48 ≤ d.toNat ∧ d.toNat ≤ 57) ∨
    (97 ≤ d.toNat ∧ d.toNat ≤ 122 ∧ d.toNat ≠ 105 ∧ d.toNat ≠ 107)

instance (d : Char) : Decidable (PlainChar d) := by
  unfold PlainChar
  infer_instance

instance (s : String) (words : List String) : Decidable (EqualsAnyCase s words) := by
  unfold EqualsAnyCase
  infer_instance

/-- A decimal digit, `0` to `9`. -/
def IsDecDigit (c : Char) : Prop := 48 ≤ c.toNat ∧ c.toNat ≤ 57

instance (c : Char) : Decidable (IsDecDigit c) := by
  unfold IsDecDigit
  infer_instance

/-- The number a string of decimal digits writes, most significant digit first. -/
def decValue (ds : List Char) : Nat := ds.foldl (fun a c => a * 10 + (c.toNat - 48)) 0

/-- The string is a base-10 signed integer representable in an `int` of the given
width, and `v` is its value: an optional sign `+` or `-`, then one or more
decimal digits, the value within `-2^(bits-1) .. 2^(bits-1) - 1`. -/
def IsDecimalInt (bits : Nat) (s : String) (v : Int) : Prop :=
  ∃ sign digits : List Char, s.data = sign ++ digits ∧
    (sign = [] ∨ sign = ['+'] ∨ sign = ['-']) ∧
    digits ≠ [] ∧ (∀ c ∈ digits, IsDecDigit c) ∧
    v = (if sign = ['-'] then -(decValue digits : Int) else (decValue digits : Int)) ∧
    -(2 : Int) ^ (bits - 1) ≤ v ∧ v ≤ 2 ^ (bits - 1) - 1

/-- The states a program reaches: from the empty state by `NewConfig`,
`ChildConfig` and getter calls on any accessor. -/
inductive Reachable (rt : Runtime) (fl : FloatOps) : World → Prop where
  | empty : Reachable rt fl World.empty
  | newConfig (applicationName : String) (loader : Loader) (w : World) :
      Reachable rt fl w → Reachable rt fl (NewConfig applicationName loader w).2
  | childConfig (c : Ptr) (name : String) (w : World) (c1 : Ptr) (w1 : World) :
      Reachable rt fl w → ChildConfig rt c name w = some (c1, w1) → Reachable rt fl w1
  | call (c : Ptr) (call : Call) (w w1 : World) :
      Reachable rt fl w → call.exec rt fl c w = some w1 → Reachable rt fl w1

/-- Function `unicode.IsSpace`: the runes with Unicode's White Space property. -/
def IsSpace (c : Char) : Bool :=
  (9 ≤ c.toNat ∧ c.toNat ≤ 13) ∨ c.toNat = 0x20 ∨ c.toNat = 0x85 ∨ c.toNat = 0xA0 ∨
    c.toNat = 0x1680 ∨ (0x2000 ≤ c.toNat ∧ c.toNat ≤ 0x200A) ∨ c.toNat = 0x2028 ∨
    c.toNat = 0x2029 ∨ c.toNat = 0x202F ∨ c.toNat = 0x205F ∨ c.toNat = 0x3000

/-- Function `strings.TrimSpace`: the string without its leading and trailing
white space. -/
def TrimSpace (s : String) : String :=
  ⟨((s.data.dropWhile IsSpace).reverse.dropWhile IsSpace).reverse⟩

/-- Function `strings.Join`: the elements with the separator between them. -/
def Join (elems : List String) (sep : String) : String :=
  match elems with
  | [] => ""
  | e :: rest => rest.foldl (fun b s => b ++ sep ++ s) e

/-- How a call without result ends: it returns, or it panics with a value. -/
inductive Outcome where
  | returns
  | panics (value : String)
deriving DecidableEq, Repr

/-- The loop of `TriggerErrorPanic`: `errorMsg += err.Error() + "\n"` for every
error in turn; calling `Error()` on a nil error is a run-time error (`none`). -/
def errorMsgLoop : List GoError → String → Option String
  | [], errorMsg => some errorMsg
  | none :: _, _ => none
  | some err :: rest, errorMsg => errorMsgLoop rest (errorMsg ++ (err.Error ++ "\n"))

/-- Method `TriggerErrorPanic`.  It assigns to nothing, so the state is no part
of its result; `none` is the run-time error of a nil dereference. -/
def TriggerErrorPanic (c : Ptr) (w : World) : Option Outcome :=
  match w.configs[c]? with
  | none => none
  | some cfg =>
    if (w.errs.view cfg.errors).length > 0 then
      (errorMsgLoop (w.errs.view cfg.errors) "").map (fun errorMsg =>
        Outcome.panics (TrimSpace errorMsg))
    else some Outcome.returns

/-- Function `unicode.ToUpper`: the letters `a`-`z` map to `A`-`Z`, every other
ASCII rune to itself, and a rune outside ASCII to its upper case in the Unicode
tables, which are the parameter `uc`. -/
def toUpperRune (uc : Char → Char) (c : Char) : Char :=
  if 97 ≤ c.toNat ∧ c.toNat ≤ 122 then Char.ofNat (c.toNat - 32)
  else if c.toNat < 128 then c
  else uc c

/-- Function `strings.ToUpper`. -/
def ToUpper (uc : Char → Char) (s : String) : String := ⟨s.data.map (toUpperRune uc)⟩

/-- The process environment as `syscall.Getenv` reads it: the value of a
variable, or `none` when it does not exist. -/
abbrev Environ := String → Option String

/-- Function `NewEnvironmentLoader`, over the environment as it stands during the
run. -/
def NewEnvironmentLoader (uc : Char → Char) (env : Environ) : Loader :=
  fun _ pathElements =>
    let variableName := ToUpper uc (Join pathElements "_")
    match env variableName with
    | none =>
      (.string "", errorsNew ("environment variable " ++ variableName ++ " does not exist"))
    | some value => (.string value, none)

/-- The accessor `c` exists with valid slices, shows the path `p` and the errors
`es`, and holds the loader `loader`. -/
def AccessorIs (w : World) (c : Ptr) (p : List String) (loader : Loader)
    (es : List GoError) : Prop :=
  ∃ cfg, w.configs[c]? = some cfg ∧ cfg.pathElements.Valid w.strings ∧
    w.strings.view cfg.pathElements = p ∧ cfg.loader = loader ∧
    cfg.errors.Valid w.errs ∧ w.errs.view cfg.errors = es

/-- Sign bit of a float64. -/
def Float64.sign (x : Float64) : Nat := x.bits / 2 ^ 63 % 2

/-- Biased exponent field of a float64 (11 bits). -/
def Float64.expField (x : Float64) : Nat := x.bits / 2 ^ 52 % 2 ^ 11

/-- Fraction field of a float64 (52 bits). -/
def Float64.fraction (x : Float64) : Nat := x.bits % 2 ^ 52

/-- The mathematical value of a finite float64 (IEEE 754 binary64); `none` for the
infinities and NaN. -/
def Float64.toRat? (x : Float64) : Option ℚ :=
  if x.expField = 2047 then none
  else
    some ((if x.sign = 1 then -1 else 1) *
      (((if x.expField = 0 then x.fraction else 2 ^ 52 + x.fraction : Nat) : ℚ) *
        (2 : ℚ) ^ (((max x.expField 1 : Nat) : Int) - 1075)))

/-- Number of binary digits of a natural number, by halving: `acc` counts the
halvings done, `fuel` bounds those to come. -/
def bitLenAux : Nat → Nat → Nat → Nat
  | 0, _, acc => acc
  | fuel + 1, n, acc => if n = 0 then acc else bitLenAux fuel (n / 2) (acc + 1)

/-- Number of binary digits of a natural number. -/
def bitLen (n : Nat) : Nat := bitLenAux n n 0

/-- The float64 nearest to the positive rational `num / den`, ties to even (IEEE
754 round to nearest), as a bit pattern without the sign bit, and whether the
rounded value is beyond the largest finite float64 (then the bits are those of
infinity). -/
def roundToFloat64 (num den : Nat) : Nat × Bool :=
  if num = 0 then (0, false)
  else
    let d : Int := (bitLen num : Int) - (bitLen den : Int)
    let k : Int := if den * 2 ^ d.toNat ≤ num * 2 ^ (-d).toNat then d else d - 1
    let e : Int := max k (-1022)
    let a := num * 2 ^ (52 - e).toNat
    let b := den * 2 ^ (e - 52).toNat
    let q := a / b
    let r := a % b
    let m := if b < 2 * r ∨ (2 * r = b ∧ q % 2 = 1) then q + 1 else q
    let bits := (e + 1022).toNat * 2 ^ 52 + m
    if 2047 * 2 ^ 52 ≤ bits then (2047 * 2 ^ 52, true) else (bits, false)

/-- Conversion `float64(t)` of an `int`: the nearest float64, ties to even. -/
def float64OfInt (n : Int) : Float64 :=
  ⟨(if n < 0 then 2 ^ 63 else 0) + (roundToFloat64 n.natAbs 1).1⟩

/-- Conversion `float64(t)` of a `float32`: the same value; an infinity stays an
infinity and a NaN a (quiet) NaN. -/
def float64OfFloat32 (x : Float32) : Float64 :=
  let s := x.bits / 2 ^ 31 % 2
  let e := x.bits / 2 ^ 23 % 2 ^ 8
  let f := x.bits % 2 ^ 23
  if e = 255 then ⟨s * 2 ^ 63 + 2047 * 2 ^ 52 + (if f = 0 then 0 else 2 ^ 51 ||| f * 2 ^ 29)⟩
  else
    let m := if e = 0 then f else 2 ^ 23 + f
    let x2 := max e 1
    ⟨s * 2 ^ 63 + (roundToFloat64 (m * 2 ^ (x2 - 150)) (2 ^ (150 - x2))).1⟩

/-- Function `strconv.commonPrefixLenIgnoreCase`: the length of the common
prefix of `s` and the lower-case word `pre`, ASCII capitals of `s` counting as
their small letters. -/
def commonPrefixLenIgnoreCase : List Char → List Char → Nat
  | c :: s, p :: pre =>
    if (if 65 ≤ c.toNat ∧ c.toNat ≤ 90 then c.toNat + 32 else c.toNat) = p.toNat then
      commonPrefixLenIgnoreCase s pre + 1
    else 0
  | _, _ => 0

/-- The value `math.Inf(sign)`. -/
def Float64.inf (neg : Bool) : Float64 := ⟨(if neg then 2 ^ 63 else 0) + 2047 * 2 ^ 52⟩

/-- The value `math.NaN()`. -/
def Float64.nan : Float64 := ⟨0x7FF8000000000001⟩

/-- The infinity branch of `strconv.special`, on the string after its sign (of
`nsign` bytes): the words `inf` and `infinity`; of a longer prefix of `infinity`
only `inf` is consumed. -/
def special.infinity (neg : Bool) (nsign : Nat) (s : List Char) : Option (Float64 × Nat) :=
  let n := commonPrefixLenIgnoreCase s "infinity".data
  let n := if 3 < n ∧ n < 8 then 3 else n
  if n = 3 ∨ n = 8 then some (Float64.inf neg, nsign + n) else none

/-- Function `strconv.special`: the special values `inf`, `infinity` (with an
optional sign) and `nan` at the start of the string, in any letter case, with the
number of bytes consumed. -/
def special (s : List Char) : Option (Float64 × Nat) :=
  match s with
  | [] => none
  | c :: rest =>
    if c = '+' ∨ c = '-' then special.infinity (c = '-') 1 rest
    else if c = 'i' ∨ c = 'I' then special.infinity false 0 s
    else if c = 'n' ∨ c = 'N' then
      if commonPrefixLenIgnoreCase s "nan".data = 3 then some (Float64.nan, 3) else none
    else none

/-- What `strconv.underscoreOK` remembers of the last character seen: the
beginning of the number (`^`), a digit or base prefix (`0`), an underscore (`_`),
none of these (`!`). -/
inductive Saw where
  | start
  | digit
  | underscore
  | other
deriving DecidableEq, Repr

/-- The loop of `strconv.underscoreOK` over the number proper. -/
def underscoreOK.loop (hex : Bool) : List Char → Saw → Bool
  | [], saw => saw ≠ .underscore
  | c :: cs, saw =>
    if (48 ≤ c.toNat ∧ c.toNat ≤ 57) ∨
        (hex = true ∧ 97 ≤ lower c.toNat ∧ lower c.toNat ≤ 102) then
      underscoreOK.loop hex cs .digit
    else if c = '_' then
      if saw ≠ .digit then false else underscoreOK.loop hex cs .underscore
    else if saw = .underscore then false
    else underscoreOK.loop hex cs .other

/-- The base-prefix step of `strconv.underscoreOK`, after the optional sign. -/
def underscoreOK.number (s : List Char) : Bool :=
  match s with
  | c0 :: c1 :: rest =>
    if c0 = '0' ∧ (lower c1.toNat = 98 ∨ lower c1.toNat = 111 ∨ lower c1.toNat = 120) then
      underscoreOK.loop (lower c1.toNat = 120) rest .digit
    else underscoreOK.loop false s .start
  | _ => underscoreOK.loop false s .start

/-- Function `strconv.underscoreOK`: whether the underscores in `s` are allowed,
that is, stand only between digits or between a base prefix and a digit. -/
def underscoreOK (s : List Char) : Bool :=
  match s with
  | c :: rest => if c = '-' ∨ c = '+' then underscoreOK.number rest else underscoreOK.number s
  | [] => underscoreOK.number s

/-- The variables of the mantissa loop of `strconv.readFloat`.  The field
`mantissa` holds the value of all digits read; the code keeps the first 19 (16
in base 16) in a `uint64` and a flag `trunc` that a non-zero digit was dropped,
from which its conversions round as from the whole digit string. -/
structure ReadState where
  mantissa : Nat
  nd : Nat
  dp : Int
  sawdot : Bool
  sawdigits : Bool
  underscores : Bool
deriving DecidableEq, Repr

/-- The mantissa loop of `strconv.readFloat`: digits of the base, underscores and
at most one point; returns the variables and the unread rest of the string. -/
def readFloat.digits (base : Nat) : List Char → ReadState → ReadState × List Char
  | [], st => (st, [])
  | c :: cs, st =>
    if c = '_' then readFloat.digits base cs { st with underscores := true }
    else if c = '.' then
      if st.sawdot = true then (st, c :: cs)
      else readFloat.digits base cs { st with sawdot := true, dp := st.nd }
    else if 48 ≤ c.toNat ∧ c.toNat ≤ 57 then
      if c = '0' ∧ st.nd = 0 then
        readFloat.digits base cs { st with sawdigits := true, dp := st.dp - 1 }
      else
        readFloat.digits base cs { st with
          sawdigits := true, nd := st.nd + 1,
          mantissa := st.mantissa * base + (c.toNat - 48) }
    else if base = 16 ∧ 97 ≤ lower c.toNat ∧ lower c.toNat ≤ 102 then
      readFloat.digits base cs { st with
        sawdigits := true, nd := st.nd + 1,
        mantissa := st.mantissa * 16 + (lower c.toNat - 97 + 10) }
    else (st, c :: cs)

/-- The exponent loop of `strconv.readFloat`: decimal digits and underscores; the
exponent stops growing at 10000. -/
def readFloat.expDigits : List Char → Nat → Bool → Nat × Bool × List Char
  | [], e, u => (e, u, [])
  | c :: cs, e, u =>
    if 48 ≤ c.toNat ∧ c.toNat ≤ 57 then
      readFloat.expDigits cs (if e < 10000 then e * 10 + (c.toNat - 48) else e) u
    else if c = '_' then readFloat.expDigits cs e true
    else (e, u, c :: cs)

/-- What `strconv.readFloat` returns when `ok`: the number is
`mantissa * 10^exp`, or `mantissa * 2^exp` when `hex`, negated when `neg`;
`rest` is the unread part of the string. -/
structure FloatParts where
  mantissa : Nat
  exp : Int
  neg : Bool
  hex : Bool
  rest : List Char
deriving DecidableEq, Repr

/-- The end of `strconv.readFloat`: the placement of the underscores in the part
of the string that was read is checked. -/
def readFloat.done (s : List Char) (neg hex : Bool) (st : ReadState) (dp : Int)
    (underscores : Bool) (rest : List Char) : Option FloatParts :=
  if underscores = true ∧ underscoreOK (s.take (s.length - rest.length)) = false then none
  else
    some ⟨st.mantissa,
      if st.mantissa ≠ 0 then dp - (if hex then (st.nd : Int) * 4 else st.nd) else 0,
      neg, hex, rest⟩

/-- The exponent part of `strconv.readFloat`: after the exponent character an
optional sign and at least one digit. -/
def readFloat.exponent (s : List Char) (neg hex : Bool) (st : ReadState) (dp : Int)
    (s4 : List Char) : Option FloatParts :=
  match s4 with
  | [] => none
  | c :: r =>
    let esign : Int := if c = '-' then -1 else 1
    let s5 := if c = '+' ∨ c = '-' then r else s4
    match s5 with
    | [] => none
    | d :: _ =>
      if d.toNat < 48 ∨ 57 < d.toNat then none
      else
        let (e, u, s6) := readFloat.expDigits s5 0 st.underscores
        readFloat.done s neg hex st (dp + (e : Int) * esign) u s6

/-- The mantissa and exponent part of `strconv.readFloat`, from `s2` on (after
the sign and the base prefix): at least one digit, then the exponent, which a
hexadecimal number must have. -/
def readFloat.mantissa (s : List Char) (neg hex : Bool) (s2 : List Char) : Option FloatParts :=
  let (st, s3) := readFloat.digits (if hex then 16 else 10) s2 ⟨0, 0, 0, false, false, false⟩
  if st.sawdigits = false then none
  else
    let dp0 : Int := if st.sawdot then st.dp else st.nd
    let dp : Int := if hex then dp0 * 4 else dp0
    match s3 with
    | c :: s4 =>
      if lower c.toNat = (if hex then 112 else 101) then readFloat.exponent s neg hex st dp s4
      else if hex then none
      else readFloat.done s neg hex st dp st.underscores s3
    | [] =>
      if hex then none else readFloat.done s neg hex st dp st.underscores s3

/-- The test of `strconv.readFloat` for the base prefix `0x` or `0X`, which
counts only when a further byte follows. -/
def readFloat.isHex (s1 : List Char) : Bool :=
  match s1 with
  | a :: b :: _ :: _ => a = '0' ∧ lower b.toNat = 120
  | _ => false

/-- Function `strconv.readFloat`: reads a decimal or hexadecimal mantissa and
exponent from the start of `s`; `none` when the code returns `ok = false`. -/
def readFloat (s : List Char) : Option FloatParts :=
  match s with
  | [] => none
  | c0 :: r0 =>
    let neg : Bool := c0 = '-'
    let s1 := if c0 = '+' ∨ c0 = '-' then r0 else s
    let hex := readFloat.isHex s1
    readFloat.mantissa s neg hex (if hex then s1.drop 2 else s1)

/-- The conversion at the end of `strconv.atof64`, for `mantissa * base^exp`:
the nearest float64, ties to even, with the sign; beyond the largest finite
float64 the infinity and a range error.  The code reaches this result, which
the package documents (the nearest floating-point number, IEEE 754 unbiased
rounding), by fast paths and an exact decimal fallback that are not transcribed
here. -/
def FloatParts.toFloat64 (p : FloatParts) : Float64 × Bool :=
  let base : Nat := if p.hex then 2 else 10
  let r := roundToFloat64 (p.mantissa * base ^ p.exp.toNat) (base ^ (-p.exp).toNat)
  (⟨(if p.neg then 2 ^ 63 else 0) + r.1⟩, r.2)

/-- Function `strconv.ParseFloat(s, 64)`: the special values, else a decimal or
hexadecimal floating-point number; the whole string must be read.  The error is
a `*NumError` with `ErrSyntax` or `ErrRange`. -/
def ParseFloat (s : String) : Float64 × GoError :=
  match special s.data with
  | some (val, n) =>
    if n ≠ s.data.length then (⟨0⟩, some (.numError ⟨"ParseFloat", s, .ErrSyntax⟩))
    else (val, none)
  | none =>
    match readFloat s.data with
    | none => (⟨0⟩, some (.numError ⟨"ParseFloat", s, .ErrSyntax⟩))
    | some p =>
      if p.rest ≠ [] then (⟨0⟩, some (.numError ⟨"ParseFloat", s, .ErrSyntax⟩))
      else if p.toFloat64.2 = true then
        (p.toFloat64.1, some (.numError ⟨"ParseFloat", s, .ErrRange⟩))
      else (p.toFloat64.1, none)

/-- The floating-point operations of the Go runtime and of package strconv. -/
def goFloatOps : FloatOps where
  ParseFloat := ParseFloat
  ofFloat32 := float64OfFloat32
  ofInt := float64OfInt

/-- The test for a digit in the loops of `readFloat` and `underscoreOK`: a decimal
digit, or with `hex` a letter that `lower` sends to `a` .. `f`. -/
def LoopDigit (hex : Bool) (c : Char) : Prop :=
  (48 ≤ c.toNat ∧ c.toNat ≤ 57) ∨ (hex = true ∧ 97 ≤ lower c.toNat ∧ lower c.toNat ≤ 102)

/-- A run of digits and underscores, in any arrangement. -/
def IsRun (digit : Char → Prop) (l : List Char) : Prop := ∀ c ∈ l, digit c ∨ c = '_'

/-- A hexadecimal digit: `0` to `9`, `a` to `f` or `A` to `F`. -/
def IsHexDigit (c : Char) : Prop :=
  IsDecDigit c ∨ (97 ≤ c.toNat ∧ c.toNat ≤ 102) ∨ (65 ≤ c.toNat ∧ c.toNat ≤ 70)

/-- Digits as Go's syntax for number literals writes them: one or more digits,
with single underscores allowed between two of them. -/
inductive Digits (digit : Char → Prop) : List Char → Prop where
  | one (c : Char) : digit c → Digits digit [c]
  | cons (c : Char) (l : List Char) : digit c → Digits digit l → Digits digit (c :: l)
  | sep (c : Char) (l : List Char) : digit c → Digits digit l → Digits digit (c :: '_' :: l)

/-- No characters, or digits. -/
def OptDigits (digit : Char → Prop) (l : List Char) : Prop := l = [] ∨ Digits digit l

/-- An optional sign: nothing, `+` or `-`. -/
def IsSign (l : List Char) : Prop := l = [] ∨ l = ['+'] ∨ l = ['-']

/-- An optional fractional part: nothing, or a point followed by optional digits. -/
def IsFraction (digit : Char → Prop) (l : List Char) : Prop :=
  l = [] ∨ ∃ fd, l = '.' :: fd ∧ OptDigits digit fd

/-- An exponent: the exponent letter in either case, an optional sign, decimal
digits. -/
def IsExponent (small capital : Char) (l : List Char) : Prop :=
  ∃ e sign ds, l = e :: (sign ++ ds) ∧ (e = small ∨ e = capital) ∧ IsSign sign ∧
    Digits IsDecDigit ds

/-- A decimal floating-point number as `strconv.ParseFloat` reads it: an
optional sign, decimal digits with an optional fractional part (or a point
followed by digits), an optional decimal exponent; underscores may separate
digits. -/
def IsDecimalFloat (s : List Char) : Prop :=
  ∃ sign ip fp ex, s = sign ++ (ip ++ (fp ++ ex)) ∧ IsSign sign ∧
    OptDigits IsDecDigit ip ∧ IsFraction IsDecDigit fp ∧ (ip ≠ [] ∨ 2 ≤ fp.length) ∧
    (ex = [] ∨ IsExponent 'e' 'E' ex)

/-- A hexadecimal floating-point number as `strconv.ParseFloat` reads it: an
optional sign, `0x` or `0X`, hexadecimal digits with an optional fractional part
(or a point followed by digits), and a binary exponent `p`; underscores may
separate digits, and one may follow the prefix when a digit comes next. -/
def IsHexFloat (s : List Char) : Prop :=
  ∃ sign x ip fp ex, s = sign ++ '0' :: x :: (ip ++ (fp ++ ex)) ∧ IsSign sign ∧
    (x = 'x' ∨ x = 'X') ∧
    (OptDigits IsHexDigit ip ∨ ∃ ds, ip = '_' :: ds ∧ Digits IsHexDigit ds) ∧
    IsFraction IsHexDigit fp ∧ (ip ≠ [] ∨ 2 ≤ fp.length) ∧ IsExponent 'p' 'P' ex

/-- A floating-point literal, decimal or hexadecimal. -/
def IsFloatLiteral (s : String) : Prop := IsDecimalFloat s.data ∨ IsHexFloat s.data

/-- One of the words `ParseFloat` reads as special values, in any letter case:
`inf` or `infinity` with an optional sign, or `nan`. -/
def IsFloatWord (s : String) : Prop :=
  (∃ sign word, s.data = sign ++ word ∧ IsSign sign ∧
    EqualsAnyCase ⟨word⟩ ["inf", "infinity"]) ∨ EqualsAnyCase s ["nan"]

/-- The parts `readFloat` reads after the sign and the base prefix, as the proofs
about it name them: the digits `ip` before the point, the fraction `fp` (a point
and digits) and the exponent `ex` (a letter, a sign and digits), with what is
known of each run of digits. -/
def ReadShape (R1 R2 R3 : List Char → Prop) (hex : Bool) (ip fp ex : List Char) : Prop :=
  R1 ip ∧ (fp = [] ∨ ∃ r2, fp = '.' :: r2 ∧ R2 r2) ∧ (ip ≠ [] ∨ 2 ≤ fp.length) ∧
    ((ex = [] ∧ hex = false) ∨
      ∃ e sign r3, ex = e :: (sign ++ r3) ∧ lower e.toNat = (if hex then 112 else 101) ∧
        IsSign sign ∧ r3 ≠ [] ∧ R3 r3)

/-- An integer rounded to 53 significant binary digits, to nearest and ties to
even, as the proofs about `float64OfInt` name it: with `k` the number of
binary digits beyond 53, the quotient by `2^k` is rounded by the remainder. -/
def roundInt (a : Nat) : Nat :=
  let k := bitLen a - 53
  let q := a / 2 ^ k
  let r := a % 2 ^ k
  (if 2 ^ k < 2 * r ∨ (2 * r = 2 ^ k ∧ q % 2 = 1) then q + 1 else q) * 2 ^ k

/-! ## Memory and `append` -/

theorem Mem.array_set_self {α : Type} (m : Mem α) (p : Nat) (a : List α) (h : p < m.length) :
    Mem.array (m.set p a) p = a := by
  simp [Mem.array, List.getD_eq_getElem?_getD, List.getElem?_set, h]

theorem Mem.array_set_ne {α : Type} (m : Mem α) (p q : Nat) (a : List α) (h : p ≠ q) :
    Mem.array (m.set p a) q = Mem.array m q := by
  simp [Mem.array, List.getD_eq_getElem?_getD, List.getElem?_set, h]

theorem Mem.array_append_lt {α : Type} (m : Mem α) (a : List α) (q : Nat) (h : q < m.length) :
    Mem.array (m ++ [a]) q = Mem.array m q := by
  simp [Mem.array, List.getD_eq_getElem?_getD, List.getElem?_append_left h]

theorem Mem.array_append_length {α : Type} (m : Mem α) (a : List α) :
    Mem.array (m ++ [a]) m.length = a := by
  simp [Mem.array, List.getD_eq_getElem?_getD]

theorem Mem.array_of_length_le {α : Type} (m : Mem α) (q : Nat) (h : m.length ≤ q) :
    Mem.array m q = [] := by
  simp [Mem.array, List.getD_eq_getElem?_getD, List.getElem?_eq_none h]

theorem Slice.Valid.ptr_lt {α : Type} {m : Mem α} {s : Slice} (h : s.Valid m) (hc : 0 < s.cap) :
    s.ptr < m.length := by
  by_contra hlt
  have := Mem.array_of_length_le m s.ptr (by omega)
  have h2 := h.2
  rw [this] at h2
  simp at h2
  omega

theorem take_set_of_le {α : Type} (l : List α) (a : α) {n k : Nat} (h : k ≤ n) :
    (l.set n a).take k = l.take k := by
  apply List.ext_getElem?
  intro i
  rw [List.getElem?_take, List.getElem?_take]
  split
  · rw [List.getElem?_set_ne (by omega)]
  · rfl

theorem append_view {α : Type} [Inhabited α] (rt : Runtime) (m : Mem α) (s : Slice) (x : α)
    (h : s.Valid m) :
    (append rt m s x).1.view (append rt m s x).2 = m.view s ++ [x] := by
  unfold append
  split
  · rename_i hlt
    have hp : s.ptr < m.length := h.ptr_lt (by omega)
    have hl : s.len < (m.array s.ptr).length := by have := h.2; omega
    simp only [Mem.view, Mem.array_set_self m _ _ hp]
    rw [List.take_succ, take_set_of_le _ _ (Nat.le_refl _), List.getElem?_set_self hl]
    simp
  · simp only [Mem.view, Mem.array_append_length]
    have hlen : (List.take s.len (m.array s.ptr)).length = s.len := by
      rw [List.length_take]; have := h.1; have := h.2; omega
    rw [List.take_append_eq_append_take, hlen]
    simp [List.take_of_length_le, hlen]

theorem append_valid {α : Type} [Inhabited α] (rt : Runtime) (m : Mem α) (s : Slice) (x : α)
    (h : s.Valid m) :
    (append rt m s x).2.Valid (append rt m s x).1 := by
  unfold append
  split
  · rename_i hlt
    have hp : s.ptr < m.length := h.ptr_lt (by omega)
    refine ⟨by simpa using hlt, ?_⟩
    simp only [Mem.array_set_self m _ _ hp, List.length_set]
    exact h.2
  · refine ⟨rt.growCap_ge _ _, ?_⟩
    simp only [Mem.array_append_length, Mem.view, List.length_append, List.length_take,
      List.length_cons, List.length_replicate]
    have := rt.growCap_ge s.cap (s.len + 1)
    have := h.1; have := h.2
    omega

/-- Appending to one slice keeps every valid slice valid. -/
theorem append_valid_other {α : Type} [Inhabited α] (rt : Runtime) (m : Mem α) (s t : Slice)
    (x : α)
    (ht : t.Valid m) : t.Valid (append rt m s x).1 := by
  unfold append
  split
  · refine ⟨ht.1, ?_⟩
    by_cases hpt : s.ptr = t.ptr
    · by_cases hp : s.ptr < m.length
      · rw [← hpt, Mem.array_set_self m _ _ hp, List.length_set, hpt]; exact ht.2
      · rw [List.set_eq_of_length_le (by omega)]; exact ht.2
    · rw [Mem.array_set_ne m _ _ _ hpt]; exact ht.2
  · refine ⟨ht.1, ?_⟩
    by_cases hc : 0 < t.cap
    · rw [Mem.array_append_lt m _ _ (ht.ptr_lt hc)]; exact ht.2
    · omega

/-- Appending to one slice leaves the view through another valid slice alone,
unless the write is in place, both share the backing array and the other one
reaches beyond the length of the first. -/
theorem append_view_other {α : Type} [Inhabited α] (rt : Runtime) (m : Mem α) (s t : Slice)
    (x : α)
    (ht : t.Valid m) (hd : s.len < s.cap → t.ptr ≠ s.ptr ∨ t.len ≤ s.len) :
    (append rt m s x).1.view t = m.view t := by
  unfold append
  split
  · rename_i hlt
    by_cases hpt : s.ptr = t.ptr
    · by_cases hp : s.ptr < m.length
      · have hle : t.len ≤ s.len := by
          rcases hd hlt with hd | hd
          · exact absurd hpt.symm hd
          · exact hd
        simp only [Mem.view]
        rw [← hpt, Mem.array_set_self m _ _ hp, take_set_of_le _ _ hle]
      · simp only [Mem.view]; rw [List.set_eq_of_length_le (by omega)]
    · simp only [Mem.view]; rw [Mem.array_set_ne m _ _ _ hpt]
  · simp only [Mem.view]
    by_cases hc : 0 < t.cap
    · rw [Mem.array_append_lt m _ _ (ht.ptr_lt hc)]
    · have : t.len = 0 := by have := ht.1; omega
      simp [this]

/-- The slice `append` returns either stays on its array, which then had spare
capacity, or sits on the newly allocated array. -/
theorem append_slice {α : Type} [Inhabited α] (rt : Runtime) (m : Mem α) (s : Slice) (x : α) :
    (s.len < s.cap ∧ (append rt m s x).2.ptr = s.ptr ∧ (append rt m s x).2.cap = s.cap) ∨
      (append rt m s x).2.ptr = m.length := by
  unfold append
  split
  · rename_i h; exact Or.inl ⟨h, rfl, rfl⟩
  · exact Or.inr rfl

theorem Slice.Valid.push {α : Type} (m : Mem α) (a : List α) (t : Slice) (ht : t.Valid m) :
    t.Valid (m ++ [a]) := by
  refine ⟨ht.1, ?_⟩
  by_cases hc : 0 < t.cap
  · rw [Mem.array_append_lt m _ _ (ht.ptr_lt hc)]; exact ht.2
  · omega

theorem nilSlice_valid {α : Type} (m : Mem α) : nilSlice.Valid m := by
  simp [Slice.Valid, nilSlice]

theorem append_length_le {α : Type} [Inhabited α] (rt : Runtime) (m : Mem α) (s : Slice)
    (x : α) :
    m.length ≤ (append rt m s x).1.length := by
  unfold append
  split <;> simp

/-! ## The getters, factored -/

theorem GetString_eq (rt : Runtime) (c : Ptr) (name : String) (w : World) :
    GetString rt c name w = (w.configs[c]?).map (fun cfg =>
      (stringResult name (callLoader rt cfg name w).1,
        finish rt c cfg name (stringResult name (callLoader rt cfg name w).1).2 w)) := by
  unfold GetString
  cases hc : w.configs[c]? with
  | none => rfl
  | some cfg =>
    simp only [Option.map_some', finish, stringResult]
    rcases hcl : callLoader rt cfg name w with ⟨⟨value, loadErr⟩, w1⟩
    cases loadErr with
    | some e => simp
    | none => cases value <;> simp [errorsNew]

theorem GetBool_eq (rt : Runtime) (c : Ptr) (name : String) (w : World) :
    GetBool rt c name w = (w.configs[c]?).map (fun cfg =>
      (boolResult name (callLoader rt cfg name w).1,
        finish rt c cfg name (boolResult name (callLoader rt cfg name w).1).2 w)) := by
  unfold GetBool
  cases hc : w.configs[c]? with
  | none => rfl
  | some cfg =>
    simp only [Option.map_some', finish, boolResult]
    rcases hcl : callLoader rt cfg name w with ⟨⟨value, loadErr⟩, w1⟩
    cases loadErr with
    | some e => simp
    | none =>
      cases value with
      | string s =>
        by_cases h1 : inArray s ACCEPTABLE_TRUETHY = true
        · simp [h1]
        · by_cases h2 : inArray s ACCEPTABLE_FALSY = true
          · simp [h1, h2]
          · simp [h1, h2, errorsNew]
      | _ => simp [errorsNew]

theorem GetInt_eq (rt : Runtime) (c : Ptr) (name : String) (w : World) :
    GetInt rt c name w = (w.configs[c]?).map (fun cfg =>
      (intResult rt name (callLoader rt cfg name w).1,
        finish rt c cfg name (intResult rt name (callLoader rt cfg name w).1).2 w)) := by
  unfold GetInt
  cases hc : w.configs[c]? with
  | none => rfl
  | some cfg =>
    simp only [Option.map_some', finish, intResult]
    rcases hcl : callLoader rt cfg name w with ⟨⟨value, loadErr⟩, w1⟩
    cases loadErr with
    | some e => simp
    | none =>
      cases value with
      | string s =>
        cases hp : (Atoi rt s).2 <;> simp [hp]
      | _ => simp [errorsNew]

theorem GetFloat_eq (rt : Runtime) (fl : FloatOps) (c : Ptr) (name : String) (w : World) :
    GetFloat rt fl c name w = (w.configs[c]?).map (fun cfg =>
      (floatResult fl name (callLoader rt cfg name w).1,
        finish rt c cfg name (floatResult fl name (callLoader rt cfg name w).1).2 w)) := by
  unfold GetFloat
  cases hc : w.configs[c]? with
  | none => rfl
  | some cfg =>
    simp only [Option.map_some', finish, floatResult]
    rcases hcl : callLoader rt cfg name w with ⟨⟨value, loadErr⟩, w1⟩
    cases loadErr with
    | some e => simp
    | none =>
      cases value with
      | string s =>
        cases hp : (fl.ParseFloat s).2 <;> simp [hp]
      | _ => simp [errorsNew]

theorem Call.exec_eq (rt : Runtime) (fl : FloatOps) (c : Ptr) (call : Call) (w : World) :
    call.exec rt fl c w =
      (w.configs[c]?).map (fun cfg => finish rt c cfg call.name (call.error rt fl c w) w) := by
  cases call <;>
    simp only [Call.exec, Call.error, Call.name, MayGetString, MayGetBool, MayGetInt,
      MayGetFloat, GetString_eq, GetBool_eq, GetInt_eq, GetFloat_eq, Option.map_map] <;>
    cases w.configs[c]? <;> simp

theorem callLoader_configs (rt : Runtime) (cfg : Config) (name : String) (w : World) :
    (callLoader rt cfg name w).2.configs = w.configs := rfl

theorem callLoader_errs (rt : Runtime) (cfg : Config) (name : String) (w : World) :
    (callLoader rt cfg name w).2.errs = w.errs := rfl

theorem callLoader_strings (rt : Runtime) (cfg : Config) (name : String) (w : World) :
    (callLoader rt cfg name w).2.strings = (append rt w.strings cfg.pathElements name).1 := rfl

theorem callLoader_calls (rt : Runtime) (cfg : Config) (name : String) (w : World) :
    (callLoader rt cfg name w).2.calls = w.calls ++
      [(append rt w.strings cfg.pathElements name).1.view
        (append rt w.strings cfg.pathElements name).2] := rfl

theorem recordError_strings (rt : Runtime) (c : Ptr) (err : GoError) (w : World) :
    (recordError rt c err w).strings = w.strings := by
  unfold recordError
  split <;> rfl

theorem recordError_calls (rt : Runtime) (c : Ptr) (err : GoError) (w : World) :
    (recordError rt c err w).calls = w.calls := by
  unfold recordError
  split <;> rfl

theorem recordError_errs (rt : Runtime) (c : Ptr) (err : GoError) (w : World) (cfg : Config)
    (hc : w.configs[c]? = some cfg) :
    (recordError rt c err w).errs = (append rt w.errs cfg.errors err).1 := by
  unfold recordError
  rw [hc]

theorem recordError_configs (rt : Runtime) (c : Ptr) (err : GoError) (w : World) (cfg : Config)
    (hc : w.configs[c]? = some cfg) :
    (recordError rt c err w).configs =
      w.configs.set c { cfg with errors := (append rt w.errs cfg.errors err).2 } := by
  unfold recordError
  rw [hc]

theorem finish_strings (rt : Runtime) (c : Ptr) (cfg : Config) (name : String) (err : GoError)
    (w : World) :
    (finish rt c cfg name err w).strings = (append rt w.strings cfg.pathElements name).1 := by
  unfold finish
  split
  · rw [recordError_strings]; rfl
  · rfl

theorem finish_calls (rt : Runtime) (c : Ptr) (cfg : Config) (name : String) (err : GoError)
    (w : World) :
    (finish rt c cfg name err w).calls = w.calls ++
      [(append rt w.strings cfg.pathElements name).1.view
        (append rt w.strings cfg.pathElements name).2] := by
  unfold finish
  split
  · rw [recordError_calls]; rfl
  · rfl

theorem finish_errs_nil (rt : Runtime) (c : Ptr) (cfg : Config) (name : String) (w : World) :
    finish rt c cfg name none w = (callLoader rt cfg name w).2 := by
  simp [finish]

theorem finish_errs (rt : Runtime) (c : Ptr) (cfg : Config) (name : String) (err : GoError)
    (w : World) (hc : w.configs[c]? = some cfg) (he : err ≠ none) :
    (finish rt c cfg name err w).errs = (append rt w.errs cfg.errors err).1 := by
  unfold finish
  rw [if_pos he, recordError_errs rt c err _ cfg (by rw [callLoader_configs]; exact hc)]
  rfl

theorem finish_configs (rt : Runtime) (c : Ptr) (cfg : Config) (name : String) (err : GoError)
    (w : World) (hc : w.configs[c]? = some cfg) (he : err ≠ none) :
    (finish rt c cfg name err w).configs =
      w.configs.set c { cfg with errors := (append rt w.errs cfg.errors err).2 } := by
  unfold finish
  rw [if_pos he, recordError_configs rt c err _ cfg (by rw [callLoader_configs]; exact hc)]
  rfl

/-- Every config after a getter is a config before it, except for the errors
slice of the accessor the getter ran on. -/
theorem finish_lookup (rt : Runtime) (c : Ptr) (cfg : Config) (name : String) (err : GoError)
    (w : World) (hc : w.configs[c]? = some cfg) (d : Ptr) :
    (finish rt c cfg name err w).configs[d]? =
      if d = c ∧ err ≠ none then
        some { cfg with errors := (append rt w.errs cfg.errors err).2 }
      else w.configs[d]? := by
  by_cases he : err = none
  · subst he
    rw [finish_errs_nil, callLoader_configs]
    simp
  · rw [finish_configs rt c cfg name err w hc he, List.getElem?_set]
    have hlt : c < w.configs.length := by
      rcases List.getElem?_eq_some_iff.mp hc with ⟨h, _⟩
      exact h
    by_cases hd : d = c
    · subst hd; simp [he, hlt]
    · have : ¬ c = d := fun h => hd h.symm
      simp [hd, this]

/-! ## Paths -/

/-- A getter logs the accessor's path followed by the field name. -/
theorem finish_calls_of_path (rt : Runtime) (c : Ptr) (cfg : Config) (name : String)
    (err : GoError) (w : World) (p : List String)
    (hv : cfg.pathElements.Valid w.strings) (hp : w.strings.view cfg.pathElements = p) :
    (finish rt c cfg name err w).calls = w.calls ++ [p ++ [name]] := by
  rw [finish_calls, append_view rt _ _ _ hv, hp]

/-- A getter leaves the path of its own accessor as it was. -/
theorem finish_pathIs (rt : Runtime) (c : Ptr) (cfg : Config) (name : String) (err : GoError)
    (w : World) (p : List String) (hc : w.configs[c]? = some cfg)
    (hv : cfg.pathElements.Valid w.strings) (hp : w.strings.view cfg.pathElements = p) :
    PathIs (finish rt c cfg name err w) c p := by
  have hl := finish_lookup rt c cfg name err w hc c
  by_cases he : err ≠ none
  · rw [if_pos ⟨rfl, he⟩] at hl
    refine ⟨_, hl, ?_, ?_⟩
    · rw [finish_strings]; exact append_valid_other rt _ _ _ _ hv
    · rw [finish_strings, append_view_other rt _ _ _ _ hv (fun _ => Or.inr (Nat.le_refl _))]
      exact hp
  · rw [if_neg (fun h => he h.2), hc] at hl
    refine ⟨_, hl, ?_, ?_⟩
    · rw [finish_strings]; exact append_valid_other rt _ _ _ _ hv
    · rw [finish_strings, append_view_other rt _ _ _ _ hv (fun _ => Or.inr (Nat.le_refl _))]
      exact hp

theorem NewConfig_pathIs (applicationName : String) (loader : Loader) (w : World) :
    PathIs (NewConfig applicationName loader w).2 (NewConfig applicationName loader w).1
      [applicationName] := by
  refine ⟨⟨loader, ⟨w.strings.length, 1, 1⟩, nilSlice⟩, ?_, ?_, ?_⟩
  · simp [NewConfig]
  · simp [NewConfig, Slice.Valid, Mem.array_append_length]
  · simp [NewConfig, Mem.view, Mem.array_append_length]

theorem ChildConfig_eq (rt : Runtime) (c : Ptr) (name : String) (w : World) (cfg : Config)
    (hc : w.configs[c]? = some cfg) :
    ChildConfig rt c name w = some (w.configs.length,
      { w with
        strings := (append rt w.strings cfg.pathElements name).1
        configs := w.configs ++
          [⟨cfg.loader, (append rt w.strings cfg.pathElements name).2, nilSlice⟩] }) := by
  unfold ChildConfig
  rw [hc]

theorem ChildConfig_pathIs (rt : Runtime) (c : Ptr) (name : String) (w : World)
    (p : List String) (h : PathIs w c p) :
    ∃ c1 w1, ChildConfig rt c name w = some (c1, w1) ∧ PathIs w1 c1 (p ++ [name]) ∧
      w1.calls = w.calls := by
  rcases h with ⟨cfg, hc, hv, hp⟩
  refine ⟨_, _, ChildConfig_eq rt c name w cfg hc, ?_, rfl⟩
  refine ⟨⟨cfg.loader, (append rt w.strings cfg.pathElements name).2, nilSlice⟩, ?_, ?_, ?_⟩
  · simp
  · exact append_valid rt _ _ _ hv
  · simp only; rw [append_view rt _ _ _ hv, hp]

theorem ChildConfigs_pathIs (rt : Runtime) (segs : List String) :
    ∀ (c : Ptr) (w : World) (p : List String), PathIs w c p →
      ∃ c1 w1, ChildConfigs rt c segs w = some (c1, w1) ∧ PathIs w1 c1 (p ++ segs) ∧
        w1.calls = w.calls := by
  induction segs with
  | nil => intro c w p h; exact ⟨c, w, rfl, by simpa using h, rfl⟩
  | cons s segs ih =>
    intro c w p h
    rcases ChildConfig_pathIs rt c s w p h with ⟨c1, w1, h1, hp1, hc1⟩
    rcases ih c1 w1 (p ++ [s]) hp1 with ⟨c2, w2, h2, hp2, hc2⟩
    refine ⟨c2, w2, ?_, by simpa using hp2, by rw [hc2, hc1]⟩
    simp only [ChildConfigs, h1, h2]

theorem runCalls_pathIs (rt : Runtime) (fl : FloatOps) (c : Ptr) (p : List String)
    (calls : List Call) :
    ∀ (w : World), PathIs w c p →
      ∃ w1, runCalls rt fl c calls w = some w1 ∧ PathIs w1 c p ∧
        w1.calls = w.calls ++ calls.map (fun call => p ++ [call.name]) := by
  induction calls with
  | nil => intro w h; exact ⟨w, rfl, h, by simp⟩
  | cons call calls ih =>
    intro w h
    rcases h with ⟨cfg, hc, hv, hp⟩
    have hex := Call.exec_eq rt fl c call w
    rw [hc] at hex
    simp only [Option.map_some'] at hex
    rcases ih _ (finish_pathIs rt c cfg call.name (call.error rt fl c w) w p hc hv hp) with
      ⟨w1, hr, hp1, hc1⟩
    refine ⟨w1, ?_, hp1, ?_⟩
    · simp only [runCalls, hex, hr]
    · rw [hc1, finish_calls_of_path rt c cfg _ _ w p hv hp]; simp

/-! ## Well-formed states and errors -/

theorem getElem?_push {β : Type} (l : List β) (x y : β) (d : Nat)
    (h : (l ++ [x])[d]? = some y) : l[d]? = some y ∨ (d = l.length ∧ y = x) := by
  by_cases hd : d < l.length
  · rw [List.getElem?_append_left hd] at h; exact Or.inl h
  · rw [List.getElem?_append_right (by omega)] at h
    by_cases hd2 : d = l.length
    · subst hd2; simp at h; exact Or.inr ⟨rfl, h.symm⟩
    · have : d - l.length ≠ 0 := by omega
      rcases hk : d - l.length with _ | k
      · omega
      · rw [hk] at h; simp at h

theorem WF_empty : World.empty.WF := by
  refine ⟨?_, ?_, ?_⟩ <;> intro c <;> simp [World.empty]

theorem WF_NewConfig (applicationName : String) (loader : Loader) (w : World) (h : w.WF) :
    (NewConfig applicationName loader w).2.WF := by
  refine ⟨?_, ?_, ?_⟩
  · intro c cfg hc
    rcases getElem?_push _ _ _ _ hc with hc | ⟨_, rfl⟩
    · exact (h.paths c cfg hc).push _ _ _
    · simp [NewConfig, Slice.Valid, Mem.array_append_length]
  · intro c cfg hc
    rcases getElem?_push _ _ _ _ hc with hc | ⟨_, rfl⟩
    · exact h.errors c cfg hc
    · exact nilSlice_valid _
  · intro c d cfg cfg1 hne hc hd h0 h1
    rcases getElem?_push _ _ _ _ hc with hc | ⟨_, rfl⟩
    · rcases getElem?_push _ _ _ _ hd with hd | ⟨_, rfl⟩
      · exact h.apart c d cfg cfg1 hne hc hd h0 h1
      · simp [nilSlice] at h1
    · simp [nilSlice] at h0

theorem WF_ChildConfig (rt : Runtime) (c : Ptr) (name : String) (w : World) (h : w.WF)
    (c1 : Ptr) (w1 : World) (hch : ChildConfig rt c name w = some (c1, w1)) : w1.WF := by
  cases hcfg : w.configs[c]? with
  | none => simp [ChildConfig, hcfg] at hch
  | some cfg =>
    rw [ChildConfig_eq rt c name w cfg hcfg] at hch
    simp only [Option.some.injEq, Prod.mk.injEq] at hch
    rcases hch with ⟨_, rfl⟩
    refine ⟨?_, ?_, ?_⟩
    · intro d cfgd hd
      rcases getElem?_push _ _ _ _ hd with hd | ⟨_, rfl⟩
      · exact append_valid_other rt _ _ _ _ (h.paths d cfgd hd)
      · exact append_valid rt _ _ _ (h.paths c cfg hcfg)
    · intro d cfgd hd
      rcases getElem?_push _ _ _ _ hd with hd | ⟨_, rfl⟩
      · exact h.errors d cfgd hd
      · exact nilSlice_valid _
    · intro d e cfgd cfge hne hd he h0 h1
      rcases getElem?_push _ _ _ _ hd with hd | ⟨_, rfl⟩
      · rcases getElem?_push _ _ _ _ he with he | ⟨_, rfl⟩
        · exact h.apart d e cfgd cfge hne hd he h0 h1
        · simp [nilSlice] at h1
      · simp [nilSlice] at h0

theorem ErrsAre.getErrors {w : World} {c : Ptr} {es : List GoError} (h : ErrsAre w c es) :
    GetErrors c w = some es := by
  rcases h with ⟨cfg, hc, _, hv⟩
  simp [GetErrors, hc, hv]

/-- A getter appends its error, if it has one, to the errors of its accessor. -/
theorem finish_errsAre (rt : Runtime) (c : Ptr) (cfg : Config) (name : String) (err : GoError)
    (w : World) (es : List GoError) (hc : w.configs[c]? = some cfg)
    (hv : cfg.errors.Valid w.errs) (hes : w.errs.view cfg.errors = es) :
    ErrsAre (finish rt c cfg name err w) c (es ++ if err ≠ none then [err] else []) := by
  have hl := finish_lookup rt c cfg name err w hc c
  by_cases he : err ≠ none
  · rw [if_pos ⟨rfl, he⟩] at hl
    rw [if_pos he]
    refine ⟨_, hl, ?_, ?_⟩
    · rw [finish_errs rt c cfg name err w hc he]; exact append_valid rt _ _ _ hv
    · rw [finish_errs rt c cfg name err w hc he]
      simp only
      rw [append_view rt _ _ _ hv, hes]
  · rw [if_neg (fun h => he h.2), hc] at hl
    rw [if_neg he]
    have he1 : err = none := by simpa using he
    subst he1
    refine ⟨_, hl, ?_, ?_⟩
    · rw [finish_errs_nil, callLoader_errs]; exact hv
    · rw [finish_errs_nil, callLoader_errs]; simpa using hes

theorem runCalls_errsAre (rt : Runtime) (fl : FloatOps) (c : Ptr) (calls : List Call) :
    ∀ (w : World) (es : List GoError), ErrsAre w c es →
      ∃ w1, runCalls rt fl c calls w = some w1 ∧
        ErrsAre w1 c (es ++ returnedErrors rt fl c calls w) := by
  induction calls with
  | nil => intro w es h; exact ⟨w, rfl, by simpa [returnedErrors] using h⟩
  | cons call calls ih =>
    intro w es h
    rcases h with ⟨cfg, hc, hv, hes⟩
    have hex := Call.exec_eq rt fl c call w
    rw [hc] at hex
    simp only [Option.map_some'] at hex
    rcases ih _ _ (finish_errsAre rt c cfg call.name (call.error rt fl c w) w es hc hv hes) with
      ⟨w1, hr, he1⟩
    refine ⟨w1, ?_, ?_⟩
    · simp only [runCalls, hex, hr]
    · simp only [returnedErrors, hex]
      simpa [List.append_assoc] using he1

/-- A getter on one accessor leaves the errors of every other accessor alone. -/
theorem finish_getErrors_other (rt : Runtime) (c d : Ptr) (cfg : Config) (name : String)
    (err : GoError) (w : World) (h : w.WF) (hc : w.configs[c]? = some cfg) (hne : d ≠ c) :
    GetErrors d (finish rt c cfg name err w) = GetErrors d w := by
  have hl := finish_lookup rt c cfg name err w hc d
  rw [if_neg (fun h => hne h.1)] at hl
  unfold GetErrors
  rw [hl]
  cases hd : w.configs[d]? with
  | none => rfl
  | some cfgd =>
    simp only [Option.map_some', Option.some.injEq]
    by_cases he : err ≠ none
    · rw [finish_errs rt c cfg name err w hc he]
      apply append_view_other rt _ _ _ _ (h.errors d cfgd hd)
      intro hlt
      by_cases h0 : 0 < cfgd.errors.cap
      · exact Or.inl (h.apart d c cfgd cfg hne hd hc h0 (by omega))
      · have := (h.errors d cfgd hd).1
        exact Or.inr (by omega)
    · have he1 : err = none := by simpa using he
      subst he1
      rw [finish_errs_nil, callLoader_errs]

/-- Getters keep the state well formed. -/
theorem WF_finish (rt : Runtime) (c : Ptr) (cfg : Config) (name : String) (err : GoError)
    (w : World) (h : w.WF) (hc : w.configs[c]? = some cfg) :
    (finish rt c cfg name err w).WF := by
  have hl := finish_lookup rt c cfg name err w hc
  by_cases he : err ≠ none
  · refine ⟨?_, ?_, ?_⟩
    · intro d cfgd hd
      rw [hl d] at hd
      rw [finish_strings]
      apply append_valid_other
      split at hd
      · cases hd; exact h.paths c cfg hc
      · exact h.paths d cfgd hd
    · intro d cfgd hd
      rw [hl d] at hd
      rw [finish_errs rt c cfg name err w hc he]
      split at hd
      · cases hd; exact append_valid rt _ _ _ (h.errors c cfg hc)
      · exact append_valid_other rt _ _ _ _ (h.errors d cfgd hd)
    · have key : ∀ (e : Ptr) (cfge : Config), e ≠ c → w.configs[e]? = some cfge →
          0 < cfge.errors.cap →
          (append rt w.errs cfg.errors err).2.ptr ≠ cfge.errors.ptr := by
        intro e cfge hec hce h0
        rcases append_slice rt w.errs cfg.errors err with ⟨hlt, hp, _⟩ | hp
        · rw [hp]
          exact h.apart c e cfg cfge (fun x => hec x.symm) hc hce (by omega) h0
        · rw [hp]
          have := (h.errors e cfge hce).ptr_lt h0
          omega
      intro d e cfgd cfge hne hd hce h0 h1
      rw [hl d] at hd
      rw [hl e] at hce
      split at hd
      · rename_i hdc
        have hec : e ≠ c := fun x => hne (hdc.1.trans x.symm)
        rw [if_neg (fun x => hec x.1)] at hce
        cases hd
        exact key e cfge hec hce h1
      · rename_i hdc
        have hdc1 : d ≠ c := fun x => hdc ⟨x, he⟩
        split at hce
        · cases hce
          exact fun x => key d cfgd hdc1 hd h0 x.symm
        · exact h.apart d e cfgd cfge hne hd hce h0 h1
  · have he1 : err = none := by simpa using he
    subst he1
    rw [finish_errs_nil]
    refine ⟨?_, ?_, ?_⟩
    · intro d cfgd hd
      rw [callLoader_strings]
      exact append_valid_other rt _ _ _ _ (h.paths d cfgd hd)
    · exact h.errors
    · exact h.apart

theorem WF_exec (rt : Runtime) (fl : FloatOps) (c : Ptr) (call : Call) (w w1 : World)
    (h : w.WF) (hex : call.exec rt fl c w = some w1) : w1.WF := by
  rw [Call.exec_eq] at hex
  cases hc : w.configs[c]? with
  | none => simp [hc] at hex
  | some cfg =>
    simp only [hc, Option.map_some', Option.some.injEq] at hex
    subst hex
    exact WF_finish rt c cfg _ _ w h hc

/-- Every reachable state is well formed. -/
theorem Reachable.wf {rt : Runtime} {fl : FloatOps} {w : World} (h : Reachable rt fl w) :
    w.WF := by
  induction h with
  | empty => exact WF_empty
  | newConfig app loader w _ ih => exact WF_NewConfig app loader w ih
  | childConfig c name w c1 w1 _ hch ih => exact WF_ChildConfig rt c name w ih c1 w1 hch
  | call c call w w1 _ hex ih => exact WF_exec rt fl c call w w1 ih hex

theorem getErrors_of_lookup (w : World) (c : Ptr) (cfg : Config) (es : List GoError)
    (hc : w.configs[c]? = some cfg) (hes : GetErrors c w = some es) :
    w.errs.view cfg.errors = es := by
  simpa [GetErrors, hc] using hes

theorem append_in_place {α : Type} [Inhabited α] (rt : Runtime) (m : Mem α) (s : Slice) (x : α)
    (h : s.len < s.cap) : (append rt m s x).2 = { s with len := s.len + 1 } := by
  unfold append
  rw [if_pos h]

theorem getter_calls (rt : Runtime) (fl : FloatOps) (c : Ptr) (p : List String) (f : String)
    (w : World) (h : PathIs w c p) :
    (∃ r w1, GetString rt c f w = some (r, w1) ∧ w1.calls = w.calls ++ [p ++ [f]]) ∧
    (∃ r w1, GetBool rt c f w = some (r, w1) ∧ w1.calls = w.calls ++ [p ++ [f]]) ∧
    (∃ r w1, GetInt rt c f w = some (r, w1) ∧ w1.calls = w.calls ++ [p ++ [f]]) ∧
    (∃ r w1, GetFloat rt fl c f w = some (r, w1) ∧ w1.calls = w.calls ++ [p ++ [f]]) := by
  rcases h with ⟨cfg, hc, hv, hp⟩
  refine ⟨?_, ?_, ?_, ?_⟩
  · rw [GetString_eq, hc]
    exact ⟨_, _, rfl, finish_calls_of_path rt c cfg f _ w p hv hp⟩
  · rw [GetBool_eq, hc]
    exact ⟨_, _, rfl, finish_calls_of_path rt c cfg f _ w p hv hp⟩
  · rw [GetInt_eq, hc]
    exact ⟨_, _, rfl, finish_calls_of_path rt c cfg f _ w p hv hp⟩
  · rw [GetFloat_eq, hc]
    exact ⟨_, _, rfl, finish_calls_of_path rt c cfg f _ w p hv hp⟩

theorem finish_getErrors_self (rt : Runtime) (c : Ptr) (cfg : Config) (name : String)
    (err : GoError) (w : World) (es : List GoError) (hw : w.WF)
    (hc : w.configs[c]? = some cfg) (hes : GetErrors c w = some es) :
    GetErrors c (finish rt c cfg name err w) = some (es ++ if err ≠ none then [err] else []) :=
  (finish_errsAre rt c cfg name err w es hc (hw.errors c cfg hc)
    (getErrors_of_lookup w c cfg es hc hes)).getErrors

/-! ## Letter case -/

theorem toNat_ofNat_small (n : Nat) (h : n < 55296) : (Char.ofNat n).toNat = n := by
  unfold Char.ofNat
  rw [dif_pos (Or.inl h)]
  simp [Char.ofNatAux, Char.toNat, UInt32.toNat]

theorem char_eq_iff (a b : Char) : a = b ↔ a.toNat = b.toNat := by
  constructor
  · intro h; rw [h]
  · intro h
    apply Char.ext
    apply UInt32.ext
    exact h

theorem toLowerRune_toNat (c : Char) :
    (toLowerRune c).toNat =
      if 65 ≤ c.toNat ∧ c.toNat ≤ 90 then c.toNat + 32
      else if c.toNat = 0x130 then 105
      else if c.toNat = 0x212A then 107
      else c.toNat := by
  unfold toLowerRune
  split
  · rw [toNat_ofNat_small _ (by omega)]
  · split
    · rfl
    · split <;> rfl

theorem toUpper_toNat (d : Char) :
    d.toUpper.toNat = if 97 ≤ d.toNat ∧ d.toNat ≤ 122 then d.toNat - 32 else d.toNat := by
  unfold Char.toUpper
  simp only [ge_iff_le]
  split
  · rw [toNat_ofNat_small _ (by omega)]
  · rfl

/-- A rune lower-cases to a plain character exactly when it is that character
or its capital. -/
theorem toLowerRune_eq_iff (c d : Char) (hd : PlainChar d) :
    toLowerRune c = d ↔ c = d ∨ c = d.toUpper := by
  simp only [char_eq_iff, toLowerRune_toNat, toUpper_toNat]
  unfold PlainChar at hd
  split_ifs <;> omega

theorem map_toLowerRune_eq_iff (v : List Char) (hv : ∀ d ∈ v, PlainChar d) :
    ∀ l : List Char, l.map toLowerRune = v ↔ l ∈ caseVariants v := by
  induction v with
  | nil => intro l; simp [caseVariants]
  | cons d v ih =>
    intro l
    have hd : PlainChar d := hv d (List.mem_cons_self _ _)
    have ihv := ih (fun x hx => hv x (List.mem_cons_of_mem _ hx))
    cases l with
    | nil => simp [caseVariants]
    | cons c l =>
      simp only [List.map_cons, List.cons.injEq, caseVariants, List.mem_flatMap,
        List.mem_cons, List.mem_singleton, List.not_mem_nil, or_false]
      rw [toLowerRune_eq_iff c d hd, ihv l]
      constructor
      · rintro ⟨hc | hc, hl⟩
        · exact ⟨l, hl, Or.inl ⟨hc, rfl⟩⟩
        · exact ⟨l, hl, Or.inr ⟨hc, rfl⟩⟩
      · rintro ⟨a, ha, ⟨hc, rfl⟩ | ⟨hc, rfl⟩⟩
        · exact ⟨Or.inl hc, ha⟩
        · exact ⟨Or.inr hc, ha⟩

theorem inArray_eq_true_iff (needle : String) (haystack : List String) :
    inArray needle haystack = true ↔ ToLower needle ∈ haystack := by
  induction haystack with
  | nil => simp [inArray]
  | cons v vs ih =>
    simp only [inArray, List.mem_cons]
    by_cases h : v = ToLower needle
    · simp [h]
    · rw [if_neg h, ih]
      constructor
      · exact Or.inr
      · rintro (h1 | h1)
        · exact absurd h1.symm h
        · exact h1

theorem plain_truthy : ∀ v ∈ ACCEPTABLE_TRUETHY, ∀ d ∈ v.data, PlainChar d := by
  decide

theorem plain_falsy : ∀ v ∈ ACCEPTABLE_FALSY, ∀ d ∈ v.data, PlainChar d := by
  decide

theorem inArray_iff_equalsAnyCase (s : String) (words : List String)
    (hw : ∀ v ∈ words, ∀ d ∈ v.data, PlainChar d) :
    inArray s words = true ↔ EqualsAnyCase s words := by
  rw [inArray_eq_true_iff]
  unfold EqualsAnyCase
  constructor
  · intro h
    refine ⟨ToLower s, h, ?_⟩
    rw [← map_toLowerRune_eq_iff _ (hw _ h)]
    rfl
  · rintro ⟨v, hv, hs⟩
    rw [← map_toLowerRune_eq_iff _ (hw _ hv)] at hs
    have : ToLower s = v := by
      unfold ToLower
      rw [hs]
    rw [this]; exact hv

theorem finish_none_getErrors (rt : Runtime) (c : Ptr) (cfg : Config) (name : String)
    (w : World) (es : List GoError) (hw : w.WF) (hc : w.configs[c]? = some cfg)
    (hes : GetErrors c w = some es) :
    GetErrors c (finish rt c cfg name none w) = some es := by
  simpa using finish_getErrors_self rt c cfg name none w es hw hc hes

theorem finish_some_getErrors (rt : Runtime) (c : Ptr) (cfg : Config) (name : String)
    (e : ErrorValue) (w : World) (es : List GoError) (hw : w.WF)
    (hc : w.configs[c]? = some cfg) (hes : GetErrors c w = some es) :
    GetErrors c (finish rt c cfg name (some e) w) = some (es ++ [some e]) := by
  simpa using finish_getErrors_self rt c cfg name (some e) w es hw hc hes

theorem truthy_falsy_apart (s : String) :
    ¬ (inArray s ACCEPTABLE_TRUETHY = true ∧ inArray s ACCEPTABLE_FALSY = true) := by
  rw [inArray_eq_true_iff, inArray_eq_true_iff]
  rintro ⟨h1, h2⟩
  have key : ∀ v ∈ ACCEPTABLE_TRUETHY, v ∉ ACCEPTABLE_FALSY := by decide
  exact key _ h1 h2

theorem contains_append_right (a b : String) : Contains (a ++ b) b := by
  unfold Contains
  rw [String.data_append]
  exact (List.suffix_append _ _).isInfix

/-! ## Package strconv: `Atoi` -/

theorem foldl_dec_ge (cs : List Char) :
    ∀ a : Nat, a ≤ cs.foldl (fun a c => a * 10 + (c.toNat - 48)) a := by
  induction cs with
  | nil => intro a; exact Nat.le_refl _
  | cons c cs ih =>
    intro a
    simp only [List.foldl_cons]
    have := ih (a * 10 + (c.toNat - 48))
    omega

theorem digitVal_of_digit (c : Char) (h : IsDecDigit c) :
    digitVal c.toNat = some (c.toNat - 48) := by
  unfold digitVal
  unfold IsDecDigit at h
  rw [if_pos h]

theorem digitVal_lt_ten (c : Nat) (d : Nat) (h : digitVal c = some d) (hd : d < 10) :
    48 ≤ c ∧ c ≤ 57 ∧ d = c - 48 := by
  unfold digitVal at h
  split at h
  · rename_i hc
    simp only [Option.some.injEq] at h
    omega
  · split at h
    · simp only [Option.some.injEq] at h
      omega
    · simp at h

/-- The digit loop succeeds on digits whose value stays within `maxVal`. -/
theorem parseUintLoop_digits (maxVal : Nat) (hm : maxVal < 2 ^ 64) (cs : List Char) :
    ∀ n : Nat, (∀ c ∈ cs, IsDecDigit c) →
      cs.foldl (fun a c => a * 10 + (c.toNat - 48)) n ≤ maxVal →
      parseUintLoop maxVal cs n = (cs.foldl (fun a c => a * 10 + (c.toNat - 48)) n, none) := by
  induction cs with
  | nil => intro n _ _; rfl
  | cons c cs ih =>
    intro n hd hv
    have hc : IsDecDigit c := hd c (List.mem_cons_self _ _)
    simp only [List.foldl_cons] at hv ⊢
    have hge := foldl_dec_ge cs (n * 10 + (c.toNat - 48))
    unfold IsDecDigit at hc
    simp only [parseUintLoop, digitVal_of_digit c hc]
    norm_num at hm ⊢
    rw [if_neg (by omega), if_neg (by omega)]
    have h1 : n * 10 % 18446744073709551616 = n * 10 := Nat.mod_eq_of_lt (by omega)
    rw [h1]
    have h2 : (n * 10 + (c.toNat - 48)) % 18446744073709551616 = n * 10 + (c.toNat - 48) :=
      Nat.mod_eq_of_lt (by omega)
    rw [h2, if_neg (by omega)]
    exact ih _ (fun x hx => hd x (List.mem_cons_of_mem _ hx)) hv

/-- The digit loop succeeds only on digits, with their value, within `maxVal`. -/
theorem parseUintLoop_none (maxVal : Nat) (cs : List Char) :
    ∀ n v : Nat, n ≤ maxVal → parseUintLoop maxVal cs n = (v, none) →
      (∀ c ∈ cs, IsDecDigit c) ∧ v = cs.foldl (fun a c => a * 10 + (c.toNat - 48)) n ∧
        v ≤ maxVal := by
  induction cs with
  | nil =>
    intro n v hn h
    simp only [parseUintLoop, Prod.mk.injEq, and_true] at h
    subst h
    exact ⟨by simp, rfl, hn⟩
  | cons c cs ih =>
    intro n v hn h
    simp only [parseUintLoop] at h
    cases hdv : digitVal c.toNat with
    | none => simp [hdv] at h
    | some d =>
      simp only [hdv] at h
      by_cases hd : d ≥ 10
      · simp [hd] at h
      · rw [if_neg hd] at h
        norm_num at h
        by_cases hcut : 1844674407370955162 ≤ n
        · simp [hcut] at h
        · rw [if_neg hcut] at h
          have hdig := digitVal_lt_ten c.toNat d hdv (by omega)
          have h1 : n * 10 % 18446744073709551616 = n * 10 := Nat.mod_eq_of_lt (by omega)
          rw [h1] at h
          by_cases hov : (n * 10 + d) % 18446744073709551616 < n * 10 ∨
              maxVal < (n * 10 + d) % 18446744073709551616
          · simp [hov] at h
          · rw [if_neg hov] at h
            have h2 : (n * 10 + d) % 18446744073709551616 = n * 10 + d := by
              by_contra hne
              have : 18446744073709551616 ≤ n * 10 + d := by
                by_contra hlt
                exact hne (Nat.mod_eq_of_lt (by omega))
              omega
            rw [h2] at h hov
            rcases ih (n * 10 + d) v (by omega) h with ⟨ha, hb, hc⟩
            refine ⟨?_, ?_, hc⟩
            · intro x hx
              rcases List.mem_cons.mp hx with rfl | hx
              · exact ⟨hdig.1, hdig.2.1⟩
              · exact ha x hx
            · simp only [List.foldl_cons]
              rw [← hdig.2.2]; exact hb

theorem mk_eq_empty (l : List Char) : (String.mk l = "") ↔ l = [] := by
  constructor
  · intro h
    have := congrArg String.data h
    simpa using this
  · intro h; subst h; rfl

theorem parseUintLoop_some (maxVal : Nat) (cs : List Char) :
    ∀ (n v : Nat) (k : NumErrKind), parseUintLoop maxVal cs n = (v, some k) →
      k = .ErrSyntax ∨ (k = .ErrRange ∧ v = maxVal) := by
  induction cs with
  | nil => intro n v k h; simp [parseUintLoop] at h
  | cons c cs ih =>
    intro n v k h
    simp only [parseUintLoop] at h
    split at h
    · simp only [Prod.mk.injEq, Option.some.injEq] at h; exact Or.inl h.2.symm
    · split at h
      · simp only [Prod.mk.injEq, Option.some.injEq] at h; exact Or.inl h.2.symm
      · split at h
        · simp only [Prod.mk.injEq, Option.some.injEq] at h
          exact Or.inr ⟨h.2.symm, h.1.symm⟩
        · split at h
          · simp only [Prod.mk.injEq, Option.some.injEq] at h
            exact Or.inr ⟨h.2.symm, h.1.symm⟩
          · exact ih _ _ _ h

theorem ParseUint_digits (l : List Char) (bits : Nat) (hb : bits ≤ 64) (hl : l ≠ [])
    (hd : ∀ c ∈ l, IsDecDigit c) (hv : decValue l ≤ 2 ^ bits - 1) :
    ParseUint ⟨l⟩ bits = (decValue l, none) := by
  unfold ParseUint
  rw [if_neg (fun h => hl ((mk_eq_empty l).mp h))]
  have hm : 2 ^ bits - 1 < 2 ^ 64 := by
    have : 2 ^ bits ≤ 2 ^ 64 := Nat.pow_le_pow_right (by norm_num) hb
    have : 0 < 2 ^ bits := Nat.two_pow_pos bits
    omega
  simp only
  rw [parseUintLoop_digits _ hm l 0 hd hv]
  rfl

theorem ParseUint_none (l : List Char) (bits v : Nat) (h : ParseUint ⟨l⟩ bits = (v, none)) :
    l ≠ [] ∧ (∀ c ∈ l, IsDecDigit c) ∧ v = decValue l ∧ v ≤ 2 ^ bits - 1 := by
  unfold ParseUint at h
  by_cases hl : l = []
  · subst hl; simp at h
  · rw [if_neg (fun x => hl ((mk_eq_empty l).mp x))] at h
    simp only at h
    rcases hp : parseUintLoop (2 ^ bits - 1) l 0 with ⟨n, k⟩
    rw [hp] at h
    cases k with
    | some k => simp at h
    | none =>
      simp only [Prod.mk.injEq, and_true] at h
      subst h
      rcases parseUintLoop_none _ l 0 n (Nat.zero_le _) hp with ⟨ha, hb, hc⟩
      exact ⟨hl, ha, hb, hc⟩

theorem ParseUint_some (l : List Char) (bits v : Nat) (e : NumError)
    (h : ParseUint ⟨l⟩ bits = (v, some e)) :
    e.Err = .ErrSyntax ∨ (e.Err = .ErrRange ∧ v = 2 ^ bits - 1) := by
  unfold ParseUint at h
  by_cases hl : l = []
  · subst hl
    simp only [mk_eq_empty, if_true, Prod.mk.injEq, Option.some.injEq] at h
    rw [← h.2]; exact Or.inl rfl
  · rw [if_neg (fun x => hl ((mk_eq_empty l).mp x))] at h
    simp only at h
    rcases hp : parseUintLoop (2 ^ bits - 1) l 0 with ⟨n, k⟩
    rw [hp] at h
    cases k with
    | none => simp at h
    | some k =>
      simp only [Prod.mk.injEq, Option.some.injEq] at h
      rcases h with ⟨rfl, rfl⟩
      exact parseUintLoop_some _ l 0 n k hp

theorem wrapInt_of_range (bits : Nat) (hb : bits = 32 ∨ bits = 64) (v : Int)
    (h1 : -(2 : Int) ^ (bits - 1) ≤ v) (h2 : v ≤ 2 ^ (bits - 1) - 1) : wrapInt bits v = v := by
  unfold wrapInt
  rcases hb with rfl | rfl <;> norm_num at h1 h2 ⊢ <;> omega

theorem wrapInt_neg_wrapInt (un : Nat) (h : un ≤ 2 ^ 63) :
    wrapInt 64 (-(wrapInt 64 (un : Int))) = -(un : Int) := by
  unfold wrapInt
  norm_num at h ⊢
  omega

theorem convert_ok (s0 : String) (bits : Nat) (hb : bits = 32 ∨ bits = 64) (neg : Bool)
    (ds : List Char) (hl : ds ≠ []) (hd : ∀ c ∈ ds, IsDecDigit c)
    (h1 : -(2 : Int) ^ (bits - 1) ≤ (if neg then -(decValue ds : Int) else (decValue ds : Int)))
    (h2 : (if neg then -(decValue ds : Int) else (decValue ds : Int)) ≤ 2 ^ (bits - 1) - 1) :
    ParseInt.convert s0 bits neg ⟨ds⟩ =
      (if neg then -(decValue ds : Int) else (decValue ds : Int), none) := by
  have hle : bits ≤ 64 := by rcases hb with rfl | rfl <;> norm_num
  have hcut : (2 : Nat) ^ (bits - 1) ≤ 2 ^ 63 ∧ 2 ^ (bits - 1) ≤ 2 ^ bits - 1 := by
    rcases hb with rfl | rfl <;> norm_num
  have hcast : ((2 ^ (bits - 1) : Nat) : Int) = (2 : Int) ^ (bits - 1) := by push_cast; rfl
  generalize hC : (2 : Nat) ^ (bits - 1) = C at hcut hcast
  rw [← hcast] at h1 h2
  generalize hM : (2 : Nat) ^ bits - 1 = M at hcut
  have hv : decValue ds ≤ 2 ^ bits - 1 := by
    rw [hM]
    cases neg
    · simp only [Bool.false_eq_true, if_false] at h2; omega
    · simp only [if_true] at h1; omega
  unfold ParseInt.convert
  rw [ParseUint_digits ds bits hle hl hd hv]
  simp only [Option.isSome_none, Bool.false_eq_true, false_and, if_false, hC]
  cases neg
  · simp only [Bool.false_eq_true, if_false, true_and, false_and] at h1 h2 ⊢
    rw [if_neg (by omega)]
    rw [wrapInt_of_range 64 (Or.inr rfl) _ (by norm_num at hcut ⊢; omega)
      (by norm_num at hcut ⊢; omega)]
  · simp only [if_true, true_and, Bool.true_eq_false, false_and, if_false] at h1 h2 ⊢
    rw [if_neg (by omega)]
    rw [wrapInt_neg_wrapInt _ (by omega)]

theorem convert_none (s0 : String) (bits : Nat) (hb : bits = 32 ∨ bits = 64) (neg : Bool)
    (ds : List Char) (v : Int) (h : ParseInt.convert s0 bits neg ⟨ds⟩ = (v, none)) :
    ds ≠ [] ∧ (∀ c ∈ ds, IsDecDigit c) ∧
      v = (if neg then -(decValue ds : Int) else (decValue ds : Int)) ∧
      -(2 : Int) ^ (bits - 1) ≤ v ∧ v ≤ 2 ^ (bits - 1) - 1 := by
  have hcut : (2 : Nat) ^ (bits - 1) ≤ 2 ^ 63 ∧ 2 ^ (bits - 1) < 2 ^ bits - 1 ∧
      1 ≤ (2 : Nat) ^ (bits - 1) := by
    rcases hb with rfl | rfl <;> norm_num
  have hcast : ((2 ^ (bits - 1) : Nat) : Int) = (2 : Int) ^ (bits - 1) := by push_cast; rfl
  rw [← hcast]
  unfold ParseInt.convert at h
  rcases hp : ParseUint ⟨ds⟩ bits with ⟨un, err⟩
  rw [hp] at h
  simp only at h
  generalize hC : (2 : Nat) ^ (bits - 1) = C at hcut h ⊢
  cases err with
  | some e =>
    rcases ParseUint_some ds bits un e hp with he | ⟨he, hun⟩
    · simp [he] at h
    · simp only [Option.isSome_some, Option.map_some', he, ne_eq, not_true_eq_false, and_false,
        if_false] at h
      cases neg
      · simp only [true_and, Bool.false_eq_true, false_and, if_false] at h
        rw [if_pos (by omega)] at h
        simp at h
      · simp only [Bool.true_eq_false, false_and, if_false, true_and] at h
        rw [if_pos (by omega)] at h
        simp at h
  | none =>
    rcases ParseUint_none ds bits un hp with ⟨hl, hd, hun, _⟩
    subst hun
    simp only [Option.isSome_none, Bool.false_eq_true, false_and, if_false] at h
    refine ⟨hl, hd, ?_⟩
    cases neg
    · simp only [true_and, Bool.false_eq_true, false_and, if_false] at h ⊢
      by_cases hge : decValue ds ≥ C
      · rw [if_pos hge] at h; simp at h
      · rw [if_neg hge] at h
        rw [wrapInt_of_range 64 (Or.inr rfl) _ (by norm_num at hcut ⊢; omega)
          (by norm_num at hcut ⊢; omega)] at h
        simp only [Prod.mk.injEq, and_true] at h
        subst h
        exact ⟨rfl, by omega, by omega⟩
    · simp only [Bool.true_eq_false, false_and, if_false, true_and, if_true] at h ⊢
      by_cases hgt : decValue ds > C
      · rw [if_pos hgt] at h; simp at h
      · rw [if_neg hgt] at h
        rw [wrapInt_neg_wrapInt _ (by omega)] at h
        simp only [Prod.mk.injEq, and_true] at h
        subst h
        exact ⟨rfl, by omega, by omega⟩

theorem not_digit_plus : ¬ IsDecDigit '+' := by decide

theorem not_digit_minus : ¬ IsDecDigit '-' := by decide

/-- `ParseInt` accepts every base-10 signed integer of the width, with its value. -/
theorem ParseInt_ok (bits : Nat) (hb : bits = 32 ∨ bits = 64) (l : List Char) (v : Int)
    (h : IsDecimalInt bits ⟨l⟩ v) : ParseInt ⟨l⟩ bits = (v, none) := by
  rcases h with ⟨sign, digits, hl, hs, hne, hd, hv, h1, h2⟩
  simp only at hl
  unfold ParseInt
  have hl0 : l ≠ [] := by
    rw [hl]; intro h0
    exact hne (List.append_eq_nil.mp h0).2
  rw [if_neg (fun x => hl0 ((mk_eq_empty l).mp x))]
  simp only
  rcases hs with rfl | rfl | rfl
  · simp only [List.nil_append] at hl
    subst hl
    cases l with
    | nil => exact absurd rfl hne
    | cons d0 rest =>
      have hd0 : IsDecDigit d0 := hd d0 (List.mem_cons_self _ _)
      have hp : ¬ (d0 :: rest).head? = some '+' := by
        intro x
        simp only [List.head?_cons, Option.some.injEq] at x
        subst x; exact not_digit_plus hd0
      have hm : ¬ (d0 :: rest).head? = some '-' := by
        intro x
        simp only [List.head?_cons, Option.some.injEq] at x
        subst x; exact not_digit_minus hd0
      rw [if_neg hp, if_neg hm]
      have hv1 : v = (if false = true then -(decValue (d0 :: rest) : Int)
          else (decValue (d0 :: rest) : Int)) := by simpa using hv
      rw [hv1] at h1 h2 ⊢
      exact convert_ok _ bits hb false _ hne hd h1 h2
  · subst hl
    rw [if_pos (by rfl)]
    have hv1 : v = (if false = true then -(decValue digits : Int)
        else (decValue digits : Int)) := by simpa using hv
    rw [hv1] at h1 h2 ⊢
    exact convert_ok _ bits hb false _ hne hd h1 h2
  · subst hl
    rw [if_neg (by simp), if_pos (by rfl)]
    have hv1 : v = (if true = true then -(decValue digits : Int)
        else (decValue digits : Int)) := by simpa using hv
    rw [hv1] at h1 h2 ⊢
    exact convert_ok _ bits hb true _ hne hd h1 h2

/-- `ParseInt` accepts nothing but base-10 signed integers of the width. -/
theorem ParseInt_none (bits : Nat) (hb : bits = 32 ∨ bits = 64) (l : List Char) (v : Int)
    (h : ParseInt ⟨l⟩ bits = (v, none)) : IsDecimalInt bits ⟨l⟩ v := by
  unfold ParseInt at h
  cases l with
  | nil => simp [mk_eq_empty] at h
  | cons c rest =>
    rw [if_neg (fun x => by simpa using (mk_eq_empty _).mp x)] at h
    simp only [List.head?_cons, Option.some.injEq, List.tail_cons] at h
    by_cases hp : c = '+'
    · rw [if_pos hp] at h
      rcases convert_none _ bits hb false rest v h with ⟨h1, h2, h3, h4, h5⟩
      exact ⟨['+'], rest, by simp [hp], Or.inr (Or.inl rfl), h1, h2, by simpa using h3, h4, h5⟩
    · rw [if_neg hp] at h
      by_cases hm : c = '-'
      · rw [if_pos hm] at h
        rcases convert_none _ bits hb true rest v h with ⟨h1, h2, h3, h4, h5⟩
        exact ⟨['-'], rest, by simp [hm], Or.inr (Or.inr rfl), h1, h2, by simpa using h3,
          h4, h5⟩
      · rw [if_neg hm] at h
        rcases convert_none _ bits hb false (c :: rest) v h with ⟨h1, h2, h3, h4, h5⟩
        exact ⟨[], c :: rest, by simp, Or.inl rfl, h1, h2, by simpa using h3, h4, h5⟩

theorem convert_some (s0 : String) (bits : Nat) (neg : Bool) (s : String) (v : Int)
    (e : NumError) (h : ParseInt.convert s0 bits neg s = (v, some e)) :
    e.Func = "ParseInt" ∧ e.Num = s0 := by
  unfold ParseInt.convert at h
  rcases hp : ParseUint s bits with ⟨un, err⟩
  rw [hp] at h
  simp only at h
  split at h
  · cases err with
    | none => simp at h
    | some e1 =>
      simp only [Option.map_some', Prod.mk.injEq, Option.some.injEq] at h
      rw [← h.2]; exact ⟨rfl, rfl⟩
  · split at h
    · simp only [Prod.mk.injEq, Option.some.injEq] at h
      rw [← h.2]; exact ⟨rfl, rfl⟩
    · split at h
      · simp only [Prod.mk.injEq, Option.some.injEq] at h
        rw [← h.2]; exact ⟨rfl, rfl⟩
      · simp at h

theorem ParseInt_some (s : String) (bits : Nat) (v : Int) (e : NumError)
    (h : ParseInt s bits = (v, some e)) : e.Func = "ParseInt" ∧ e.Num = s := by
  unfold ParseInt at h
  split at h
  · simp only [Prod.mk.injEq, Option.some.injEq] at h
    rw [← h.2]; exact ⟨rfl, rfl⟩
  · split at h
    · exact convert_some _ _ _ _ _ _ h
    · split at h
      · exact convert_some _ _ _ _ _ _ h
      · exact convert_some _ _ _ _ _ _ h

/-- `Atoi` returns the value of every base-10 signed integer of the platform. -/
theorem Atoi_ok (rt : Runtime) (s : String) (v : Int) (h : IsDecimalInt rt.intSize s v) :
    Atoi rt s = (v, none) := by
  have hr := h
  rcases hr with ⟨_, _, _, _, _, _, _, h1, h2⟩
  unfold Atoi
  rw [show s = ⟨s.data⟩ from rfl, ParseInt_ok rt.intSize rt.intSize_ok s.data v h]
  simp only [Option.map_none', wrapInt_of_range rt.intSize rt.intSize_ok v h1 h2]

/-- An `Atoi` without error has read a base-10 signed integer of the platform. -/
theorem Atoi_none (rt : Runtime) (s : String) (h : (Atoi rt s).2 = none) :
    IsDecimalInt rt.intSize s (Atoi rt s).1 := by
  unfold Atoi at h ⊢
  rcases hp : ParseInt s rt.intSize with ⟨i64, err⟩
  rw [hp] at h
  simp only [Option.map_eq_none'] at h ⊢
  subst h
  have hd := ParseInt_none rt.intSize rt.intSize_ok s.data i64 hp
  have hr := hd
  rcases hr with ⟨_, _, _, _, _, _, _, h1, h2⟩
  rw [wrapInt_of_range rt.intSize rt.intSize_ok i64 h1 h2]
  exact hd

/-- The error of `Atoi` is a `*NumError` naming Atoi and the input. -/
theorem Atoi_some (rt : Runtime) (s : String) (e : ErrorValue) (h : (Atoi rt s).2 = some e) :
    ∃ k, e = .numError ⟨"Atoi", s, k⟩ := by
  unfold Atoi at h
  rcases hp : ParseInt s rt.intSize with ⟨i64, err⟩
  rw [hp] at h
  cases err with
  | none => simp at h
  | some e1 =>
    simp only [Option.map_some', Option.some.injEq] at h
    have := ParseInt_some s rt.intSize i64 e1 hp
    exact ⟨e1.Err, by rw [← h, this.2]⟩

/-! ## Decimal strings -/

theorem digitChar_toNat : ∀ k < 10, (Nat.digitChar k).toNat = 48 + k := by decide

theorem decValue_append_singleton (pre : List Char) (d : Char) :
    decValue (pre ++ [d]) = decValue pre * 10 + (d.toNat - 48) := by
  simp [decValue, List.foldl_append]

/-- The digits Lean prints for a natural number read back as that number. -/
theorem toDigitsCore_spec (fuel : Nat) :
    ∀ (n : Nat) (ds : List Char), n < fuel →
      ∃ pre, Nat.toDigitsCore 10 fuel n ds = pre ++ ds ∧ pre ≠ [] ∧
        (∀ c ∈ pre, IsDecDigit c) ∧ decValue pre = n := by
  induction fuel with
  | zero => intro n ds h; omega
  | succ fuel ih =>
    intro n ds h
    have hk := digitChar_toNat (n % 10) (Nat.mod_lt _ (by norm_num))
    have hdig : IsDecDigit (Nat.digitChar (n % 10)) := by
      unfold IsDecDigit
      have := Nat.mod_lt n (show 0 < 10 by norm_num)
      omega
    simp only [Nat.toDigitsCore]
    by_cases h0 : n / 10 = 0
    · rw [if_pos h0]
      refine ⟨[Nat.digitChar (n % 10)], rfl, by simp, ?_, ?_⟩
      · intro c hc
        rw [List.mem_singleton.mp hc]; exact hdig
      · simp only [decValue, List.foldl_cons, List.foldl_nil, hk]
        omega
    · rw [if_neg h0]
      rcases ih (n / 10) (Nat.digitChar (n % 10) :: ds) (by omega) with ⟨pre, h1, h2, h3, h4⟩
      refine ⟨pre ++ [Nat.digitChar (n % 10)], by simp [h1], by simp, ?_, ?_⟩
      · intro c hc
        rcases List.mem_append.mp hc with hc | hc
        · exact h3 c hc
        · rw [List.mem_singleton.mp hc]; exact hdig
      · rw [decValue_append_singleton, h4, hk]
        omega

theorem toString_nat_spec (n : Nat) :
    (toString n).data ≠ [] ∧ (∀ c ∈ (toString n).data, IsDecDigit c) ∧
      decValue (toString n).data = n := by
  rcases toDigitsCore_spec (n + 1) n [] (by omega) with ⟨pre, h1, h2, h3, h4⟩
  have : (toString n).data = pre := by
    show Nat.toDigitsCore 10 (n + 1) n [] = pre
    simpa using h1
  rw [this]
  exact ⟨h2, h3, h4⟩

/-- The decimal string of an integer of the width is a base-10 signed integer of
the width, with that value. -/
theorem toString_int_isDecimalInt (bits : Nat) (n : Int)
    (h1 : -(2 : Int) ^ (bits - 1) ≤ n) (h2 : n ≤ 2 ^ (bits - 1) - 1) :
    IsDecimalInt bits (toString n) n := by
  cases n with
  | ofNat m =>
    rcases toString_nat_spec m with ⟨ha, hb, hc⟩
    refine ⟨[], (toString m).data, ?_, Or.inl rfl, ha, hb, ?_, h1, h2⟩
    · rfl
    · simp [hc]
  | negSucc m =>
    rcases toString_nat_spec (m + 1) with ⟨ha, hb, hc⟩
    refine ⟨['-'], (toString (m + 1)).data, ?_, Or.inr (Or.inr rfl), ha, hb, ?_, h1, h2⟩
    · show ("-" ++ toString (m + 1)).data = _
      rw [String.data_append]
    · simp only [if_true, hc]
      rfl

theorem not_decimal_of_error (rt : Runtime) (s : String) (h : (Atoi rt s).2 ≠ none) :
    ∀ v, ¬ IsDecimalInt rt.intSize s v := by
  intro v hv
  rw [Atoi_ok rt s v hv] at h
  exact h rfl

/-! ## Zero values on failure -/

theorem stringResult_zero (name : String) (a : Value × GoError) :
    (stringResult name a).2 ≠ none → (stringResult name a).1 = "" := by
  unfold stringResult
  split
  · intro _; rfl
  · split
    · intro h; exact absurd rfl h
    · intro _; rfl

theorem boolResult_zero (name : String) (a : Value × GoError) :
    (boolResult name a).2 ≠ none → (boolResult name a).1 = false := by
  unfold boolResult
  split
  · intro _; rfl
  · split
    · split
      · intro h; exact absurd rfl h
      · split
        · intro _; rfl
        · intro _; rfl
    · intro h; exact absurd rfl h
    · intro _; rfl

theorem intResult_zero (rt : Runtime) (name : String) (a : Value × GoError) :
    (intResult rt name a).2 ≠ none → (intResult rt name a).1 = 0 := by
  unfold intResult
  split
  · intro _; rfl
  · split
    · split
      · intro _; rfl
      · intro h; exact absurd rfl h
    · intro h; exact absurd rfl h
    · intro _; rfl

theorem floatResult_zero (fl : FloatOps) (name : String) (a : Value × GoError) :
    (floatResult fl name a).2 ≠ none → (floatResult fl name a).1 = ⟨0⟩ := by
  unfold floatResult
  split
  · intro _; rfl
  · split
    · split
      · intro _; rfl
      · intro h; exact absurd rfl h
    · intro h; exact absurd rfl h
    · intro h; exact absurd rfl h
    · intro h; exact absurd rfl h
    · intro _; rfl

/-! ## The fail-fast helper -/

theorem errorMsgLoop_join (rest : List ErrorValue) :
    ∀ b : String, errorMsgLoop (rest.map some) (b ++ "\n") =
      some ((rest.map ErrorValue.Error).foldl (fun b s => b ++ "\n" ++ s) b ++ "\n") := by
  induction rest with
  | nil => intro b; rfl
  | cons r rest ih =>
    intro b
    simp only [List.map_cons, errorMsgLoop, List.foldl_cons]
    rw [← String.append_assoc, ih]

theorem errorMsgLoop_cons (e : ErrorValue) (rest : List ErrorValue) :
    errorMsgLoop ((e :: rest).map some) "" =
      some (Join ((e :: rest).map ErrorValue.Error) "\n" ++ "\n") := by
  simp only [List.map_cons, errorMsgLoop, Join]
  rw [String.empty_append, errorMsgLoop_join]

theorem dropWhile_concat_of_pos {α : Type} (p : α → Bool) (l : List α) (n : α)
    (hn : p n = true) :
    ((l ++ [n]).dropWhile p).reverse.dropWhile p = (l.dropWhile p).reverse.dropWhile p := by
  rw [List.dropWhile_append]
  split
  · rename_i h
    have : l.dropWhile p = [] := by simpa using h
    simp [this, hn]
  · simp [hn]

/-- Trimming ignores a newline at the end. -/
theorem TrimSpace_append_newline (s : String) : TrimSpace (s ++ "\n") = TrimSpace s := by
  unfold TrimSpace
  have h : (s ++ "\n").data = s.data ++ ['\n'] := by rw [String.data_append]
  rw [h, dropWhile_concat_of_pos IsSpace s.data '\n' rfl]

theorem noNil_of_getErrors_append (es : List GoError) (err : GoError)
    (h : ∀ e ∈ es, e ≠ none) :
    ∀ e ∈ es ++ (if err ≠ none then [err] else []), e ≠ none := by
  intro e he
  rcases List.mem_append.mp he with he | he
  · exact h e he
  · split at he
    · rename_i hne
      rw [List.mem_singleton.mp he]; exact hne
    · simp at he

/-- No reachable state holds a nil error in an accessor's list. -/
theorem Reachable.noNil {rt : Runtime} {fl : FloatOps} {w : World} (h : Reachable rt fl w) :
    ∀ (c : Ptr) (es : List GoError), GetErrors c w = some es → ∀ e ∈ es, e ≠ none := by
  induction h with
  | empty => intro c es h; simp [GetErrors, World.empty] at h
  | newConfig app loader w _ ih =>
    intro c es h
    unfold GetErrors at h
    cases hc : (NewConfig app loader w).2.configs[c]? with
    | none => simp [hc] at h
    | some cfg =>
      rw [hc] at h
      simp only [Option.map_some', Option.some.injEq] at h
      rcases getElem?_push _ _ _ _ hc with hc1 | ⟨_, rfl⟩
      · have : GetErrors c w = some es := by
          simp only [GetErrors, hc1, Option.map_some']
          exact congrArg some h
        exact ih c es this
      · subst h
        simp [Mem.view, nilSlice]
  | childConfig p name w c1 w1 _ hch ih =>
    intro c es h
    cases hcfg : w.configs[p]? with
    | none => simp [ChildConfig, hcfg] at hch
    | some pcfg =>
      rw [ChildConfig_eq rt p name w pcfg hcfg] at hch
      simp only [Option.some.injEq, Prod.mk.injEq] at hch
      rcases hch with ⟨_, rfl⟩
      unfold GetErrors at h
      simp only at h
      cases hc : (w.configs ++
          [⟨pcfg.loader, (append rt w.strings pcfg.pathElements name).2, nilSlice⟩])[c]? with
      | none => simp [hc] at h
      | some cfg =>
        rw [hc] at h
        simp only [Option.map_some', Option.some.injEq] at h
        rcases getElem?_push _ _ _ _ hc with hc1 | ⟨_, rfl⟩
        · have : GetErrors c w = some es := by
            simp only [GetErrors, hc1, Option.map_some']
            exact congrArg some h
          exact ih c es this
        · subst h
          simp [Mem.view, nilSlice]
  | call c call w w1 hr hex ih =>
    intro d es h
    rw [Call.exec_eq] at hex
    cases hc : w.configs[c]? with
    | none => simp [hc] at hex
    | some cfg =>
      simp only [hc, Option.map_some', Option.some.injEq] at hex
      subst hex
      by_cases hdc : d = c
      · subst hdc
        have hes0 : GetErrors d w = some (w.errs.view cfg.errors) := by simp [GetErrors, hc]
        rw [finish_getErrors_self rt d cfg _ _ w _ hr.wf hc hes0] at h
        simp only [Option.some.injEq] at h
        subst h
        exact noNil_of_getErrors_append _ _ (ih d _ hes0)
      · rw [finish_getErrors_other rt c d cfg _ _ w hr.wf hc hdc] at h
        exact ih d es h

theorem map_some_of_noNil (es : List GoError) (h : ∀ e ∈ es, e ≠ none) :
    ∃ errs : List ErrorValue, es = errs.map some := by
  induction es with
  | nil => exact ⟨[], rfl⟩
  | cons e es ih =>
    rcases ih (fun x hx => h x (List.mem_cons_of_mem _ hx)) with ⟨errs, rfl⟩
    cases e with
    | none => exact absurd rfl (h none (List.mem_cons_self _ _))
    | some v => exact ⟨v :: errs, rfl⟩

/-! ## Accessors with their loader -/

theorem NewConfig_accessorIs (applicationName : String) (loader : Loader) (w : World) :
    AccessorIs (NewConfig applicationName loader w).2 (NewConfig applicationName loader w).1
      [applicationName] loader [] := by
  refine ⟨⟨loader, ⟨w.strings.length, 1, 1⟩, nilSlice⟩, ?_, ?_, ?_, rfl, nilSlice_valid _, ?_⟩
  · simp [NewConfig]
  · simp [NewConfig, Slice.Valid, Mem.array_append_length]
  · simp [NewConfig, Mem.view, Mem.array_append_length]
  · simp [Mem.view, nilSlice]

theorem ChildConfig_accessorIs (rt : Runtime) (c : Ptr) (name : String) (w : World)
    (p : List String) (loader : Loader) (es : List GoError) (h : AccessorIs w c p loader es) :
    ∃ c1 w1, ChildConfig rt c name w = some (c1, w1) ∧
      AccessorIs w1 c1 (p ++ [name]) loader [] ∧ w1.calls = w.calls := by
  rcases h with ⟨cfg, hc, hv, hp, hl, _, _⟩
  refine ⟨_, _, ChildConfig_eq rt c name w cfg hc, ?_, rfl⟩
  refine ⟨⟨cfg.loader, (append rt w.strings cfg.pathElements name).2, nilSlice⟩, ?_, ?_, ?_,
    hl, nilSlice_valid _, ?_⟩
  · simp
  · exact append_valid rt _ _ _ hv
  · simp only; rw [append_view rt _ _ _ hv, hp]
  · simp [Mem.view, nilSlice]

theorem ChildConfigs_accessorIs (rt : Runtime) (loader : Loader) (segs : List String) :
    ∀ (c : Ptr) (w : World) (p : List String), AccessorIs w c p loader [] →
      ∃ c1 w1, ChildConfigs rt c segs w = some (c1, w1) ∧
        AccessorIs w1 c1 (p ++ segs) loader [] ∧ w1.calls = w.calls := by
  induction segs with
  | nil => intro c w p h; exact ⟨c, w, rfl, by simpa using h, rfl⟩
  | cons s segs ih =>
    intro c w p h
    rcases ChildConfig_accessorIs rt c s w p loader [] h with ⟨c1, w1, h1, hp1, hc1⟩
    rcases ih c1 w1 (p ++ [s]) hp1 with ⟨c2, w2, h2, hp2, hc2⟩
    refine ⟨c2, w2, ?_, by simpa using hp2, by rw [hc2, hc1]⟩
    simp only [ChildConfigs, h1, h2]

/-- The loader's answer to a getter on an accessor with a known path. -/
theorem callLoader_of_accessorIs (rt : Runtime) (cfg : Config) (name : String) (w : World)
    (p : List String) (hv : cfg.pathElements.Valid w.strings)
    (hp : w.strings.view cfg.pathElements = p) :
    (callLoader rt cfg name w).1 = cfg.loader w.calls (p ++ [name]) := by
  show cfg.loader w.calls ((append rt w.strings cfg.pathElements name).1.view
    (append rt w.strings cfg.pathElements name).2) = _
  rw [append_view rt _ _ _ hv, hp]

/-- On an accessor with path `p`, loader `L` and errors `es`, each getter returns
what its coercion makes of `L`'s answer for `p ++ [f]`, and leaves the errors
`es` followed by the error it returns, if any. -/
theorem getters_of_accessorIs (rt : Runtime) (fl : FloatOps) (c : Ptr) (f : String)
    (w : World) (p : List String) (loader : Loader) (es : List GoError)
    (h : AccessorIs w c p loader es) :
    (∃ w1, GetString rt c f w = some (stringResult f (loader w.calls (p ++ [f])), w1) ∧
      GetErrors c w1 = some (es ++
        if (stringResult f (loader w.calls (p ++ [f]))).2 ≠ none
        then [(stringResult f (loader w.calls (p ++ [f]))).2] else [])) ∧
    (∃ w1, GetBool rt c f w = some (boolResult f (loader w.calls (p ++ [f])), w1) ∧
      GetErrors c w1 = some (es ++
        if (boolResult f (loader w.calls (p ++ [f]))).2 ≠ none
        then [(boolResult f (loader w.calls (p ++ [f]))).2] else [])) ∧
    (∃ w1, GetInt rt c f w = some (intResult rt f (loader w.calls (p ++ [f])), w1) ∧
      GetErrors c w1 = some (es ++
        if (intResult rt f (loader w.calls (p ++ [f]))).2 ≠ none
        then [(intResult rt f (loader w.calls (p ++ [f]))).2] else [])) ∧
    (∃ w1, GetFloat rt fl c f w = some (floatResult fl f (loader w.calls (p ++ [f])), w1) ∧
      GetErrors c w1 = some (es ++
        if (floatResult fl f (loader w.calls (p ++ [f]))).2 ≠ none
        then [(floatResult fl f (loader w.calls (p ++ [f]))).2] else [])) := by
  rcases h with ⟨cfg, hc, hv, hp, hl, hev, hes⟩
  have ha := callLoader_of_accessorIs rt cfg f w p hv hp
  rw [hl] at ha
  refine ⟨?_, ?_, ?_, ?_⟩
  · rw [GetString_eq, hc]
    simp only [Option.map_some', ha]
    exact ⟨_, rfl, (finish_errsAre rt c cfg f _ w es hc hev hes).getErrors⟩
  · rw [GetBool_eq, hc]
    simp only [Option.map_some', ha]
    exact ⟨_, rfl, (finish_errsAre rt c cfg f _ w es hc hev hes).getErrors⟩
  · rw [GetInt_eq, hc]
    simp only [Option.map_some', ha]
    exact ⟨_, rfl, (finish_errsAre rt c cfg f _ w es hc hev hes).getErrors⟩
  · rw [GetFloat_eq, hc]
    simp only [Option.map_some', ha]
    exact ⟨_, rfl, (finish_errsAre rt c cfg f _ w es hc hev hes).getErrors⟩
/-- A getter leaves its accessor with the same path and loader, and the errors
followed by the error it returns, if any. -/
theorem finish_accessorIs (rt : Runtime) (c : Ptr) (cfg : Config) (name : String)
    (err : GoError) (w : World) (p : List String) (loader : Loader) (es : List GoError)
    (hc : w.configs[c]? = some cfg) (hv : cfg.pathElements.Valid w.strings)
    (hp : w.strings.view cfg.pathElements = p) (hl : cfg.loader = loader)
    (hev : cfg.errors.Valid w.errs) (hes : w.errs.view cfg.errors = es) :
    AccessorIs (finish rt c cfg name err w) c p loader
      (es ++ if err ≠ none then [err] else []) := by
  obtain ⟨cfg1, h1, hv1, hp1⟩ := finish_pathIs rt c cfg name err w p hc hv hp
  obtain ⟨cfg2, h2, hev2, hes2⟩ := finish_errsAre rt c cfg name err w es hc hev hes
  have h12 : cfg2 = cfg1 := by
    rw [h1] at h2
    exact (Option.some.inj h2).symm
  subst h12
  refine ⟨cfg2, h1, hv1, hp1, ?_, hev2, hes2⟩
  have hlk := finish_lookup rt c cfg name err w hc c
  rw [h1] at hlk
  by_cases he : c = c ∧ err ≠ none
  · rw [if_pos he] at hlk
    rw [Option.some.inj hlk]
    exact hl
  · rw [if_neg he, hc] at hlk
    rw [Option.some.inj hlk]
    exact hl

/-- Any sequence of getter calls leaves the accessor with its path and loader,
and logs one loader invocation per call. -/
theorem runCalls_accessorIs (rt : Runtime) (fl : FloatOps) (c : Ptr) (p : List String)
    (loader : Loader) (calls : List Call) :
    ∀ (w : World) (es : List GoError), AccessorIs w c p loader es →
      ∃ w1 es1, runCalls rt fl c calls w = some w1 ∧ AccessorIs w1 c p loader es1 ∧
        w1.calls = w.calls ++ calls.map (fun call => p ++ [call.name]) := by
  induction calls with
  | nil => intro w es h; exact ⟨w, es, rfl, h, by simp⟩
  | cons call calls ih =>
    intro w es h
    rcases h with ⟨cfg, hc, hv, hp, hl, hev, hes⟩
    have hex := Call.exec_eq rt fl c call w
    rw [hc] at hex
    simp only [Option.map_some'] at hex
    rcases ih _ _ (finish_accessorIs rt c cfg call.name (call.error rt fl c w) w p loader es
      hc hv hp hl hev hes) with ⟨w1, es1, hr, hp1, hc1⟩
    refine ⟨w1, es1, ?_, hp1, ?_⟩
    · simp only [runCalls, hex, hr]
    · rw [hc1, finish_calls_of_path rt c cfg _ _ w p hv hp]; simp

/-- On an accessor with path `p` and loader `L`, each getter returns what its
coercion makes of the answer `L` gives for the path `p ++ [f]`, and the log of
loader invocations grows by that one path. -/
theorem getters_invoke (rt : Runtime) (fl : FloatOps) (c : Ptr) (f : String)
    (w : World) (p : List String) (loader : Loader) (es : List GoError)
    (h : AccessorIs w c p loader es) :
    (∃ w1, GetString rt c f w = some (stringResult f (loader w.calls (p ++ [f])), w1) ∧
      w1.calls = w.calls ++ [p ++ [f]]) ∧
    (∃ w1, GetBool rt c f w = some (boolResult f (loader w.calls (p ++ [f])), w1) ∧
      w1.calls = w.calls ++ [p ++ [f]]) ∧
    (∃ w1, GetInt rt c f w = some (intResult rt f (loader w.calls (p ++ [f])), w1) ∧
      w1.calls = w.calls ++ [p ++ [f]]) ∧
    (∃ w1, GetFloat rt fl c f w = some (floatResult fl f (loader w.calls (p ++ [f])), w1) ∧
      w1.calls = w.calls ++ [p ++ [f]]) := by
  rcases h with ⟨cfg, hc, hv, hp, hl, _, _⟩
  have ha := callLoader_of_accessorIs rt cfg f w p hv hp
  rw [hl] at ha
  refine ⟨?_, ?_, ?_, ?_⟩
  · rw [GetString_eq, hc]
    simp only [Option.map_some', ha]
    exact ⟨_, rfl, finish_calls_of_path rt c cfg f _ w p hv hp⟩
  · rw [GetBool_eq, hc]
    simp only [Option.map_some', ha]
    exact ⟨_, rfl, finish_calls_of_path rt c cfg f _ w p hv hp⟩
  · rw [GetInt_eq, hc]
    simp only [Option.map_some', ha]
    exact ⟨_, rfl, finish_calls_of_path rt c cfg f _ w p hv hp⟩
  · rw [GetFloat_eq, hc]
    simp only [Option.map_some', ha]
    exact ⟨_, rfl, finish_calls_of_path rt c cfg f _ w p hv hp⟩

theorem contains_middle (a b c : String) : Contains (a ++ b ++ c) b := by
  unfold Contains
  exact ⟨a.data, c.data, by simp [String.data_append]⟩

theorem NewEnvironmentLoader_set (uc : Char → Char) (env : Environ)
    (hist : List (List String)) (path : List String) (v : String)
    (h : env (ToUpper uc (Join path "_")) = some v) :
    NewEnvironmentLoader uc env hist path = (.string v, none) := by
  simp only [NewEnvironmentLoader, h]

theorem NewEnvironmentLoader_unset (uc : Char → Char) (env : Environ)
    (hist : List (List String)) (path : List String)
    (h : env (ToUpper uc (Join path "_")) = none) :
    NewEnvironmentLoader uc env hist path =
      (.string "", some (.errorString
        ("environment variable " ++ ToUpper uc (Join path "_") ++ " does not exist"))) := by
  simp only [NewEnvironmentLoader, h, errorsNew]

/-! ## Floating point: conversion of integers -/

theorem bitLenAux_acc (fuel n acc : Nat) : bitLenAux fuel n acc = bitLenAux fuel n 0 + acc := by
  induction fuel generalizing n acc with
  | zero => simp [bitLenAux]
  | succ f ih =>
    simp only [bitLenAux]
    split_ifs
    · simp
    · rw [ih (n / 2) (acc + 1), ih (n / 2) (0 + 1)]
      omega

theorem bitLenAux_spec (fuel n : Nat) (h : n ≤ fuel) (hn : 0 < n) :
    2 ^ (bitLenAux fuel n 0 - 1) ≤ n ∧ n < 2 ^ bitLenAux fuel n 0 ∧ 0 < bitLenAux fuel n 0 := by
  induction fuel generalizing n with
  | zero => omega
  | succ f ih =>
    simp only [bitLenAux]
    rw [if_neg (by omega), bitLenAux_acc]
    by_cases h2 : n / 2 = 0
    · have h1 : n = 1 := by omega
      subst h1
      cases f <;> simp [bitLenAux]
    · obtain ⟨i1, i2, i3⟩ := ih (n / 2) (by omega) (by omega)
      refine ⟨?_, ?_, by omega⟩
      · have e : bitLenAux f (n / 2) 0 + (0 + 1) - 1 = (bitLenAux f (n / 2) 0 - 1) + 1 := by omega
        rw [e, pow_succ]
        omega
      · have e : bitLenAux f (n / 2) 0 + (0 + 1) = bitLenAux f (n / 2) 0 + 1 := by omega
        rw [e, pow_succ]
        omega

theorem bitLen_spec (n : Nat) (hn : 0 < n) :
    2 ^ (bitLen n - 1) ≤ n ∧ n < 2 ^ bitLen n ∧ 0 < bitLen n :=
  bitLenAux_spec n n (le_refl n) hn

theorem bitLen_le (n k : Nat) (hn : 0 < n) (h : n < 2 ^ k) : bitLen n ≤ k := by
  obtain ⟨h1, _, h3⟩ := bitLen_spec n hn
  by_contra hc
  have : 2 ^ k ≤ 2 ^ (bitLen n - 1) := Nat.pow_le_pow_right (by norm_num) (by omega)
  omega

theorem roundToFloat64_nat (a : Nat) (h0 : 0 < a) (h1 : a < 2 ^ 53) :
    roundToFloat64 a 1 = ((bitLen a + 1021) * 2 ^ 52 + a * 2 ^ (53 - bitLen a), false) := by
  obtain ⟨i1, i2, i3⟩ := bitLen_spec a h0
  have i4 : bitLen a ≤ 53 := bitLen_le a 53 h0 h1
  have b1 : bitLen 1 = 1 := by decide
  unfold roundToFloat64
  rw [if_neg (by omega), b1]
  generalize hL : bitLen a = L at *
  have hd : ((L : Int) - ((1 : Nat) : Int)) = ((L - 1 : Nat) : Int) := by omega
  simp only [hd, Int.toNat_ofNat, Int.toNat_neg_nat, pow_zero, mul_one, one_mul]
  rw [if_pos i1]
  have he : max ((L - 1 : Nat) : Int) (-1022) = ((L - 1 : Nat) : Int) := by omega
  have h52 : (52 - ((L - 1 : Nat) : Int)).toNat = 53 - L := by omega
  have h52b : (((L - 1 : Nat) : Int) - 52).toNat = 0 := by omega
  have h1022 : (((L - 1 : Nat) : Int) + 1022).toNat = L + 1021 := by omega
  simp only [he, h52, h52b, h1022, pow_zero, Nat.div_one, Nat.mod_one, mul_zero]
  have hlt : a * 2 ^ (53 - L) < 2 ^ 53 := by
    calc a * 2 ^ (53 - L) < 2 ^ L * 2 ^ (53 - L) :=
          Nat.mul_lt_mul_of_pos_right i2 (Nat.two_pow_pos _)
      _ = 2 ^ 53 := by rw [← pow_add]; congr 1; omega
  have hm : (if 1 < 0 ∨ 0 = 1 ∧ a * 2 ^ (53 - L) % 2 = 1 then a * 2 ^ (53 - L) + 1
      else a * 2 ^ (53 - L)) = a * 2 ^ (53 - L) := if_neg (by omega)
  rw [hm, if_neg]
  have : (L + 1021) * 2 ^ 52 ≤ 1074 * 2 ^ 52 := Nat.mul_le_mul_right _ (by omega)
  norm_num at this hlt ⊢
  omega

theorem bitLen_gt (n k : Nat) (h : 2 ^ k ≤ n) : k < bitLen n := by
  have hn : 0 < n := lt_of_lt_of_le (Nat.two_pow_pos k) h
  obtain ⟨_, h2, _⟩ := bitLen_spec n hn
  by_contra hc
  have : 2 ^ bitLen n ≤ 2 ^ k := Nat.pow_le_pow_right (by norm_num) (by omega)
  omega

theorem roundToFloat64_big (a : Nat) (h1 : 2 ^ 53 ≤ a) (h2 : a < 2 ^ 64) :
    roundToFloat64 a 1 = ((bitLen a + 1021) * 2 ^ 52 +
      (if 2 ^ (bitLen a - 53) < 2 * (a % 2 ^ (bitLen a - 53)) ∨
          (2 * (a % 2 ^ (bitLen a - 53)) = 2 ^ (bitLen a - 53) ∧
            a / 2 ^ (bitLen a - 53) % 2 = 1)
        then a / 2 ^ (bitLen a - 53) + 1 else a / 2 ^ (bitLen a - 53)), false) := by
  have h0 : 0 < a := lt_of_lt_of_le (Nat.two_pow_pos 53) h1
  obtain ⟨i1, i2, i3⟩ := bitLen_spec a h0
  have i4 : bitLen a ≤ 64 := bitLen_le a 64 h0 h2
  have i5 : 53 < bitLen a := bitLen_gt a 53 h1
  have b1 : bitLen 1 = 1 := by decide
  unfold roundToFloat64
  rw [if_neg (by omega), b1]
  generalize hL : bitLen a = L at *
  have hd : ((L : Int) - ((1 : Nat) : Int)) = ((L - 1 : Nat) : Int) := by omega
  simp only [hd, Int.toNat_ofNat, Int.toNat_neg_nat, pow_zero, mul_one, one_mul]
  rw [if_pos i1]
  have he : max ((L - 1 : Nat) : Int) (-1022) = ((L - 1 : Nat) : Int) := by omega
  have h52 : (52 - ((L - 1 : Nat) : Int)).toNat = 0 := by omega
  have h52b : (((L - 1 : Nat) : Int) - 52).toNat = L - 53 := by omega
  have h1022 : (((L - 1 : Nat) : Int) + 1022).toNat = L + 1021 := by omega
  simp only [he, h52, h52b, h1022, pow_zero, mul_one]
  have hq : a / 2 ^ (L - 53) < 2 ^ 53 := by
    rw [Nat.div_lt_iff_lt_mul (Nat.two_pow_pos _)]
    calc a < 2 ^ L := i2
      _ = 2 ^ 53 * 2 ^ (L - 53) := by rw [← pow_add]; congr 1; omega
  rw [if_neg]
  have hm : (if 2 ^ (L - 53) < 2 * (a % 2 ^ (L - 53)) ∨
      2 * (a % 2 ^ (L - 53)) = 2 ^ (L - 53) ∧ a / 2 ^ (L - 53) % 2 = 1
      then a / 2 ^ (L - 53) + 1 else a / 2 ^ (L - 53)) ≤ 2 ^ 53 := by
    split_ifs <;> omega
  have : (L + 1021) * 2 ^ 52 ≤ 1085 * 2 ^ 52 := Nat.mul_le_mul_right _ (by omega)
  generalize (if 2 ^ (L - 53) < 2 * (a % 2 ^ (L - 53)) ∨
      2 * (a % 2 ^ (L - 53)) = 2 ^ (L - 53) ∧ a / 2 ^ (L - 53) % 2 = 1
      then a / 2 ^ (L - 53) + 1 else a / 2 ^ (L - 53)) = m at hm ⊢
  norm_num at this hm ⊢
  omega

theorem toRat_of_fields (s E F : Nat) (hs : s < 2) (hE : 0 < E) (hE2 : E < 2047)
    (hF : F < 2 ^ 52) :
    Float64.toRat? ⟨s * 2 ^ 63 + E * 2 ^ 52 + F⟩ =
      some ((if s = 1 then -1 else 1) * (((2 ^ 52 + F : Nat) : ℚ) * 2 ^ ((E : Int) - 1075))) := by
  have p63 : 2 ^ 63 = 9223372036854775808 := by norm_num
  have p52 : 2 ^ 52 = 4503599627370496 := by norm_num
  have p11 : 2 ^ 11 = 2048 := by norm_num
  rw [p52] at hF
  have e1 : (s * 2 ^ 63 + E * 2 ^ 52 + F) / 2 ^ 63 % 2 = s := by
    rw [p63, p52]
    omega
  have e2 : (s * 2 ^ 63 + E * 2 ^ 52 + F) / 2 ^ 52 % 2 ^ 11 = E := by
    rw [p63, p52, p11]
    omega
  have e3 : (s * 2 ^ 63 + E * 2 ^ 52 + F) % 2 ^ 52 = F := by
    rw [p63, p52]
    omega
  have e4 : max E 1 = E := by omega
  have e5 : ¬ E = 2047 := by omega
  have e6 : ¬ E = 0 := by omega
  unfold Float64.toRat? Float64.sign Float64.expField Float64.fraction
  simp only [e1, e2, e3, e4, e5, e6, if_false]

theorem float64OfInt_exact (n : Int) (h : n.natAbs ≤ 2 ^ 53) :
    (float64OfInt n).toRat? = some (n : ℚ) := by
  rcases Nat.eq_zero_or_pos n.natAbs with h0 | h0
  · have hn : n = 0 := Int.natAbs_eq_zero.mp h0
    subst hn
    simp [float64OfInt, roundToFloat64, Float64.toRat?, Float64.sign, Float64.expField,
      Float64.fraction]
  · have hsgn : ((if n < 0 then -1 else 1 : ℚ)) * (n.natAbs : ℚ) = (n : ℚ) := by
      split_ifs with hneg
      · have : (n.natAbs : Int) = -n := by omega
        have h2 : (n.natAbs : ℚ) = ((-n : Int) : ℚ) := by
          rw [← this]
          exact (Int.cast_natCast _).symm
        rw [h2]
        push_cast
        ring
      · have : (n.natAbs : Int) = n := by omega
        have h2 : (n.natAbs : ℚ) = (n : ℚ) := by
          nth_rewrite 2 [← this]
          exact (Int.cast_natCast _).symm
        rw [h2]
        ring
    rcases Nat.lt_or_ge n.natAbs (2 ^ 53) with h1 | h1
    · obtain ⟨i1, i2, i3⟩ := bitLen_spec n.natAbs h0
      have i4 : bitLen n.natAbs ≤ 53 := bitLen_le _ 53 h0 h1
      unfold float64OfInt
      rw [roundToFloat64_nat _ h0 h1]
      generalize hL : bitLen n.natAbs = L at *
      generalize ha : n.natAbs = a at *
      have hge : 2 ^ 52 ≤ a * 2 ^ (53 - L) := by
        calc 2 ^ 52 = 2 ^ (L - 1) * 2 ^ (53 - L) := by rw [← pow_add]; congr 1; omega
          _ ≤ a * 2 ^ (53 - L) := Nat.mul_le_mul_right _ i1
      have hlt : a * 2 ^ (53 - L) < 2 ^ 53 := by
        calc a * 2 ^ (53 - L) < 2 ^ L * 2 ^ (53 - L) :=
              Nat.mul_lt_mul_of_pos_right i2 (Nat.two_pow_pos _)
          _ = 2 ^ 53 := by rw [← pow_add]; congr 1; omega
      have hbits : (if n < 0 then 2 ^ 63 else 0) + ((L + 1021) * 2 ^ 52 + a * 2 ^ (53 - L), false).1
          = (if n < 0 then 1 else 0) * 2 ^ 63 + (L + 1022) * 2 ^ 52
            + (a * 2 ^ (53 - L) - 2 ^ 52) := by
        show (if n < 0 then 2 ^ 63 else 0) + ((L + 1021) * 2 ^ 52 + a * 2 ^ (53 - L)) = _
        split_ifs <;> omega
      rw [hbits, toRat_of_fields _ _ _ (by split_ifs <;> omega) (by omega) (by omega) (by omega)]
      have hM : 2 ^ 52 + (a * 2 ^ (53 - L) - 2 ^ 52) = a * 2 ^ (53 - L) := by omega
      have hs : (if (if n < 0 then 1 else 0) = 1 then (-1 : ℚ) else 1)
          = (if n < 0 then -1 else 1) := by
        split_ifs <;> simp_all
      have hval : ((a * 2 ^ (53 - L) : Nat) : ℚ) * 2 ^ (((L + 1022 : Nat) : Int) - 1075)
          = (a : ℚ) := by
        push_cast
        rw [mul_assoc, ← zpow_natCast, ← zpow_add₀ (by norm_num : (2 : ℚ) ≠ 0)]
        have : ((53 - L : Nat) : Int) + (((L : Int) + 1022) - 1075) = 0 := by omega
        rw [this, zpow_zero, mul_one]
      rw [hM, hs, hval, hsgn]
    · have ha : n.natAbs = 2 ^ 53 := le_antisymm h h1
      have hr : roundToFloat64 (2 ^ 53) 1 = (1076 * 2 ^ 52 + 0, false) := by rfl
      unfold float64OfInt
      rw [ha, hr]
      have hbits : (if n < 0 then 2 ^ 63 else 0) + ((1076 * 2 ^ 52 + 0, false) : Nat × Bool).1
          = (if n < 0 then 1 else 0) * 2 ^ 63 + 1076 * 2 ^ 52 + 0 := by
        show (if n < 0 then 2 ^ 63 else 0) + (1076 * 2 ^ 52 + 0) = _
        split_ifs <;> omega
      rw [hbits, toRat_of_fields _ _ _ (by split_ifs <;> omega) (by omega) (by omega)
        (by norm_num)]
      have hs : (if (if n < 0 then 1 else 0) = 1 then (-1 : ℚ) else 1)
          = (if n < 0 then -1 else 1) := by
        split_ifs <;> simp_all
      have hval : ((2 ^ 52 + 0 : Nat) : ℚ) * 2 ^ (((1076 : Nat) : Int) - 1075)
          = ((2 ^ 53 : Nat) : ℚ) := by
        norm_num
      rw [hs, hval, ← ha, hsgn]

theorem roundInt_small (a : Nat) (h : a < 2 ^ 53) : roundInt a = a := by
  have hk : bitLen a - 53 = 0 := by
    rcases Nat.eq_zero_or_pos a with h0 | h0
    · subst h0
      rfl
    · have := bitLen_le a 53 h0 h
      omega
  unfold roundInt
  simp only [hk, pow_zero, Nat.mod_one, Nat.div_one, mul_zero, mul_one]
  rw [if_neg (by omega)]

theorem int_cast_sign (n : Int) :
    ((if n < 0 then -1 else 1 : ℚ)) * (n.natAbs : ℚ) = (n : ℚ) := by
  split_ifs with hneg
  · have : (n.natAbs : Int) = -n := by omega
    have h2 : (n.natAbs : ℚ) = ((-n : Int) : ℚ) := by
      rw [← this]
      exact (Int.cast_natCast _).symm
    rw [h2]
    push_cast
    ring
  · have : (n.natAbs : Int) = n := by omega
    have h2 : (n.natAbs : ℚ) = (n : ℚ) := by
      nth_rewrite 2 [← this]
      exact (Int.cast_natCast _).symm
    rw [h2]
    ring

theorem toRat_rounded (s L m : Nat) (hs : s < 2) (hL1 : 53 ≤ L) (hL2 : L ≤ 64)
    (hm1 : 2 ^ 52 ≤ m) (hm2 : m ≤ 2 ^ 53) :
    Float64.toRat? ⟨s * 2 ^ 63 + ((L + 1021) * 2 ^ 52 + m)⟩ =
      some ((if s = 1 then -1 else 1) * ((m * 2 ^ (L - 53) : Nat) : ℚ)) := by
  have p52 : (2 : Nat) ^ 52 = 4503599627370496 := by norm_num
  have p53 : (2 : Nat) ^ 53 = 9007199254740992 := by norm_num
  have hk : (((L - 53 : Nat) : Int)) = (L : Int) - 53 := by omega
  rcases Nat.lt_or_ge m (2 ^ 53) with hlt | hge
  · have hbits : s * 2 ^ 63 + ((L + 1021) * 2 ^ 52 + m)
        = s * 2 ^ 63 + (L + 1022) * 2 ^ 52 + (m - 2 ^ 52) := by
      rw [p52] at hm1 ⊢
      omega
    rw [hbits, toRat_of_fields _ _ _ hs (by omega) (by omega) (by rw [p52, p53] at *; omega)]
    have hM : 2 ^ 52 + (m - 2 ^ 52) = m := by omega
    have hval : (m : ℚ) * 2 ^ (((L + 1022 : Nat) : Int) - 1075)
        = ((m * 2 ^ (L - 53) : Nat) : ℚ) := by
      push_cast
      rw [← zpow_natCast (2 : ℚ) (L - 53), hk]
      have e1 : ((L : Int) + 1022 - 1075) = (L : Int) - 53 := by omega
      rw [e1]
    rw [hM, hval]
  · have hm : m = 2 ^ 53 := le_antisymm hm2 hge
    subst hm
    have hbits : s * 2 ^ 63 + ((L + 1021) * 2 ^ 52 + 2 ^ 53)
        = s * 2 ^ 63 + (L + 1023) * 2 ^ 52 + 0 := by
      rw [p52, p53]
      omega
    have hval : ((2 ^ 52 + 0 : Nat) : ℚ) * 2 ^ (((L + 1023 : Nat) : Int) - 1075)
        = ((2 ^ 53 * 2 ^ (L - 53) : Nat) : ℚ) := by
      push_cast
      rw [← zpow_natCast (2 : ℚ) (L - 53), hk]
      have e1 : ((L : Int) + 1023 - 1075) = ((L : Int) - 53) + 1 := by omega
      rw [e1, zpow_add_one₀ (by norm_num : (2 : ℚ) ≠ 0)]
      ring
    rw [hbits, toRat_of_fields _ _ _ hs (by omega) (by omega) (by norm_num), hval]

theorem float64OfInt_value (n : Int) (h : n.natAbs < 2 ^ 64) :
    (float64OfInt n).toRat? =
      some ((if n < 0 then -1 else 1) * ((roundInt n.natAbs : Nat) : ℚ)) := by
  rcases Nat.lt_or_ge n.natAbs (2 ^ 53) with h1 | h1
  · rw [float64OfInt_exact n (le_of_lt h1), roundInt_small _ h1, int_cast_sign]
  · have h0 : 0 < n.natAbs := lt_of_lt_of_le (Nat.two_pow_pos 53) h1
    obtain ⟨i1, i2, i3⟩ := bitLen_spec n.natAbs h0
    have i4 : bitLen n.natAbs ≤ 64 := bitLen_le _ 64 h0 h
    have i5 : 53 < bitLen n.natAbs := bitLen_gt _ 53 h1
    unfold float64OfInt roundInt
    rw [roundToFloat64_big _ h1 h]
    simp only []
    generalize hL : bitLen n.natAbs = L at *
    generalize ha : n.natAbs = a at *
    have hq1 : 2 ^ 52 ≤ a / 2 ^ (L - 53) := by
      rw [Nat.le_div_iff_mul_le (Nat.two_pow_pos _)]
      calc 2 ^ 52 * 2 ^ (L - 53) = 2 ^ (L - 1) := by rw [← pow_add]; congr 1; omega
        _ ≤ a := i1
    have hq2 : a / 2 ^ (L - 53) < 2 ^ 53 := by
      rw [Nat.div_lt_iff_lt_mul (Nat.two_pow_pos _)]
      calc a < 2 ^ L := i2
        _ = 2 ^ 53 * 2 ^ (L - 53) := by rw [← pow_add]; congr 1; omega
    have hm1 : 2 ^ 52 ≤ (if 2 ^ (L - 53) < 2 * (a % 2 ^ (L - 53)) ∨
        2 * (a % 2 ^ (L - 53)) = 2 ^ (L - 53) ∧ a / 2 ^ (L - 53) % 2 = 1
        then a / 2 ^ (L - 53) + 1 else a / 2 ^ (L - 53)) := by
      split_ifs <;> omega
    have hm2 : (if 2 ^ (L - 53) < 2 * (a % 2 ^ (L - 53)) ∨
        2 * (a % 2 ^ (L - 53)) = 2 ^ (L - 53) ∧ a / 2 ^ (L - 53) % 2 = 1
        then a / 2 ^ (L - 53) + 1 else a / 2 ^ (L - 53)) ≤ 2 ^ 53 := by
      split_ifs <;> omega
    generalize (if 2 ^ (L - 53) < 2 * (a % 2 ^ (L - 53)) ∨
        2 * (a % 2 ^ (L - 53)) = 2 ^ (L - 53) ∧ a / 2 ^ (L - 53) % 2 = 1
        then a / 2 ^ (L - 53) + 1 else a / 2 ^ (L - 53)) = m at hm1 hm2 ⊢
    have hbits : (if n < 0 then 2 ^ 63 else 0) + ((L + 1021) * 2 ^ 52 + m)
        = (if n < 0 then 1 else 0) * 2 ^ 63 + ((L + 1021) * 2 ^ 52 + m) := by
      split_ifs <;> omega
    rw [hbits, toRat_rounded _ L m (by split_ifs <;> omega) (by omega) i4 hm1 hm2]
    have hs : (if (if n < 0 then 1 else 0) = 1 then (-1 : ℚ) else 1)
        = (if n < 0 then -1 else 1) := by
      split_ifs <;> simp_all
    rw [hs]

theorem roundInt_near (a : Nat) :
    (∃ m, roundInt a = m * 2 ^ (bitLen a - 53)) ∧
      2 * roundInt a ≤ 2 * a + 2 ^ (bitLen a - 53) ∧
      2 * a ≤ 2 * roundInt a + 2 ^ (bitLen a - 53) ∧
      ((2 * roundInt a + 2 ^ (bitLen a - 53) = 2 * a ∨
          2 * a + 2 ^ (bitLen a - 53) = 2 * roundInt a) →
        ∃ m, roundInt a = m * 2 ^ (bitLen a - 53) ∧ m % 2 = 0) := by
  unfold roundInt
  simp only []
  have hG : 0 < 2 ^ (bitLen a - 53) := Nat.two_pow_pos _
  generalize 2 ^ (bitLen a - 53) = G at hG ⊢
  have hdm := Nat.div_add_mod' a G
  have hr : a % G < G := Nat.mod_lt _ hG
  by_cases hc : G < 2 * (a % G) ∨ (2 * (a % G) = G ∧ a / G % 2 = 1)
  · rw [if_pos hc]
    have e : (a / G + 1) * G = a / G * G + G := by ring
    refine ⟨⟨_, rfl⟩, ?_, ?_, ?_⟩
    · rw [e]; omega
    · rw [e]; omega
    · intro ht
      refine ⟨_, rfl, ?_⟩
      rw [e] at ht
      omega
  · rw [if_neg hc]
    refine ⟨⟨_, rfl⟩, ?_, ?_, ?_⟩
    · omega
    · omega
    · intro ht
      refine ⟨_, rfl, ?_⟩
      omega

theorem toRat_form (y : Float64) (vy : ℚ) (h : y.toRat? = some vy) :
    ∃ (M : Nat) (t : Int) (σ : ℚ), (σ = 1 ∨ σ = -1) ∧ M < 2 ^ 53 ∧ vy = σ * (M * 2 ^ t) := by
  unfold Float64.toRat? at h
  by_cases he : y.expField = 2047
  · rw [if_pos he] at h
    simp at h
  · rw [if_neg he] at h
    have hf : y.fraction < 2 ^ 52 := Nat.mod_lt _ (Nat.two_pow_pos 52)
    refine ⟨if y.expField = 0 then y.fraction else 2 ^ 52 + y.fraction, _,
      if y.sign = 1 then -1 else 1, ?_, ?_, (Option.some.inj h).symm⟩
    · by_cases hs : y.sign = 1
      · right; rw [if_pos hs]
      · left; rw [if_neg hs]
    · have p52 : (2 : Nat) ^ 52 = 4503599627370496 := by norm_num
      have p53 : (2 : Nat) ^ 53 = 9007199254740992 := by norm_num
      rw [p52] at hf
      rw [p53]
      split_ifs
      · omega
      · rw [p52]; omega

theorem roundInt_nearest (a M : Nat) (t : Int) (σ : ℚ) (hσ : σ = 1 ∨ σ = -1)
    (hM : M < 2 ^ 53) :
    |((roundInt a : Nat) : ℚ) - a| ≤ |σ * (M * 2 ^ t) - a| ∧
      (|σ * (M * 2 ^ t) - a| = |((roundInt a : Nat) : ℚ) - a| →
        σ * (M * 2 ^ t) ≠ ((roundInt a : Nat) : ℚ) →
        2 * |((roundInt a : Nat) : ℚ) - a| = 2 ^ (bitLen a - 53)) := by
  obtain ⟨⟨m, hm⟩, hle1, hle2, _⟩ := roundInt_near a
  by_cases hk : bitLen a - 53 = 0
  · rw [hk, pow_zero] at hle1 hle2
    have : roundInt a = a := by omega
    rw [this, sub_self, abs_zero]
    refine ⟨abs_nonneg _, ?_⟩
    intro h1 h2
    exact absurd (sub_eq_zero.mp (abs_eq_zero.mp h1)) h2
  have hGpos : (0 : ℚ) < 2 ^ (bitLen a - 53) := by positivity
  have c1 : (2 : ℚ) * (roundInt a : Nat) ≤ 2 * a + 2 ^ (bitLen a - 53) := by
    exact_mod_cast hle1
  have c2 : (2 : ℚ) * a ≤ 2 * (roundInt a : Nat) + 2 ^ (bitLen a - 53) := by
    exact_mod_cast hle2
  have cm : ((roundInt a : Nat) : ℚ) = m * 2 ^ (bitLen a - 53) := by
    rw [hm]; push_cast; ring
  have habs : 2 * |((roundInt a : Nat) : ℚ) - a| ≤ 2 ^ (bitLen a - 53) := by
    have : |((roundInt a : Nat) : ℚ) - a| ≤ 2 ^ (bitLen a - 53) / 2 :=
      abs_le.mpr ⟨by linarith, by linarith⟩
    linarith
  have grid : ∀ z : Int, z ≠ (m : Int) →
      (2 : ℚ) ^ (bitLen a - 53) - |((roundInt a : Nat) : ℚ) - a|
        ≤ |(z : ℚ) * 2 ^ (bitLen a - 53) - a| := by
    intro z hz
    have h1 : (1 : Int) ≤ |z - m| := Int.one_le_abs (sub_ne_zero.mpr hz)
    have h2 : (1 : ℚ) ≤ |(z : ℚ) - m| := by exact_mod_cast h1
    have h3 : (2 : ℚ) ^ (bitLen a - 53)
        ≤ |(z : ℚ) * 2 ^ (bitLen a - 53) - (roundInt a : Nat)| := by
      rw [cm, ← sub_mul, abs_mul, abs_of_pos hGpos]
      nlinarith
    have h4 := abs_sub_le ((z : ℚ) * 2 ^ (bitLen a - 53)) (a : ℚ) ((roundInt a : Nat) : ℚ)
    rw [abs_sub_comm (a : ℚ) ((roundInt a : Nat) : ℚ)] at h4
    linarith
  by_cases ht : ((bitLen a - 53 : Nat) : Int) ≤ t
  · have hpow : (2 : ℚ) ^ t = 2 ^ ((t - ((bitLen a - 53 : Nat) : Int)).toNat)
        * 2 ^ (bitLen a - 53) := by
      rw [← zpow_natCast, ← zpow_natCast, ← zpow_add₀ (by norm_num : (2 : ℚ) ≠ 0)]
      congr 1
      omega
    have hz : ∃ z : Int, σ * ((M : ℚ) * 2 ^ t) = (z : ℚ) * 2 ^ (bitLen a - 53) := by
      rcases hσ with hs | hs
      · refine ⟨(M : Int) * 2 ^ ((t - ((bitLen a - 53 : Nat) : Int)).toNat), ?_⟩
        rw [hs, hpow]
        push_cast
        ring
      · refine ⟨-((M : Int) * 2 ^ ((t - ((bitLen a - 53 : Nat) : Int)).toNat)), ?_⟩
        rw [hs, hpow]
        push_cast
        ring
    obtain ⟨z, hz⟩ := hz
    rw [hz]
    by_cases hzm : z = (m : Int)
    · rw [hzm]
      refine ⟨by rw [cm]; simp, ?_⟩
      intro _ h2
      exact absurd (by rw [cm]; simp) h2
    · have hg := grid z hzm
      refine ⟨by linarith, ?_⟩
      intro h1 _
      rw [h1] at hg
      linarith
  · have ha0 : 0 < a := by
      rcases Nat.eq_zero_or_pos a with h0 | h0
      · subst h0
        exact absurd rfl hk
      · exact h0
    obtain ⟨i1, _, _⟩ := bitLen_spec a ha0
    have hA : (2 : ℚ) ^ 52 * 2 ^ (bitLen a - 53) ≤ a := by
      have : 2 ^ 52 * 2 ^ (bitLen a - 53) ≤ a := by
        calc 2 ^ 52 * 2 ^ (bitLen a - 53) = 2 ^ (bitLen a - 1) := by
              rw [← pow_add]; congr 1; omega
          _ ≤ a := i1
      exact_mod_cast this
    have hg : |((roundInt a : Nat) : ℚ) - a| ≤ (a : ℚ) - 2 ^ 52 * 2 ^ (bitLen a - 53) := by
      by_cases hzm : ((2 : Int) ^ 52) = (m : Int)
      · have e : (m : ℚ) = (2 : ℚ) ^ 52 := by
          have : ((m : Int) : ℚ) = (((2 : Int) ^ 52 : Int) : ℚ) := by rw [hzm]
          rw [Int.cast_natCast] at this
          rw [this]
          norm_num
        rw [cm, e, abs_sub_comm, abs_of_nonneg (by linarith)]
      · have h1 := grid (2 ^ 52) hzm
        have e : (((2 : Int) ^ 52 : Int) : ℚ) = (2 : ℚ) ^ 52 := by norm_num
        rw [e, abs_sub_comm ((2 : ℚ) ^ 52 * 2 ^ (bitLen a - 53)) (a : ℚ),
          abs_of_nonneg (show (0 : ℚ) ≤ (a : ℚ) - 2 ^ 52 * 2 ^ (bitLen a - 53) by linarith)]
          at h1
        linarith
    have hl : (2 : ℚ) ^ t ≤ 2 ^ (bitLen a - 53) / 2 := by
      have h1 : (2 : ℚ) ^ t ≤ 2 ^ (((bitLen a - 53 : Nat) : Int) - 1) :=
        (zpow_le_zpow_iff_right₀ (by norm_num : (1 : ℚ) < 2)).mpr (by omega)
      rw [zpow_sub_one₀ (by norm_num : (2 : ℚ) ≠ 0), zpow_natCast] at h1
      rw [div_eq_mul_inv]
      exact h1
    have hMq : (M : ℚ) < 2 ^ 53 := by exact_mod_cast hM
    have hpt : (0 : ℚ) < 2 ^ t := by positivity
    have hMt : (M : ℚ) * 2 ^ t < 2 ^ 52 * 2 ^ (bitLen a - 53) := by
      calc (M : ℚ) * 2 ^ t < 2 ^ 53 * 2 ^ t := by
            apply mul_lt_mul_of_pos_right hMq hpt
        _ ≤ 2 ^ 53 * (2 ^ (bitLen a - 53) / 2) := by
            apply mul_le_mul_of_nonneg_left hl (by positivity)
        _ = 2 ^ 52 * 2 ^ (bitLen a - 53) := by ring
    have hM0 : (0 : ℚ) ≤ (M : ℚ) * 2 ^ t := by positivity
    have hfinal : (a : ℚ) - (M : ℚ) * 2 ^ t ≤ |σ * (M * 2 ^ t) - a| := by
      rcases hσ with hs | hs
      · rw [hs, one_mul, abs_sub_comm]
        exact le_abs_self _
      · rw [hs, abs_sub_comm]
        have : (a : ℚ) - (M : ℚ) * 2 ^ t ≤ (a : ℚ) - -1 * ((M : ℚ) * 2 ^ t) := by linarith
        exact le_trans this (le_abs_self _)
    refine ⟨by linarith, ?_⟩
    intro h1 _
    rw [h1] at hfinal
    linarith

theorem float64OfInt_even (n : Int) (h : n.natAbs < 2 ^ 64)
    (htie : 2 * |((roundInt n.natAbs : Nat) : ℚ) - (n.natAbs : Nat)|
      = 2 ^ (bitLen n.natAbs - 53)) :
    (float64OfInt n).bits % 2 = 0 := by
  rcases Nat.lt_or_ge n.natAbs (2 ^ 53) with h1 | h1
  · rw [roundInt_small _ h1, sub_self, abs_zero, mul_zero] at htie
    have : (0 : ℚ) < 2 ^ (bitLen n.natAbs - 53) := by positivity
    rw [← htie] at this
    exact absurd this (lt_irrefl _)
  · have i5 : 53 < bitLen n.natAbs := bitLen_gt _ 53 h1
    have hnat : 2 * roundInt n.natAbs + 2 ^ (bitLen n.natAbs - 53) = 2 * n.natAbs ∨
        2 * n.natAbs + 2 ^ (bitLen n.natAbs - 53) = 2 * roundInt n.natAbs := by
      rcases le_total ((roundInt n.natAbs : Nat) : ℚ) (n.natAbs : Nat) with hle | hle
      · left
        rw [abs_sub_comm, abs_of_nonneg (by linarith)] at htie
        have : (2 : ℚ) * (roundInt n.natAbs : Nat) + 2 ^ (bitLen n.natAbs - 53)
            = 2 * (n.natAbs : Nat) := by linarith
        exact_mod_cast this
      · right
        rw [abs_of_nonneg (by linarith)] at htie
        have : (2 : ℚ) * (n.natAbs : Nat) + 2 ^ (bitLen n.natAbs - 53)
            = 2 * (roundInt n.natAbs : Nat) := by linarith
        exact_mod_cast this
    obtain ⟨m1, hm1, heven⟩ := (roundInt_near n.natAbs).2.2.2 hnat
    have hbits : (float64OfInt n).bits
        = (if n < 0 then 2 ^ 63 else 0) + (roundToFloat64 n.natAbs 1).1 := rfl
    rw [hbits, roundToFloat64_big _ h1 h]
    simp only []
    have hm : (if 2 ^ (bitLen n.natAbs - 53) < 2 * (n.natAbs % 2 ^ (bitLen n.natAbs - 53)) ∨
        2 * (n.natAbs % 2 ^ (bitLen n.natAbs - 53)) = 2 ^ (bitLen n.natAbs - 53) ∧
          n.natAbs / 2 ^ (bitLen n.natAbs - 53) % 2 = 1
        then n.natAbs / 2 ^ (bitLen n.natAbs - 53) + 1
        else n.natAbs / 2 ^ (bitLen n.natAbs - 53)) = m1 := by
      have hr : roundInt n.natAbs = (if 2 ^ (bitLen n.natAbs - 53)
            < 2 * (n.natAbs % 2 ^ (bitLen n.natAbs - 53)) ∨
          2 * (n.natAbs % 2 ^ (bitLen n.natAbs - 53)) = 2 ^ (bitLen n.natAbs - 53) ∧
            n.natAbs / 2 ^ (bitLen n.natAbs - 53) % 2 = 1
          then n.natAbs / 2 ^ (bitLen n.natAbs - 53) + 1
          else n.natAbs / 2 ^ (bitLen n.natAbs - 53)) * 2 ^ (bitLen n.natAbs - 53) := rfl
      rw [hr] at hm1
      exact Nat.eq_of_mul_eq_mul_right (Nat.two_pow_pos _) hm1
    rw [hm]
    have p63 : (2 : Nat) ^ 63 = 9223372036854775808 := by norm_num
    have p52 : (2 : Nat) ^ 52 = 4503599627370496 := by norm_num
    rw [p63, p52]
    split_ifs <;> omega

theorem float64OfInt_nearest (n : Int) (h : n.natAbs < 2 ^ 64) :
    ∃ v : ℚ, (float64OfInt n).toRat? = some v ∧
      (∀ (y : Float64) (vy : ℚ), y.toRat? = some vy → |v - n| ≤ |vy - n|) ∧
      (∀ (y : Float64) (vy : ℚ), y.toRat? = some vy → vy ≠ v → |vy - n| = |v - n| →
        (float64OfInt n).bits % 2 = 0) := by
  refine ⟨_, float64OfInt_value n h, ?_⟩
  have hn := int_cast_sign n
  have key : ∀ (y : Float64) (vy : ℚ), y.toRat? = some vy →
      ∃ x : ℚ,
        (|((roundInt n.natAbs : Nat) : ℚ) - (n.natAbs : Nat)| ≤ |x - (n.natAbs : Nat)| ∧
          (|x - (n.natAbs : Nat)| = |((roundInt n.natAbs : Nat) : ℚ) - (n.natAbs : Nat)| →
            x ≠ ((roundInt n.natAbs : Nat) : ℚ) →
            2 * |((roundInt n.natAbs : Nat) : ℚ) - (n.natAbs : Nat)|
              = 2 ^ (bitLen n.natAbs - 53))) ∧
        |vy - n| = |x - (n.natAbs : Nat)| ∧
        |(if n < 0 then -1 else 1) * ((roundInt n.natAbs : Nat) : ℚ) - n|
          = |((roundInt n.natAbs : Nat) : ℚ) - (n.natAbs : Nat)| ∧
        (vy ≠ (if n < 0 then -1 else 1) * ((roundInt n.natAbs : Nat) : ℚ) →
          x ≠ ((roundInt n.natAbs : Nat) : ℚ)) := by
    intro y vy hy
    obtain ⟨M, t, σ, hσ, hM, hvy⟩ := toRat_form y vy hy
    by_cases hneg : n < 0
    · rw [if_pos hneg] at hn ⊢
      have hσ2 : -σ = 1 ∨ -σ = -1 := by
        rcases hσ with hs | hs
        · right; rw [hs]
        · left; rw [hs]; norm_num
      refine ⟨-σ * (M * 2 ^ t), roundInt_nearest n.natAbs M t (-σ) hσ2 hM, ?_, ?_, ?_⟩
      · rw [← hn, hvy, ← abs_neg]
        congr 1
        ring
      · rw [← hn, ← abs_neg]
        congr 1
        ring
      · intro h1 h2
        apply h1
        rw [hvy, ← h2]
        ring
    · rw [if_neg hneg] at hn ⊢
      refine ⟨σ * (M * 2 ^ t), roundInt_nearest n.natAbs M t σ hσ hM, ?_, ?_, ?_⟩
      · rw [← hn, hvy, one_mul]
      · rw [← hn, one_mul, one_mul]
      · intro h1 h2
        apply h1
        rw [hvy, h2, one_mul]
  constructor
  · intro y vy hy
    obtain ⟨x, ⟨k1, _⟩, k2, k3, _⟩ := key y vy hy
    rw [k2, k3]
    exact k1
  · intro y vy hy hne heq
    obtain ⟨x, ⟨_, k1⟩, k2, k3, k4⟩ := key y vy hy
    rw [k2, k3] at heq
    exact float64OfInt_even n h (k1 heq (k4 hne))

/-! ## Package strconv: `ParseFloat` -/

theorem le_lower (n : Nat) : n ≤ lower n := by
  unfold lower
  apply Nat.le_of_testBit
  intro i h
  simp [h]

theorem lower_hexletter (n : Nat) (h : 97 ≤ lower n ∧ lower n ≤ 102) :
    (97 ≤ n ∧ n ≤ 102) ∨ (65 ≤ n ∧ n ≤ 70) := by
  have hn : n ≤ 102 := le_trans (le_lower n) h.2
  have key : ∀ m, m ≤ 102 → (97 ≤ lower m ∧ lower m ≤ 102) →
      (97 ≤ m ∧ m ≤ 102) ∨ (65 ≤ m ∧ m ≤ 70) := by decide
  exact key n hn h

theorem lower_letter (n : Nat) :
    (lower n = 101 → n = 101 ∨ n = 69) ∧ (lower n = 112 → n = 112 ∨ n = 80) ∧
      (lower n = 120 → n = 120 ∨ n = 88) ∧
      (lower n = 98 ∨ lower n = 111 ∨ lower n = 120 → 66 ≤ n) := by
  have key : ∀ m, m ≤ 120 →
      (lower m = 101 → m = 101 ∨ m = 69) ∧ (lower m = 112 → m = 112 ∨ m = 80) ∧
      (lower m = 120 → m = 120 ∨ m = 88) ∧
      (lower m = 98 ∨ lower m = 111 ∨ lower m = 120 → 66 ≤ m) := by decide
  by_cases hn : n ≤ 120
  · exact key n hn
  · have := le_lower n
    refine ⟨?_, ?_, ?_, ?_⟩ <;> intro h <;> omega

theorem commonPrefix_variants (w : List Char) :
    ∀ (s : List Char) (k : Nat), (∀ p ∈ w, 97 ≤ p.toNat ∧ p.toNat ≤ 122) →
      k ≤ commonPrefixLenIgnoreCase s w →
      ∃ v t, s = v ++ t ∧ v ∈ caseVariants (w.take k) ∧ v.length = k := by
  induction w with
  | nil =>
    intro s k _ hk
    have : commonPrefixLenIgnoreCase s [] = 0 := by
      cases s <;> rfl
    rw [this] at hk
    have hk0 : k = 0 := by omega
    subst hk0
    exact ⟨[], s, rfl, by simp [caseVariants], rfl⟩
  | cons p pre ih =>
    intro s k hw hk
    cases k with
    | zero => exact ⟨[], s, rfl, by simp [caseVariants], rfl⟩
    | succ k =>
      cases s with
      | nil => simp [commonPrefixLenIgnoreCase] at hk
      | cons c s1 =>
        simp only [commonPrefixLenIgnoreCase] at hk
        by_cases hc : (if 65 ≤ c.toNat ∧ c.toNat ≤ 90 then c.toNat + 32 else c.toNat) = p.toNat
        · rw [if_pos hc] at hk
          obtain ⟨v, t, hs, hv, hl⟩ :=
            ih s1 k (fun q hq => hw q (List.mem_cons_of_mem _ hq)) (by omega)
          refine ⟨c :: v, t, by rw [hs]; rfl, ?_, by simp [hl]⟩
          have hp := hw p (List.mem_cons_self _ _)
          simp only [List.take_succ_cons, caseVariants, List.mem_flatMap, List.mem_cons,
            List.mem_singleton, List.not_mem_nil, or_false]
          refine ⟨v, hv, ?_⟩
          by_cases hcap : 65 ≤ c.toNat ∧ c.toNat ≤ 90
          · rw [if_pos hcap] at hc
            right
            congr 1
            rw [char_eq_iff, toUpper_toNat, if_pos hp]
            omega
          · rw [if_neg hcap] at hc
            left
            congr 1
            rw [char_eq_iff]
            exact hc
        · rw [if_neg hc] at hk
          omega

theorem special_infinity_sound (neg : Bool) (nsign : Nat) (s : List Char) (val : Float64)
    (n : Nat) (h : special.infinity neg nsign s = some (val, n)) (hn : n = nsign + s.length) :
    EqualsAnyCase ⟨s⟩ ["inf", "infinity"] := by
  unfold special.infinity at h
  simp only [] at h
  generalize hk : commonPrefixLenIgnoreCase s "infinity".data = k at h
  have key : ∀ j, j ≤ k → j = s.length →
      ∃ v, s = v ∧ v ∈ caseVariants ("infinity".data.take j) := by
    intro j hj hjl
    obtain ⟨v, t, hs, hv, hl⟩ :=
      commonPrefix_variants "infinity".data s j (by decide) (by omega)
    have ht : t = [] := by
      have : s.length = v.length + t.length := by rw [hs, List.length_append]
      apply List.eq_nil_of_length_eq_zero
      omega
    subst ht
    rw [List.append_nil] at hs
    exact ⟨v, hs, hv⟩
  by_cases h1 : 3 < k ∧ k < 8
  · rw [if_pos h1, if_pos (Or.inl rfl)] at h
    simp only [Option.some.injEq, Prod.mk.injEq] at h
    obtain ⟨v, hs, hv⟩ := key 3 (by omega) (by omega)
    exact ⟨"inf", by simp, by rw [hs]; exact hv⟩
  · rw [if_neg h1] at h
    by_cases h2 : k = 3 ∨ k = 8
    · rw [if_pos h2] at h
      simp only [Option.some.injEq, Prod.mk.injEq] at h
      rcases h2 with h2 | h2
      · obtain ⟨v, hs, hv⟩ := key 3 (by omega) (by omega)
        exact ⟨"inf", by simp, by rw [hs]; exact hv⟩
      · obtain ⟨v, hs, hv⟩ := key 8 (by omega) (by omega)
        exact ⟨"infinity", by simp, by rw [hs]; exact hv⟩
    · rw [if_neg h2] at h
      simp at h

theorem special_sound (s : String) (val : Float64) (n : Nat)
    (h : special s.data = some (val, n)) (hn : n = s.data.length) : IsFloatWord s := by
  unfold special at h
  split at h
  · simp at h
  · rename_i c rest hs
    split_ifs at h with h1 h2 h3 h4
    · left
      refine ⟨[c], rest, by rw [hs]; rfl, ?_, ?_⟩
      · rcases h1 with h1 | h1
        · right; left; rw [h1]
        · right; right; rw [h1]
      · exact special_infinity_sound _ 1 rest val n h (by rw [hn, hs]; simp; omega)
    · left
      refine ⟨[], s.data, rfl, Or.inl rfl, ?_⟩
      exact special_infinity_sound _ 0 s.data val n h (by rw [hn]; simp)
    · right
      obtain ⟨v, t, hv, hm, hl⟩ :=
        commonPrefix_variants "nan".data s.data 3 (by decide) (by omega)
      simp only [Option.some.injEq, Prod.mk.injEq] at h
      have ht : t = [] := by
        have : s.data.length = v.length + t.length := by rw [hv, List.length_append]
        apply List.eq_nil_of_length_eq_zero
        omega
      subst ht
      rw [List.append_nil] at hv
      exact ⟨"nan", by simp, by rw [hv]; exact hm⟩

theorem digits_shape (base : Nat) (hex : Bool) (hb : base = 16 → hex = true) :
    ∀ (l : List Char) (st st1 : ReadState) (rest : List Char),
      readFloat.digits base l st = (st1, rest) →
      ∃ r1 fp, l = r1 ++ (fp ++ rest) ∧ IsRun (LoopDigit hex) r1 ∧
        (fp = [] ∨ (st.sawdot = false ∧ ∃ r2, fp = '.' :: r2 ∧ IsRun (LoopDigit hex) r2)) ∧
        (st1.sawdigits = true → st.sawdigits = true ∨ r1 ≠ [] ∨ 2 ≤ fp.length) ∧
        (st1.underscores = false → st.underscores = false ∧ (∀ c ∈ r1, LoopDigit hex c) ∧
          ∀ r2, fp = '.' :: r2 → ∀ c ∈ r2, LoopDigit hex c) := by
  intro l
  induction l with
  | nil =>
    intro st st1 rest h
    simp only [readFloat.digits, Prod.mk.injEq] at h
    obtain ⟨h1, h2⟩ := h
    subst h1 h2
    exact ⟨[], [], rfl, by simp [IsRun], Or.inl rfl, fun h => Or.inl h,
      fun h => ⟨h, by simp, by simp⟩⟩
  | cons c cs ih =>
    intro st st1 rest h
    simp only [readFloat.digits] at h
    by_cases hu : c = '_'
    · rw [if_pos hu] at h
      obtain ⟨r1, fp, hl, hr1, hfp, hsd, hus⟩ := ih _ _ _ h
      refine ⟨c :: r1, fp, by rw [hl]; rfl, ?_, hfp, fun _ => Or.inr (Or.inl (by simp)), ?_⟩
      · intro d hd
        rcases List.mem_cons.mp hd with hd | hd
        · right; rw [hd, hu]
        · exact hr1 d hd
      · intro h0
        have := (hus h0).1
        simp at this
    · rw [if_neg hu] at h
      by_cases hdot : c = '.'
      · rw [if_pos hdot] at h
        by_cases hsaw : st.sawdot = true
        · rw [if_pos hsaw] at h
          simp only [Prod.mk.injEq] at h
          obtain ⟨h1, h2⟩ := h
          subst h1 h2
          exact ⟨[], [], rfl, by simp [IsRun], Or.inl rfl, fun h => Or.inl h,
            fun h => ⟨h, by simp, by simp⟩⟩
        · rw [if_neg hsaw] at h
          obtain ⟨r1, fp, hl, hr1, hfp, hsd, hus⟩ := ih _ _ _ h
          have hfp0 : fp = [] := by
            rcases hfp with hfp | ⟨hfp, _⟩
            · exact hfp
            · simp at hfp
          subst hfp0
          refine ⟨[], '.' :: r1, by rw [hl, hdot]; simp, by simp [IsRun],
            Or.inr ⟨by simpa using hsaw, r1, rfl, hr1⟩, ?_, ?_⟩
          · intro h1
            rcases hsd h1 with h2 | h2 | h2
            · exact Or.inl h2
            · right; right
              cases r1 with
              | nil => exact absurd rfl h2
              | cons _ _ => simp
            · simp at h2
          · intro h0
            obtain ⟨h1, h2, _⟩ := hus h0
            refine ⟨h1, by simp, ?_⟩
            intro r2 hr2
            simp only [List.cons.injEq, true_and] at hr2
            subst hr2
            exact h2
      · rw [if_neg hdot] at h
        by_cases hdig : 48 ≤ c.toNat ∧ c.toNat ≤ 57
        · rw [if_pos hdig] at h
          have hstep : ∀ st2, readFloat.digits base cs st2 = (st1, rest) →
              st2.sawdot = st.sawdot → st2.underscores = st.underscores →
              ∃ r1 fp, c :: cs = r1 ++ (fp ++ rest) ∧ IsRun (LoopDigit hex) r1 ∧
                (fp = [] ∨ (st.sawdot = false ∧ ∃ r2, fp = '.' :: r2 ∧
                  IsRun (LoopDigit hex) r2)) ∧
                (st1.sawdigits = true → st.sawdigits = true ∨ r1 ≠ [] ∨ 2 ≤ fp.length) ∧
                (st1.underscores = false → st.underscores = false ∧
                  (∀ c ∈ r1, LoopDigit hex c) ∧
                  ∀ r2, fp = '.' :: r2 → ∀ c ∈ r2, LoopDigit hex c) := by
            intro st2 h2 e1 e2
            obtain ⟨r1, fp, hl, hr1, hfp, hsd, hus⟩ := ih _ _ _ h2
            rw [e1] at hfp
            rw [e2] at hus
            refine ⟨c :: r1, fp, by rw [hl]; rfl, ?_, hfp, fun _ => Or.inr (Or.inl (by simp)), ?_⟩
            · intro d hd
              rcases List.mem_cons.mp hd with hd | hd
              · left; rw [hd]; exact Or.inl hdig
              · exact hr1 d hd
            · intro h0
              obtain ⟨h1, h2, h3⟩ := hus h0
              refine ⟨h1, ?_, h3⟩
              intro d hd
              rcases List.mem_cons.mp hd with hd | hd
              · rw [hd]; exact Or.inl hdig
              · exact h2 d hd
          by_cases hz : c = '0' ∧ st.nd = 0
          · rw [if_pos hz] at h
            exact hstep _ h rfl rfl
          · rw [if_neg hz] at h
            exact hstep _ h rfl rfl
        · rw [if_neg hdig] at h
          by_cases hhex : base = 16 ∧ 97 ≤ lower c.toNat ∧ lower c.toNat ≤ 102
          · rw [if_pos hhex] at h
            obtain ⟨r1, fp, hl, hr1, hfp, hsd, hus⟩ := ih _ _ _ h
            have hc : LoopDigit hex c := Or.inr ⟨hb hhex.1, hhex.2⟩
            refine ⟨c :: r1, fp, by rw [hl]; rfl, ?_, hfp, fun _ => Or.inr (Or.inl (by simp)), ?_⟩
            · intro d hd
              rcases List.mem_cons.mp hd with hd | hd
              · left; rw [hd]; exact hc
              · exact hr1 d hd
            · intro h0
              obtain ⟨h1, h2, h3⟩ := hus h0
              refine ⟨h1, ?_, h3⟩
              intro d hd
              rcases List.mem_cons.mp hd with hd | hd
              · rw [hd]; exact hc
              · exact h2 d hd
          · rw [if_neg hhex] at h
            simp only [Prod.mk.injEq] at h
            obtain ⟨h1, h2⟩ := h
            subst h1 h2
            exact ⟨[], [], rfl, by simp [IsRun], Or.inl rfl, fun h => Or.inl h,
              fun h => ⟨h, by simp, by simp⟩⟩

theorem expDigits_shape :
    ∀ (l : List Char) (e : Nat) (u : Bool) (e1 : Nat) (u1 : Bool) (rest : List Char),
      readFloat.expDigits l e u = (e1, u1, rest) →
      ∃ r, l = r ++ rest ∧ IsRun (LoopDigit false) r ∧
        (u1 = false → u = false ∧ ∀ c ∈ r, LoopDigit false c) := by
  intro l
  induction l with
  | nil =>
    intro e u e1 u1 rest h
    simp only [readFloat.expDigits, Prod.mk.injEq] at h
    obtain ⟨_, h2, h3⟩ := h
    subst h2 h3
    exact ⟨[], rfl, by simp [IsRun], fun h => ⟨h, by simp⟩⟩
  | cons c cs ih =>
    intro e u e1 u1 rest h
    simp only [readFloat.expDigits] at h
    by_cases hdig : 48 ≤ c.toNat ∧ c.toNat ≤ 57
    · rw [if_pos hdig] at h
      obtain ⟨r, hl, hr, hus⟩ := ih _ _ _ _ _ h
      refine ⟨c :: r, by rw [hl]; rfl, ?_, ?_⟩
      · intro d hd
        rcases List.mem_cons.mp hd with hd | hd
        · left; rw [hd]; exact Or.inl hdig
        · exact hr d hd
      · intro h0
        obtain ⟨h1, h2⟩ := hus h0
        refine ⟨h1, ?_⟩
        intro d hd
        rcases List.mem_cons.mp hd with hd | hd
        · rw [hd]; exact Or.inl hdig
        · exact h2 d hd
    · rw [if_neg hdig] at h
      by_cases hu : c = '_'
      · rw [if_pos hu] at h
        obtain ⟨r, hl, hr, hus⟩ := ih _ _ _ _ _ h
        refine ⟨c :: r, by rw [hl]; rfl, ?_, ?_⟩
        · intro d hd
          rcases List.mem_cons.mp hd with hd | hd
          · right; rw [hd, hu]
          · exact hr d hd
        · intro h0
          have := (hus h0).1
          simp at this
      · rw [if_neg hu] at h
        simp only [Prod.mk.injEq] at h
        obtain ⟨_, h2, h3⟩ := h
        subst h2 h3
        exact ⟨[], rfl, by simp [IsRun], fun h => ⟨h, by simp⟩⟩

theorem done_some (s : List Char) (neg hex : Bool) (st : ReadState) (dp : Int) (u : Bool)
    (rest : List Char) (p : FloatParts)
    (h : readFloat.done s neg hex st dp u rest = some p) :
    p.rest = rest ∧ (u = true → underscoreOK (s.take (s.length - rest.length)) = true) := by
  unfold readFloat.done at h
  by_cases hc : u = true ∧ underscoreOK (s.take (s.length - rest.length)) = false
  · rw [if_pos hc] at h
    simp at h
  · rw [if_neg hc] at h
    simp only [Option.some.injEq] at h
    subst h
    refine ⟨rfl, ?_⟩
    intro hu
    by_contra hn
    exact hc ⟨hu, by simpa using hn⟩

theorem exponent_shape (s : List Char) (neg hex : Bool) (st : ReadState) (dp : Int)
    (s4 : List Char) (p : FloatParts)
    (h : readFloat.exponent s neg hex st dp s4 = some p) (hr : p.rest = []) :
    ∃ sign r3, s4 = sign ++ r3 ∧ IsSign sign ∧ r3 ≠ [] ∧
      ((st.underscores = false ∧ ∀ c ∈ r3, LoopDigit false c) ∨
        (underscoreOK s = true ∧ IsRun (LoopDigit false) r3)) := by
  unfold readFloat.exponent at h
  cases s4 with
  | nil => simp at h
  | cons c r =>
    simp only [] at h
    have key : ∀ s5 : List Char, ∀ esign : Int,
        (match s5 with
          | [] => none
          | d :: _ =>
            if d.toNat < 48 ∨ 57 < d.toNat then none
            else
              match readFloat.expDigits s5 0 st.underscores with
              | (e, u, s6) => readFloat.done s neg hex st (dp + (e : Int) * esign) u s6)
          = some p →
        s5 ≠ [] ∧ ((st.underscores = false ∧ ∀ c ∈ s5, LoopDigit false c) ∨
          (underscoreOK s = true ∧ IsRun (LoopDigit false) s5)) := by
      intro s5 esign h5
      cases s5 with
      | nil => simp at h5
      | cons d t =>
        simp only [] at h5
        by_cases hd : d.toNat < 48 ∨ 57 < d.toNat
        · rw [if_pos hd] at h5
          simp at h5
        · rw [if_neg hd] at h5
          rcases he : readFloat.expDigits (d :: t) 0 st.underscores with ⟨e, u, s6⟩
          rw [he] at h5
          simp only [] at h5
          obtain ⟨h6, h7⟩ := done_some _ _ _ _ _ _ _ _ h5
          rw [hr] at h6
          subst h6
          obtain ⟨r, hl, hrun, hus⟩ := expDigits_shape _ _ _ _ _ _ he
          rw [List.append_nil] at hl
          subst hl
          refine ⟨by simp, ?_⟩
          cases u with
          | false => exact Or.inl (hus rfl)
          | true =>
            right
            have := h7 rfl
            simp only [List.length_nil, Nat.sub_zero, List.take_length] at this
            exact ⟨this, hrun⟩
    by_cases hsign : c = '+' ∨ c = '-'
    · rw [if_pos hsign] at h
      obtain ⟨h1, h2⟩ := key r _ h
      refine ⟨[c], r, rfl, ?_, h1, h2⟩
      rcases hsign with hs | hs
      · right; left; rw [hs]
      · right; right; rw [hs]
    · rw [if_neg hsign] at h
      obtain ⟨h1, h2⟩ := key (c :: r) _ h
      exact ⟨[], c :: r, rfl, Or.inl rfl, h1, h2⟩

theorem mantissa_shape (s : List Char) (neg hex : Bool) (s2 : List Char) (p : FloatParts)
    (h : readFloat.mantissa s neg hex s2 = some p) (hr : p.rest = []) :
    ∃ ip fp ex, s2 = ip ++ (fp ++ ex) ∧
      (ReadShape (fun r => ∀ c ∈ r, LoopDigit hex c) (fun r => ∀ c ∈ r, LoopDigit hex c)
          (fun r => ∀ c ∈ r, LoopDigit false c) hex ip fp ex ∨
        (underscoreOK s = true ∧
          ReadShape (IsRun (LoopDigit hex)) (IsRun (LoopDigit hex)) (IsRun (LoopDigit false))
            hex ip fp ex)) := by
  unfold readFloat.mantissa at h
  rcases hd : readFloat.digits (if hex = true then 16 else 10) s2 ⟨0, 0, 0, false, false, false⟩
    with ⟨st, s3⟩
  rw [hd] at h
  simp only [] at h
  have hb : (if hex = true then 16 else 10) = 16 → hex = true := by
    cases hex <;> simp
  obtain ⟨r1, fp, hl, hr1, hfp, hsd, hus⟩ := digits_shape _ hex hb _ _ _ _ hd
  by_cases hsaw : st.sawdigits = false
  · rw [if_pos hsaw] at h
    simp at h
  rw [if_neg hsaw] at h
  have hne : r1 ≠ [] ∨ 2 ≤ fp.length := by
    rcases hsd (by simpa using hsaw) with h1 | h1
    · simp at h1
    · exact h1
  have hfp1 : fp = [] ∨ ∃ r2, fp = '.' :: r2 ∧ IsRun (LoopDigit hex) r2 := by
    rcases hfp with h1 | ⟨_, h1⟩
    · exact Or.inl h1
    · exact Or.inr h1
  have hpure : st.underscores = false → (∀ c ∈ r1, LoopDigit hex c) ∧
      (fp = [] ∨ ∃ r2, fp = '.' :: r2 ∧ ∀ c ∈ r2, LoopDigit hex c) := by
    intro h0
    obtain ⟨_, h1, h2⟩ := hus h0
    refine ⟨h1, ?_⟩
    rcases hfp1 with h3 | ⟨r2, h3, _⟩
    · exact Or.inl h3
    · exact Or.inr ⟨r2, h3, h2 r2 h3⟩
  cases s3 with
  | nil =>
    simp only [] at h
    cases hex with
    | true => simp at h
    | false =>
      simp only [Bool.false_eq_true, if_false] at h
      obtain ⟨_, h7⟩ := done_some _ _ _ _ _ _ _ _ h
      refine ⟨r1, fp, [], hl, ?_⟩
      cases hu : st.underscores with
      | false =>
        left
        obtain ⟨h1, h2⟩ := hpure hu
        exact ⟨h1, h2, hne, Or.inl ⟨rfl, rfl⟩⟩
      | true =>
        right
        have := h7 hu
        simp only [List.length_nil, Nat.sub_zero, List.take_length] at this
        exact ⟨this, hr1, hfp1, hne, Or.inl ⟨rfl, rfl⟩⟩
  | cons c s4 =>
    simp only [] at h
    by_cases he : lower c.toNat = (if hex = true then 112 else 101)
    · rw [if_pos he] at h
      obtain ⟨sign, r3, h4, hsign, hne3, h3⟩ := exponent_shape _ _ _ _ _ _ _ h hr
      refine ⟨r1, fp, c :: (sign ++ r3), by rw [hl, h4], ?_⟩
      rcases h3 with ⟨hu, h3⟩ | ⟨hok, h3⟩
      · left
        obtain ⟨h1, h2⟩ := hpure hu
        exact ⟨h1, h2, hne, Or.inr ⟨c, sign, r3, rfl, he, hsign, hne3, h3⟩⟩
      · right
        exact ⟨hok, hr1, hfp1, hne, Or.inr ⟨c, sign, r3, rfl, he, hsign, hne3, h3⟩⟩
    · rw [if_neg he] at h
      cases hex with
      | true => simp at h
      | false =>
        simp only [Bool.false_eq_true, if_false] at h
        obtain ⟨h6, _⟩ := done_some _ _ _ _ _ _ _ _ h
        rw [hr] at h6
        simp at h6

theorem Digits.mono {d1 d2 : Char → Prop} (h : ∀ c, d1 c → d2 c) :
    ∀ l, Digits d1 l → Digits d2 l := by
  intro l hl
  induction hl with
  | one c hc => exact Digits.one c (h c hc)
  | cons c l hc _ ih => exact Digits.cons c l (h c hc) ih
  | sep c l hc _ ih => exact Digits.sep c l (h c hc) ih

theorem Digits.ne_nil {d : Char → Prop} (l : List Char) (h : Digits d l) : l ≠ [] := by
  cases h <;> simp

theorem Digits.head {d : Char → Prop} (l : List Char) (h : Digits d l) :
    ∃ c t, l = c :: t ∧ d c := by
  cases h with
  | one c hc => exact ⟨c, [], rfl, hc⟩
  | cons c l hc _ => exact ⟨c, l, rfl, hc⟩
  | sep c l hc _ => exact ⟨c, _, rfl, hc⟩

theorem optDigits_of_pure (d : Char → Prop) :
    ∀ l : List Char, (∀ c ∈ l, d c) → OptDigits d l := by
  intro l
  induction l with
  | nil => intro _; exact Or.inl rfl
  | cons c cs ih =>
    intro h
    right
    rcases ih (fun x hx => h x (List.mem_cons_of_mem _ hx)) with h1 | h1
    · rw [h1]; exact Digits.one c (h c (List.mem_cons_self _ _))
    · exact Digits.cons c cs (h c (List.mem_cons_self _ _)) h1

theorem underscore_not_loopDigit (hex : Bool) : ¬ LoopDigit hex '_' := by
  unfold LoopDigit
  have : lower '_'.toNat = 127 := by decide
  rw [this]
  have : '_'.toNat = 95 := by decide
  rw [this]
  omega

theorem loop_digit (hex : Bool) (c : Char) (cs : List Char) (saw : Saw)
    (hc : LoopDigit hex c) :
    underscoreOK.loop hex (c :: cs) saw = underscoreOK.loop hex cs .digit := by
  unfold LoopDigit at hc
  rw [underscoreOK.loop, if_pos hc]

theorem loop_underscore (hex : Bool) (cs : List Char) (saw : Saw)
    (h : underscoreOK.loop hex ('_' :: cs) saw = true) :
    saw = .digit ∧ underscoreOK.loop hex cs .underscore = true := by
  have hn := underscore_not_loopDigit hex
  unfold LoopDigit at hn
  rw [underscoreOK.loop, if_neg hn, if_pos rfl] at h
  by_cases hs : saw = .digit
  · rw [if_neg (not_not.mpr hs)] at h
    exact ⟨hs, h⟩
  · rw [if_pos hs] at h
    simp at h

theorem loop_other (hex : Bool) (c : Char) (cs : List Char) (saw : Saw)
    (hc : ¬ LoopDigit hex c) (hu : c ≠ '_')
    (h : underscoreOK.loop hex (c :: cs) saw = true) :
    saw ≠ .underscore ∧ underscoreOK.loop hex cs .other = true := by
  unfold LoopDigit at hc
  rw [underscoreOK.loop, if_neg hc, if_neg hu] at h
  by_cases hs : saw = .underscore
  · rw [if_pos hs] at h
    simp at h
  · rw [if_neg hs] at h
    exact ⟨hs, h⟩

/-- What follows a run of digits and underscores: the end of the string, or a
character that is neither. -/
theorem underscoreOK_run (hex : Bool) (dig : Char → Prop)
    (hdig : ∀ c, dig c → LoopDigit hex c) :
    ∀ (r t : List Char) (saw : Saw), IsRun dig r →
      (t = [] ∨ ∃ c t1, t = c :: t1 ∧ c ≠ '_' ∧ ¬ LoopDigit hex c) →
      underscoreOK.loop hex (r ++ t) saw = true →
      (r = [] ∨ Digits dig r ∨ (saw = .digit ∧ ∃ ds, r = '_' :: ds ∧ Digits dig ds)) ∧
        underscoreOK.loop hex t (if r = [] then saw else .digit) = true := by
  intro r
  induction r with
  | nil =>
    intro t saw _ _ h
    exact ⟨Or.inl rfl, by simpa using h⟩
  | cons c cs ih =>
    intro t saw hr ht h
    have hcs : IsRun dig cs := fun x hx => hr x (List.mem_cons_of_mem _ hx)
    rw [if_neg (by simp)]
    rcases hr c (List.mem_cons_self _ _) with hc | hc
    · rw [List.cons_append, loop_digit hex c _ saw (hdig c hc)] at h
      obtain ⟨h1, h2⟩ := ih t .digit hcs ht h
      have h3 : underscoreOK.loop hex t .digit = true := by
        by_cases hnil : cs = []
        · rw [if_pos hnil] at h2; exact h2
        · rw [if_neg hnil] at h2; exact h2
      refine ⟨Or.inr (Or.inl ?_), h3⟩
      rcases h1 with h1 | h1 | ⟨_, ds, h1, h4⟩
      · rw [h1]; exact Digits.one c hc
      · exact Digits.cons c cs hc h1
      · rw [h1]; exact Digits.sep c ds hc h4
    · subst hc
      rw [List.cons_append] at h
      obtain ⟨hs, h0⟩ := loop_underscore hex _ saw h
      obtain ⟨h1, h2⟩ := ih t .underscore hcs ht h0
      rcases h1 with h1 | h1 | ⟨h1, _⟩
      · subst h1
        rw [if_pos rfl] at h2
        rcases ht with ht | ⟨d, t1, ht, hd1, hd2⟩
        · subst ht
          simp [underscoreOK.loop] at h2
        · subst ht
          have := (loop_other hex d t1 _ hd2 hd1 h2).1
          exact absurd rfl this
      · rw [if_neg (Digits.ne_nil cs h1)] at h2
        exact ⟨Or.inr (Or.inr ⟨hs, cs, rfl, h1⟩), h2⟩
      · simp at h1

theorem expLetter_not_loopDigit (hex : Bool) (e : Char)
    (h : lower e.toNat = (if hex = true then 112 else 101)) :
    e ≠ '_' ∧ ¬ LoopDigit hex e := by
  obtain ⟨l1, l2, _, _⟩ := lower_letter e.toNat
  constructor
  · intro he
    subst he
    have : lower '_'.toNat = 127 := by decide
    rw [this] at h
    cases hex <;> simp at h
  · intro hd
    cases hex with
    | true =>
      simp only [if_true] at h
      rcases hd with hd | ⟨_, hd⟩
      · have := l2 h
        omega
      · omega
    | false =>
      simp only [Bool.false_eq_true, if_false] at h
      rcases hd with hd | ⟨hd, _⟩
      · have := l1 h
        omega
      · simp at hd

theorem sign_not_loopDigit (hex : Bool) (c : Char) (h : c = '+' ∨ c = '-' ∨ c = '.') :
    c ≠ '_' ∧ ¬ LoopDigit hex c := by
  have h1 : lower '+'.toNat = 43 := by decide
  have h2 : lower '-'.toNat = 45 := by decide
  have h3 : lower '.'.toNat = 46 := by decide
  have e1 : '+'.toNat = 43 := by decide
  have e2 : '-'.toNat = 45 := by decide
  have e3 : '.'.toNat = 46 := by decide
  unfold LoopDigit
  rcases h with h | h | h <;> subst h
  · exact ⟨by decide, by rw [h1, e1]; omega⟩
  · exact ⟨by decide, by rw [h2, e2]; omega⟩
  · exact ⟨by decide, by rw [h3, e3]; omega⟩

theorem shape_pure (hex : Bool) (ip fp ex : List Char)
    (h : ReadShape (fun r => ∀ c ∈ r, LoopDigit hex c) (fun r => ∀ c ∈ r, LoopDigit hex c)
      (fun r => ∀ c ∈ r, LoopDigit false c) hex ip fp ex) :
    ReadShape (OptDigits (LoopDigit hex)) (OptDigits (LoopDigit hex))
      (Digits (LoopDigit false)) hex ip fp ex := by
  obtain ⟨h1, h2, h3, h4⟩ := h
  refine ⟨optDigits_of_pure _ ip h1, ?_, h3, ?_⟩
  · rcases h2 with h2 | ⟨r2, h2, h5⟩
    · exact Or.inl h2
    · exact Or.inr ⟨r2, h2, optDigits_of_pure _ r2 h5⟩
  · rcases h4 with h4 | ⟨e, sign, r3, h4, h5, h6, h7, h8⟩
    · exact Or.inl h4
    · refine Or.inr ⟨e, sign, r3, h4, h5, h6, h7, ?_⟩
      rcases optDigits_of_pure _ r3 h8 with h9 | h9
      · exact absurd h9 h7
      · exact h9

theorem shape_underscore (hex : Bool) (saw0 : Saw) (ip fp ex : List Char)
    (h : ReadShape (IsRun (LoopDigit hex)) (IsRun (LoopDigit hex)) (IsRun (LoopDigit false))
      hex ip fp ex)
    (hl : underscoreOK.loop hex (ip ++ (fp ++ ex)) saw0 = true) :
    ReadShape
      (fun r => OptDigits (LoopDigit hex) r ∨
        (saw0 = .digit ∧ ∃ ds, r = '_' :: ds ∧ Digits (LoopDigit hex) ds))
      (OptDigits (LoopDigit hex)) (Digits (LoopDigit false)) hex ip fp ex := by
  obtain ⟨h1, h2, h3, h4⟩ := h
  -- what follows a run of the mantissa is the end, the point or the exponent letter
  have tex : ex = [] ∨ ∃ c t1, ex = c :: t1 ∧ c ≠ '_' ∧ ¬ LoopDigit hex c := by
    rcases h4 with h4 | ⟨e, sign, r3, h4, h5, _⟩
    · exact Or.inl h4.1
    · exact Or.inr ⟨e, _, h4, expLetter_not_loopDigit hex e h5⟩
  have tfp : fp ++ ex = [] ∨ ∃ c t1, fp ++ ex = c :: t1 ∧ c ≠ '_' ∧ ¬ LoopDigit hex c := by
    rcases h2 with h2 | ⟨r2, h2, _⟩
    · rw [h2]; exact tex
    · rw [h2]
      exact Or.inr ⟨'.', _, rfl, sign_not_loopDigit hex '.' (by simp)⟩
  obtain ⟨a1, l1⟩ := underscoreOK_run hex _ (fun _ hc => hc) ip (fp ++ ex) saw0 h1 tfp hl
  have a1' : OptDigits (LoopDigit hex) ip ∨
      (saw0 = .digit ∧ ∃ ds, ip = '_' :: ds ∧ Digits (LoopDigit hex) ds) := by
    rcases a1 with a1 | a1 | a1
    · exact Or.inl (Or.inl a1)
    · exact Or.inl (Or.inr a1)
    · exact Or.inr a1
  -- the fraction
  have a2 : (fp = [] ∨ ∃ r2, fp = '.' :: r2 ∧ OptDigits (LoopDigit hex) r2) ∧
      ∃ saw2, underscoreOK.loop hex ex saw2 = true := by
    rcases h2 with h2 | ⟨r2, h2, h5⟩
    · subst h2
      exact ⟨Or.inl rfl, _, l1⟩
    · subst h2
      rw [List.cons_append] at l1
      obtain ⟨_, l2⟩ := loop_other hex '.' _ _ (sign_not_loopDigit hex '.' (by simp)).2
        (sign_not_loopDigit hex '.' (by simp)).1 l1
      obtain ⟨b1, l3⟩ := underscoreOK_run hex _ (fun _ hc => hc) r2 ex .other h5 tex l2
      refine ⟨Or.inr ⟨r2, rfl, ?_⟩, _, l3⟩
      rcases b1 with b1 | b1 | ⟨b1, _⟩
      · exact Or.inl b1
      · exact Or.inr b1
      · simp at b1
  obtain ⟨a2, saw2, l3⟩ := a2
  refine ⟨a1', a2, h3, ?_⟩
  rcases h4 with h4 | ⟨e, sign, r3, h4, h5, h6, h7, h8⟩
  · exact Or.inl h4
  · refine Or.inr ⟨e, sign, r3, h4, h5, h6, h7, ?_⟩
    subst h4
    obtain ⟨he1, he2⟩ := expLetter_not_loopDigit hex e h5
    obtain ⟨_, l4⟩ := loop_other hex e _ _ he2 he1 l3
    have l5 : underscoreOK.loop hex (r3 ++ []) .other = true := by
      rw [List.append_nil]
      rcases h6 with h6 | h6 | h6
      · subst h6; exact l4
      · subst h6
        exact (loop_other hex '+' _ _ (sign_not_loopDigit hex '+' (by simp)).2
          (sign_not_loopDigit hex '+' (by simp)).1 l4).2
      · subst h6
        exact (loop_other hex '-' _ _ (sign_not_loopDigit hex '-' (by simp)).2
          (sign_not_loopDigit hex '-' (by simp)).1 l4).2
    have hmono : ∀ c, LoopDigit false c → LoopDigit hex c := by
      intro c hc
      rcases hc with hc | ⟨hc, _⟩
      · exact Or.inl hc
      · simp at hc
    obtain ⟨c1, _⟩ := underscoreOK_run hex (LoopDigit false) hmono r3 [] .other h8
      (Or.inl rfl) l5
    rcases c1 with c1 | c1 | ⟨c1, _⟩
    · exact absurd c1 h7
    · exact c1
    · simp at c1

theorem loopDigit_false_iff (c : Char) : LoopDigit false c ↔ IsDecDigit c := by
  unfold LoopDigit IsDecDigit
  simp

theorem isHexDigit_of_loopDigit (c : Char) (h : LoopDigit true c) : IsHexDigit c := by
  rcases h with h | ⟨_, h⟩
  · exact Or.inl h
  · exact Or.inr (lower_hexletter c.toNat h)

theorem isExponent_of_shape (small capital : Char) (k : Nat)
    (hk : k = 101 ∨ k = 112) (hs : small.toNat = k) (hc : capital.toNat + 32 = k)
    (e : Char) (sign r3 : List Char) (h5 : lower e.toNat = k) (h6 : IsSign sign)
    (h8 : Digits (LoopDigit false) r3) :
    IsExponent small capital (e :: (sign ++ r3)) := by
  refine ⟨e, sign, r3, rfl, ?_, h6, Digits.mono (fun c hc => (loopDigit_false_iff c).mp hc) _ h8⟩
  obtain ⟨l1, l2, _, _⟩ := lower_letter e.toNat
  rw [char_eq_iff, char_eq_iff]
  rcases hk with hk | hk <;> subst hk
  · rcases l1 h5 with h | h <;> omega
  · rcases l2 h5 with h | h <;> omega

theorem number_decimal (s1 ip fp ex : List Char) (hs : s1 = ip ++ (fp ++ ex))
    (h : ReadShape (IsRun (LoopDigit false)) (IsRun (LoopDigit false))
      (IsRun (LoopDigit false)) false ip fp ex) :
    underscoreOK.number s1 = underscoreOK.loop false s1 .start := by
  have halpha : ∀ c ∈ s1,
      ¬ (lower c.toNat = 98 ∨ lower c.toNat = 111 ∨ lower c.toNat = 120) := by
    have hrun : ∀ r, IsRun (LoopDigit false) r → ∀ c ∈ r,
        ¬ (lower c.toNat = 98 ∨ lower c.toNat = 111 ∨ lower c.toNat = 120) := by
      intro r hr c hc hl
      rcases hr c hc with h1 | h1
      · have := (lower_letter c.toNat).2.2.2 hl
        rcases h1 with h1 | ⟨h1, _⟩
        · omega
        · simp at h1
      · subst h1
        have : lower '_'.toNat = 127 := by decide
        rw [this] at hl
        omega
    have hsgn : ∀ c, c = '+' ∨ c = '-' ∨ c = '.' →
        ¬ (lower c.toNat = 98 ∨ lower c.toNat = 111 ∨ lower c.toNat = 120) := by
      intro c hc hl
      have := (lower_letter c.toNat).2.2.2 hl
      have e1 : '+'.toNat = 43 := by decide
      have e2 : '-'.toNat = 45 := by decide
      have e3 : '.'.toNat = 46 := by decide
      rcases hc with hc | hc | hc <;> subst hc <;> omega
    obtain ⟨h1, h2, _, h4⟩ := h
    intro c hc
    rw [hs, List.mem_append, List.mem_append] at hc
    rcases hc with hc | hc | hc
    · exact hrun ip h1 c hc
    · rcases h2 with h2 | ⟨r2, h2, h5⟩
      · rw [h2] at hc; simp at hc
      · rw [h2] at hc
        rcases List.mem_cons.mp hc with hc | hc
        · exact hsgn c (by rw [hc]; simp)
        · exact hrun r2 h5 c hc
    · rcases h4 with h4 | ⟨e, sign, r3, h4, h5, h6, _, h8⟩
      · rw [h4.1] at hc; simp at hc
      · rw [h4] at hc
        rcases List.mem_cons.mp hc with hc | hc
        · subst hc
          simp only [Bool.false_eq_true, if_false] at h5
          rw [h5]
          omega
        · rcases List.mem_append.mp hc with hc | hc
          · rcases h6 with h6 | h6 | h6
            · rw [h6] at hc; simp at hc
            · rw [h6] at hc
              exact hsgn c (Or.inl (by simpa using hc))
            · rw [h6] at hc
              exact hsgn c (by right; left; simpa using hc)
          · exact hrun r3 h8 c hc
  unfold underscoreOK.number
  split
  · rename_i c0 c1 rest
    rw [if_neg]
    intro hc
    exact halpha c1 (by simp) hc.2
  · rfl

theorem isHex_spec (s1 : List Char) (h : readFloat.isHex s1 = true) :
    ∃ x rest, s1 = '0' :: x :: rest ∧ lower x.toNat = 120 := by
  unfold readFloat.isHex at h
  split at h
  · rename_i a b c t
    simp only [decide_eq_true_eq] at h
    exact ⟨b, c :: t, by rw [h.1], h.2⟩
  · simp at h

theorem readFloat_sound (s : List Char) (p : FloatParts) (h : readFloat s = some p)
    (hr : p.rest = []) : IsDecimalFloat s ∨ IsHexFloat s := by
  unfold readFloat at h
  cases s with
  | nil => simp at h
  | cons c0 r0 =>
    simp only [] at h
    have hsign : ∃ sign s1, IsSign sign ∧ c0 :: r0 = sign ++ s1 ∧
        underscoreOK (c0 :: r0) = underscoreOK.number s1 ∧
        (if c0 = '+' ∨ c0 = '-' then r0 else c0 :: r0) = s1 := by
      by_cases hc : c0 = '+' ∨ c0 = '-'
      · refine ⟨[c0], r0, ?_, rfl, ?_, if_pos hc⟩
        · rcases hc with hc | hc
          · right; left; rw [hc]
          · right; right; rw [hc]
        · rw [underscoreOK, if_pos (Or.symm hc)]
      · refine ⟨[], c0 :: r0, Or.inl rfl, rfl, ?_, if_neg hc⟩
        rw [underscoreOK, if_neg (fun h2 => hc (Or.symm h2))]
    obtain ⟨sign, s1, hsg, hs, hu, hs1⟩ := hsign
    rw [hs1] at h
    cases hh : readFloat.isHex s1 with
    | false =>
      rw [hh] at h
      simp only [Bool.false_eq_true, if_false] at h
      obtain ⟨ip, fp, ex, h2, hshape⟩ := mantissa_shape _ _ _ _ _ h hr
      have hfinal : ReadShape (OptDigits (LoopDigit false)) (OptDigits (LoopDigit false))
          (Digits (LoopDigit false)) false ip fp ex := by
        rcases hshape with hshape | ⟨hok, hshape⟩
        · exact shape_pure _ _ _ _ hshape
        · rw [hu, number_decimal s1 ip fp ex h2 hshape, h2] at hok
          obtain ⟨g1, g2, g3, g4⟩ := shape_underscore false .start ip fp ex hshape hok
          refine ⟨?_, g2, g3, g4⟩
          rcases g1 with g1 | ⟨g1, _⟩
          · exact g1
          · simp at g1
      obtain ⟨g1, g2, g3, g4⟩ := hfinal
      have mono : ∀ l, Digits (LoopDigit false) l → Digits IsDecDigit l :=
        Digits.mono (fun c hc => (loopDigit_false_iff c).mp hc)
      left
      refine ⟨sign, ip, fp, ex, by rw [hs, h2], hsg, ?_, ?_, g3, ?_⟩
      · rcases g1 with g1 | g1
        · exact Or.inl g1
        · exact Or.inr (mono _ g1)
      · rcases g2 with g2 | ⟨r2, g2, g5⟩
        · exact Or.inl g2
        · refine Or.inr ⟨r2, g2, ?_⟩
          rcases g5 with g5 | g5
          · exact Or.inl g5
          · exact Or.inr (mono _ g5)
      · rcases g4 with g4 | ⟨e, sg, r3, g4, g5, g6, _, g8⟩
        · exact Or.inl g4.1
        · right
          rw [g4]
          exact isExponent_of_shape 'e' 'E' 101 (Or.inl rfl) (by decide) (by decide)
            e sg r3 (by simpa using g5) g6 g8
    | true =>
      rw [hh] at h
      simp only [if_true] at h
      obtain ⟨x, rest, hx, hlx⟩ := isHex_spec s1 hh
      subst hx
      simp only [List.drop_succ_cons, List.drop_zero] at h
      obtain ⟨ip, fp, ex, h2, hshape⟩ := mantissa_shape _ _ _ _ _ h hr
      have hfinal : ReadShape
          (fun r => OptDigits (LoopDigit true) r ∨
            ((Saw.digit = Saw.digit) ∧ ∃ ds, r = '_' :: ds ∧ Digits (LoopDigit true) ds))
          (OptDigits (LoopDigit true)) (Digits (LoopDigit false)) true ip fp ex := by
        rcases hshape with hshape | ⟨hok, hshape⟩
        · obtain ⟨g1, g2, g3, g4⟩ := shape_pure _ _ _ _ hshape
          exact ⟨Or.inl g1, g2, g3, g4⟩
        · rw [hu] at hok
          have hnum : underscoreOK.number ('0' :: x :: rest)
              = underscoreOK.loop true rest .digit := by
            rw [underscoreOK.number, if_pos ⟨rfl, Or.inr (Or.inr hlx)⟩]
            simp [hlx]
          rw [hnum, h2] at hok
          exact shape_underscore true .digit ip fp ex hshape hok
      obtain ⟨g1, g2, g3, g4⟩ := hfinal
      have mono : ∀ l, Digits (LoopDigit true) l → Digits IsHexDigit l :=
        Digits.mono isHexDigit_of_loopDigit
      right
      refine ⟨sign, x, ip, fp, ex, by rw [hs, h2], hsg, ?_, ?_, ?_, g3, ?_⟩
      · rw [char_eq_iff, char_eq_iff]
        have e1 : 'x'.toNat = 120 := by decide
        have e2 : 'X'.toNat = 88 := by decide
        rw [e1, e2]
        exact (lower_letter x.toNat).2.2.1 hlx
      · rcases g1 with g1 | ⟨_, ds, g1, g5⟩
        · left
          rcases g1 with g1 | g1
          · exact Or.inl g1
          · exact Or.inr (mono _ g1)
        · exact Or.inr ⟨ds, g1, mono _ g5⟩
      · rcases g2 with g2 | ⟨r2, g2, g5⟩
        · exact Or.inl g2
        · refine Or.inr ⟨r2, g2, ?_⟩
          rcases g5 with g5 | g5
          · exact Or.inl g5
          · exact Or.inr (mono _ g5)
      · rcases g4 with g4 | ⟨e, sg, r3, g4, g5, g6, _, g8⟩
        · simp at g4
        · rw [g4]
          exact isExponent_of_shape 'p' 'P' 112 (Or.inr rfl) (by decide) (by decide)
            e sg r3 (by simpa using g5) g6 g8

theorem ParseFloat_sound (s : String) (h : (ParseFloat s).2 = none) :
    IsFloatLiteral s ∨ IsFloatWord s := by
  unfold ParseFloat at h
  split at h
  · rename_i val n hsp
    by_cases hn : n ≠ s.data.length
    · rw [if_pos hn] at h
      simp at h
    · exact Or.inr (special_sound s val n hsp (not_not.mp hn))
  · split at h
    · simp at h
    · rename_i p hp
      by_cases hr : p.rest ≠ []
      · rw [if_pos hr] at h
        simp at h
      · exact Or.inl (readFloat_sound s.data p hp (not_not.mp hr))

theorem ParseFloat_some (s : String) (e : ErrorValue) (h : (ParseFloat s).2 = some e) :
    ∃ k : NumErrKind, e = .numError ⟨"ParseFloat", s, k⟩ := by
  unfold ParseFloat at h
  split at h
  · rename_i val n _
    by_cases hn : n ≠ s.data.length
    · rw [if_pos hn] at h
      exact ⟨.ErrSyntax, (Option.some.inj h).symm⟩
    · rw [if_neg hn] at h
      simp at h
  · split at h
    · exact ⟨.ErrSyntax, (Option.some.inj h).symm⟩
    · rename_i p _
      by_cases hr : p.rest ≠ []
      · rw [if_pos hr] at h
        exact ⟨.ErrSyntax, (Option.some.inj h).symm⟩
      · rw [if_neg hr] at h
        by_cases ho : p.toFloat64.2 = true
        · rw [if_pos ho] at h
          exact ⟨.ErrRange, (Option.some.inj h).symm⟩
        · rw [if_neg ho] at h
          simp at h

theorem caseVariants_head (p : Char) (w v : List Char) (h : v ∈ caseVariants (p :: w)) :
    ∃ c t, v = c :: t ∧ (c = p ∨ c = p.toUpper) := by
  simp only [caseVariants, List.mem_flatMap, List.mem_cons, List.mem_singleton,
    List.not_mem_nil, or_false] at h
  obtain ⟨u, _, h | h⟩ := h
  · exact ⟨p, u, h, Or.inl rfl⟩
  · exact ⟨p.toUpper, u, h, Or.inr rfl⟩

theorem floatText_head (s : String) (h : IsFloatLiteral s ∨ IsFloatWord s) :
    ∃ c t, s.data = c :: t ∧
      (c = '+' ∨ c = '-' ∨ c = '.' ∨ IsDecDigit c ∨ c = 'i' ∨ c = 'I' ∨ c = 'n' ∨ c = 'N') := by
  have hsgn : ∀ sign body : List Char, IsSign sign → sign ≠ [] →
      ∃ c t, sign ++ body = c :: t ∧
        (c = '+' ∨ c = '-' ∨ c = '.' ∨ IsDecDigit c ∨ c = 'i' ∨ c = 'I' ∨ c = 'n' ∨ c = 'N') := by
    intro sign body h1 h2
    rcases h1 with h1 | h1 | h1
    · exact absurd h1 h2
    · exact ⟨'+', body, by rw [h1]; rfl, Or.inl rfl⟩
    · exact ⟨'-', body, by rw [h1]; rfl, Or.inr (Or.inl rfl)⟩
  rcases h with (h | h) | h | h
  · obtain ⟨sign, ip, fp, ex, hs, h1, h2, h3, h4, _⟩ := h
    rw [hs]
    by_cases hsg : sign = []
    · subst hsg
      rcases h2 with h2 | h2
      · subst h2
        rcases h3 with h3 | ⟨fd, h3, _⟩
        · subst h3
          simp at h4
        · subst h3
          exact ⟨'.', _, rfl, by simp⟩
      · obtain ⟨c, t, h5, h6⟩ := Digits.head ip h2
        subst h5
        exact ⟨c, _, rfl, by simp [h6]⟩
    · exact hsgn sign _ h1 hsg
  · obtain ⟨sign, x, ip, fp, ex, hs, h1, _⟩ := h
    rw [hs]
    by_cases hsg : sign = []
    · subst hsg
      exact ⟨'0', _, rfl, Or.inr (Or.inr (Or.inr (Or.inl (by decide))))⟩
    · exact hsgn sign _ h1 hsg
  · obtain ⟨sign, word, hs, h1, v, hv, hm⟩ := h
    rw [hs]
    by_cases hsg : sign = []
    · subst hsg
      have hw : ∃ c t, word = c :: t ∧ (c = 'i' ∨ c = 'i'.toUpper) := by
        simp only [List.mem_cons, List.mem_singleton, List.not_mem_nil, or_false] at hv
        rcases hv with hv | hv <;> subst hv
        · exact caseVariants_head 'i' "nf".data word hm
        · exact caseVariants_head 'i' "nfinity".data word hm
      obtain ⟨c, t, h5, h6⟩ := hw
      refine ⟨c, t, by rw [h5]; rfl, ?_⟩
      rcases h6 with h6 | h6
      · simp [h6]
      · right; right; right; right; right; left
        rw [h6]
        rfl
    · exact hsgn sign _ h1 hsg
  · obtain ⟨v, hv, hm⟩ := h
    simp only [List.mem_singleton] at hv
    subst hv
    obtain ⟨c, t, h5, h6⟩ := caseVariants_head 'n' "an".data s.data hm
    refine ⟨c, t, h5, ?_⟩
    rcases h6 with h6 | h6
    · simp [h6]
    · right; right; right; right; right; right; right
      rw [h6]
      rfl

theorem Digits.mem {d : Char → Prop} (l : List Char) (h : Digits d l) :
    ∀ c ∈ l, d c ∨ c = '_' := by
  induction h with
  | one c hc =>
    intro x hx
    simp only [List.mem_singleton] at hx
    subst hx
    exact Or.inl hc
  | cons c l hc _ ih =>
    intro x hx
    rcases List.mem_cons.mp hx with hx | hx
    · subst hx; exact Or.inl hc
    · exact ih x hx
  | sep c l hc _ ih =>
    intro x hx
    rcases List.mem_cons.mp hx with hx | hx
    · subst hx; exact Or.inl hc
    · rcases List.mem_cons.mp hx with hx | hx
      · exact Or.inr hx
      · exact ih x hx

theorem decimalFloat_chars (l : List Char) (h : IsDecimalFloat l) :
    ∀ c ∈ l, IsDecDigit c ∨ c = '_' ∨ c = '+' ∨ c = '-' ∨ c = '.' ∨ c = 'e' ∨ c = 'E' := by
  obtain ⟨sign, ip, fp, ex, hs, h1, h2, h3, _, h5⟩ := h
  have hsign : ∀ sg, IsSign sg → ∀ c ∈ sg, c = '+' ∨ c = '-' := by
    intro sg hsg c hc
    rcases hsg with hsg | hsg | hsg <;> subst hsg <;> simp at hc
    · exact Or.inl hc
    · exact Or.inr hc
  have hopt : ∀ r, OptDigits IsDecDigit r → ∀ c ∈ r, IsDecDigit c ∨ c = '_' := by
    intro r hr c hc
    rcases hr with hr | hr
    · subst hr; simp at hc
    · exact Digits.mem r hr c hc
  intro c hc
  rw [hs, List.mem_append, List.mem_append, List.mem_append] at hc
  rcases hc with hc | hc | hc | hc
  · rcases hsign sign h1 c hc with h | h
    · simp [h]
    · simp [h]
  · rcases hopt ip h2 c hc with h | h
    · exact Or.inl h
    · exact Or.inr (Or.inl h)
  · rcases h3 with h3 | ⟨fd, h3, h6⟩
    · subst h3; simp at hc
    · subst h3
      rcases List.mem_cons.mp hc with hc | hc
      · simp [hc]
      · rcases hopt fd h6 c hc with h | h
        · exact Or.inl h
        · exact Or.inr (Or.inl h)
  · rcases h5 with h5 | ⟨e, sg, ds, h5, h6, h7, h8⟩
    · subst h5; simp at hc
    · subst h5
      rcases List.mem_cons.mp hc with hc | hc
      · subst hc
        rcases h6 with h6 | h6
        · simp [h6]
        · simp [h6]
      · rcases List.mem_append.mp hc with hc | hc
        · rcases hsign sg h7 c hc with h | h
          · simp [h]
          · simp [h]
        · rcases Digits.mem ds h8 c hc with h | h
          · exact Or.inl h
          · exact Or.inr (Or.inl h)

/-! ## The claims -/

/-- C1, the code as written: on the gc runtime the accessor P =
NewConfig("app").ChildConfig("one").ChildConfig("two") holds a path slice of
length 3 and capacity 4, so A := P.ChildConfig("a") and B := P.ChildConfig("b")
share one backing array; B's segment overwrites A's, and A.GetString("f")
invokes the loader with [app, one, two, b, f] instead of [app, one, two, a, f]. -/
theorem sibling_ChildConfig_overwrites_path :
    ∃ p w a wa b wb r w1,
      ChildConfigs gc64 (NewConfig "app" (constLoader (.string "0") none) World.empty).1
        ["one", "two"] (NewConfig "app" (constLoader (.string "0") none) World.empty).2
        = some (p, w) ∧
      ChildConfig gc64 p "a" w = some (a, wa) ∧
      ChildConfig gc64 p "b" wa = some (b, wb) ∧
      GetString gc64 a "f" wb = some (r, w1) ∧
      w1.calls = [["app", "one", "two", "b", "f"]] :=
  ⟨_, _, _, _, _, _, _, _, rfl, rfl, rfl, rfl, by decide⟩

/-- On every runtime, two children derived from an accessor whose path slice has
spare capacity share its backing array: after the second `ChildConfig` both
children show the path of the second one. -/
theorem ChildConfig_twice_with_spare_capacity (rt : Runtime) (w : World) (p : Ptr)
    (cfg : Config) (path : List String) (a b : String)
    (hc : w.configs[p]? = some cfg) (hv : cfg.pathElements.Valid w.strings)
    (hp : w.strings.view cfg.pathElements = path)
    (hspare : cfg.pathElements.len < cfg.pathElements.cap) :
    ∃ ca wa cb wb, ChildConfig rt p a w = some (ca, wa) ∧
      ChildConfig rt p b wa = some (cb, wb) ∧ ca ≠ cb ∧
      PathIs wb ca (path ++ [b]) ∧ PathIs wb cb (path ++ [b]) := by
  have hlt : p < w.configs.length := (List.getElem?_eq_some_iff.mp hc).1
  have h1 := ChildConfig_eq rt p a w cfg hc
  have hva := append_valid_other rt w.strings cfg.pathElements cfg.pathElements a hv
  have hpa : (append rt w.strings cfg.pathElements a).1.view cfg.pathElements = path := by
    rw [append_view_other rt _ _ _ _ hv (fun _ => Or.inr (Nat.le_refl _))]; exact hp
  have hc2 : (w.configs ++
      [⟨cfg.loader, (append rt w.strings cfg.pathElements a).2, nilSlice⟩])[p]? = some cfg := by
    rw [List.getElem?_append_left hlt]; exact hc
  have h2 := ChildConfig_eq rt p b
    { w with
      strings := (append rt w.strings cfg.pathElements a).1
      configs := w.configs ++
        [⟨cfg.loader, (append rt w.strings cfg.pathElements a).2, nilSlice⟩] } cfg hc2
  have hsl : (append rt w.strings cfg.pathElements a).2 =
      (append rt (append rt w.strings cfg.pathElements a).1 cfg.pathElements b).2 := by
    rw [append_in_place rt _ _ _ hspare, append_in_place rt _ _ _ hspare]
  refine ⟨_, _, _, _, h1, h2, ?_, ?_, ?_⟩
  · simp
  · refine ⟨⟨cfg.loader, (append rt w.strings cfg.pathElements a).2, nilSlice⟩, ?_, ?_, ?_⟩
    · show ((w.configs ++ [_]) ++ [_])[w.configs.length]? = _
      rw [List.getElem?_append_left (by simp), List.getElem?_concat_length]
    · simp only; rw [hsl]; exact append_valid rt _ _ _ hva
    · simp only; rw [hsl, append_view rt _ _ _ hva, hpa]
  · refine ⟨⟨cfg.loader,
      (append rt (append rt w.strings cfg.pathElements a).1 cfg.pathElements b).2, nilSlice⟩,
      ?_, ?_, ?_⟩
    · exact List.getElem?_concat_length _ _
    · exact append_valid rt _ _ _ hva
    · simp only; rw [append_view rt _ _ _ hva, hpa]

/-- C2: for every namespace, every list of child segments, every field and every
loader, on every runtime and from every state, the chain
NewConfig(app, loader).ChildConfig(s1)...ChildConfig(sn) yields an accessor
(without invoking the loader) on which each of GetString, GetBool, GetInt and
GetFloat invokes the loader exactly once, with the path [app, s1, ..., sn, f]:
what the getter returns is its coercion of the answer the loader gives for that
path (the loader being handed the log of earlier invocations), and the log grows
by that one path.  The same holds after any sequence of getter calls on that
accessor, each of which has logged one invocation with its own path. -/
theorem path_composition (rt : Runtime) (fl : FloatOps) (app : String) (loader : Loader)
    (segs : List String) (f : String) (w : World) :
    ∃ c w1,
      ChildConfigs rt (NewConfig app loader w).1 segs (NewConfig app loader w).2 = some (c, w1) ∧
      w1.calls = w.calls ∧
      (∃ w2, GetString rt c f w1
          = some (stringResult f (loader w1.calls (app :: segs ++ [f])), w2) ∧
        w2.calls = w1.calls ++ [app :: segs ++ [f]]) ∧
      (∃ w2, GetBool rt c f w1
          = some (boolResult f (loader w1.calls (app :: segs ++ [f])), w2) ∧
        w2.calls = w1.calls ++ [app :: segs ++ [f]]) ∧
      (∃ w2, GetInt rt c f w1
          = some (intResult rt f (loader w1.calls (app :: segs ++ [f])), w2) ∧
        w2.calls = w1.calls ++ [app :: segs ++ [f]]) ∧
      (∃ w2, GetFloat rt fl c f w1
          = some (floatResult fl f (loader w1.calls (app :: segs ++ [f])), w2) ∧
        w2.calls = w1.calls ++ [app :: segs ++ [f]]) ∧
      ∀ calls : List Call, ∃ w2, runCalls rt fl c calls w1 = some w2 ∧
        w2.calls = w1.calls ++ calls.map (fun call => app :: segs ++ [call.name]) ∧
        (∃ w3, GetString rt c f w2
            = some (stringResult f (loader w2.calls (app :: segs ++ [f])), w3) ∧
          w3.calls = w2.calls ++ [app :: segs ++ [f]]) ∧
        (∃ w3, GetBool rt c f w2
            = some (boolResult f (loader w2.calls (app :: segs ++ [f])), w3) ∧
          w3.calls = w2.calls ++ [app :: segs ++ [f]]) ∧
        (∃ w3, GetInt rt c f w2
            = some (intResult rt f (loader w2.calls (app :: segs ++ [f])), w3) ∧
          w3.calls = w2.calls ++ [app :: segs ++ [f]]) ∧
        (∃ w3, GetFloat rt fl c f w2
            = some (floatResult fl f (loader w2.calls (app :: segs ++ [f])), w3) ∧
          w3.calls = w2.calls ++ [app :: segs ++ [f]]) := by
  rcases ChildConfigs_accessorIs rt loader segs _ _ _ (NewConfig_accessorIs app loader w) with
    ⟨c, w1, hch, hacc, hcalls⟩
  have hg1 := getters_invoke rt fl c f w1 _ loader [] hacc
  simp only [List.singleton_append, List.cons_append, List.nil_append] at hg1
  refine ⟨c, w1, hch, hcalls, hg1.1, hg1.2.1, hg1.2.2.1, hg1.2.2.2, ?_⟩
  intro calls
  rcases runCalls_accessorIs rt fl c _ loader calls w1 [] hacc with ⟨w2, es2, hr, hacc2, hc2⟩
  have hg := getters_invoke rt fl c f w2 _ loader es2 hacc2
  simp only [List.singleton_append, List.cons_append, List.nil_append] at hg hc2
  exact ⟨w2, hr, by simpa using hc2, hg.1, hg.2.1, hg.2.2.1, hg.2.2.2⟩

/-- C2 at work, as in the tests: on the accessor app.one.two, GetString of
`someName` hands the loader the path [app, one, two, someName] and returns the
string the loader answers for exactly that path. -/
theorem path_composition_example :
    ∃ c w1 w2,
      ChildConfigs gc64
        (NewConfig "app" (fun _ path =>
          if path = ["app", "one", "two", "someName"] then (.string "found", none)
          else (.string "lost", none)) World.empty).1 ["one", "two"]
        (NewConfig "app" (fun _ path =>
          if path = ["app", "one", "two", "someName"] then (.string "found", none)
          else (.string "lost", none)) World.empty).2 = some (c, w1) ∧
      GetString gc64 c "someName" w1 = some (("found", none), w2) ∧
      w2.calls = [["app", "one", "two", "someName"]] :=
  ⟨_, _, _, rfl, rfl, rfl⟩

/-- C3: on a well-formed state, any finite sequence of getter calls (Get* and
MayGet*, any fields, any loader) on one accessor runs to the end, and
GetErrors() afterwards is the list it was before followed by exactly the
non-nil errors the Get* methods returned, in call order; for a fresh accessor
the list before is empty. -/
theorem error_accumulation (rt : Runtime) (fl : FloatOps) (c : Ptr) (calls : List Call)
    (w : World) (es : List GoError) (hw : w.WF) (hes : GetErrors c w = some es) :
    ∃ w1, runCalls rt fl c calls w = some w1 ∧
      GetErrors c w1 = some (es ++ returnedErrors rt fl c calls w) := by
  cases hc : w.configs[c]? with
  | none => simp [GetErrors, hc] at hes
  | some cfg =>
    have h : ErrsAre w c es :=
      ⟨cfg, hc, hw.errors c cfg hc, getErrors_of_lookup w c cfg es hc hes⟩
    rcases runCalls_errsAre rt fl c calls w es h with ⟨w1, hr, h1⟩
    exact ⟨w1, hr, h1.getErrors⟩

/-- C3 at work: a fresh accessor over a loader answering `true`; GetString, GetBool,
MayGetInt and GetFloat in a row leave the three errors of the failing calls. -/
theorem error_accumulation_witness :
    (NewConfig "app" (constLoader (.bool true) none) World.empty).2.WF ∧
    GetErrors 0 (NewConfig "app" (constLoader (.bool true) none) World.empty).2 = some [] ∧
    ∃ w1, runCalls gc64 exampleFloatOps 0
        [.getString "a", .getBool "b", .mayGetInt "c", .getFloat "d"]
        (NewConfig "app" (constLoader (.bool true) none) World.empty).2 = some w1 ∧
      GetErrors 0 w1 = some ([] ++ returnedErrors gc64 exampleFloatOps 0
        [.getString "a", .getBool "b", .mayGetInt "c", .getFloat "d"]
        (NewConfig "app" (constLoader (.bool true) none) World.empty).2) :=
  ⟨WF_NewConfig _ _ _ WF_empty, rfl,
    error_accumulation gc64 exampleFloatOps 0 _ _ [] (WF_NewConfig _ _ _ WF_empty) rfl⟩

/-- C4: when the loader answers a getter's call with a non-nil error e, whatever
raw value comes with it, each of GetString, GetBool, GetInt and GetFloat returns
the zero value of its type together with e itself, and the accessor's error
collection afterwards is the collection before followed by e. -/
theorem resolution_failure (rt : Runtime) (fl : FloatOps) (c : Ptr) (name : String)
    (w : World) (cfg : Config) (v : Value) (e : ErrorValue) (es : List GoError)
    (hw : w.WF) (hc : w.configs[c]? = some cfg)
    (hl : (callLoader rt cfg name w).1 = (v, some e)) (hes : GetErrors c w = some es) :
    (∃ w1, GetString rt c name w = some (("", some e), w1) ∧
      GetErrors c w1 = some (es ++ [some e])) ∧
    (∃ w1, GetBool rt c name w = some ((false, some e), w1) ∧
      GetErrors c w1 = some (es ++ [some e])) ∧
    (∃ w1, GetInt rt c name w = some ((0, some e), w1) ∧
      GetErrors c w1 = some (es ++ [some e])) ∧
    (∃ w1, GetFloat rt fl c name w = some ((⟨0⟩, some e), w1) ∧
      GetErrors c w1 = some (es ++ [some e])) := by
  have hrec := finish_getErrors_self rt c cfg name (some e) w es hw hc hes
  simp only [ne_eq, reduceCtorEq, not_false_eq_true, if_true] at hrec
  refine ⟨?_, ?_, ?_, ?_⟩
  · rw [GetString_eq, hc]
    simp only [Option.map_some', stringResult, hl]
    exact ⟨_, rfl, hrec⟩
  · rw [GetBool_eq, hc]
    simp only [Option.map_some', boolResult, hl]
    exact ⟨_, rfl, hrec⟩
  · rw [GetInt_eq, hc]
    simp only [Option.map_some', intResult, hl]
    exact ⟨_, rfl, hrec⟩
  · rw [GetFloat_eq, hc]
    simp only [Option.map_some', floatResult, hl]
    exact ⟨_, rfl, hrec⟩

/-- C4 at work, as in the tests: the loader fails with `testerror`, GetBool returns
false with that error and records it. -/
theorem resolution_failure_witness :
    (NewConfig "app" (constLoader (.string "") (errorsNew "testerror")) World.empty).2.WF ∧
    (∃ w1, GetBool gc64 0 "someName"
        (NewConfig "app" (constLoader (.string "") (errorsNew "testerror")) World.empty).2
        = some ((false, some (.errorString "testerror")), w1) ∧
      GetErrors 0 w1 = some ([] ++ [some (.errorString "testerror")])) :=
  ⟨WF_NewConfig _ _ _ WF_empty,
    (resolution_failure gc64 exampleFloatOps 0 "someName"
      (NewConfig "app" (constLoader (.string "") (errorsNew "testerror")) World.empty).2
      ⟨constLoader (.string "") (errorsNew "testerror"), ⟨0, 1, 1⟩, nilSlice⟩
      (.string "") (.errorString "testerror") []
      (WF_NewConfig _ _ _ WF_empty) rfl rfl rfl).2.1⟩

/-- C5: NewConfig and every ChildConfig return an accessor whose error collection
is empty, whatever the parent has accumulated; and on a well-formed state a
getter call (failing or not) on one accessor leaves GetErrors() of every other
accessor unchanged, be it its parent, its child or any other. -/
theorem errors_per_accessor (rt : Runtime) (fl : FloatOps) :
    (∀ (app : String) (loader : Loader) (w : World),
      GetErrors (NewConfig app loader w).1 (NewConfig app loader w).2 = some []) ∧
    (∀ (parent : Ptr) (name : String) (w : World) (c : Ptr) (w1 : World),
      ChildConfig rt parent name w = some (c, w1) → GetErrors c w1 = some []) ∧
    (∀ (w : World) (c d : Ptr) (call : Call) (w1 : World), w.WF → d ≠ c →
      call.exec rt fl c w = some w1 → GetErrors d w1 = GetErrors d w) := by
  refine ⟨?_, ?_, ?_⟩
  · intro app loader w
    simp [GetErrors, NewConfig, Mem.view, nilSlice]
  · intro parent name w c w1 h
    cases hcfg : w.configs[parent]? with
    | none => simp [ChildConfig, hcfg] at h
    | some cfg =>
      rw [ChildConfig_eq rt parent name w cfg hcfg] at h
      simp only [Option.some.injEq, Prod.mk.injEq] at h
      rcases h with ⟨rfl, rfl⟩
      simp [GetErrors, Mem.view, nilSlice]
  · intro w c d call w1 hw hne hex
    rw [Call.exec_eq] at hex
    cases hc : w.configs[c]? with
    | none => simp [hc] at hex
    | some cfg =>
      simp only [hc, Option.map_some', Option.some.injEq] at hex
      subst hex
      exact finish_getErrors_other rt c d cfg _ _ w hw hc hne

/-- C5 at work: the parent fails once, a child is derived with no errors; a failing
getter on the child leaves the parent's list alone. -/
theorem errors_per_accessor_witness :
    ∃ w1 child w2 w3,
      (Call.getBool "x").exec gc64 exampleFloatOps 0
        (NewConfig "app" (constLoader (.string "") (errorsNew "testerror")) World.empty).2
        = some w1 ∧
      ChildConfig gc64 0 "one" w1 = some (child, w2) ∧
      GetErrors 0 w2 = some [errorsNew "testerror"] ∧
      GetErrors child w2 = some [] ∧
      (Call.getInt "y").exec gc64 exampleFloatOps child w2 = some w3 ∧
      GetErrors child w3 = some [errorsNew "testerror"] ∧
      GetErrors 0 w3 = GetErrors 0 w2 := by
  refine ⟨_, _, _, _, rfl, rfl, rfl, rfl, rfl, rfl, ?_⟩
  exact (errors_per_accessor gc64 exampleFloatOps).2.2 _ 1 0 (.getInt "y") _
    (WF_ChildConfig gc64 0 "one" _
      (WF_exec gc64 exampleFloatOps 0 (.getBool "x") _ _
        (WF_NewConfig "app" (constLoader (.string "") (errorsNew "testerror")) _ WF_empty) rfl)
      _ _ rfl)
    (by decide) rfl

/-- C6: when the loader answers GetBool's call with a string s and no error,
GetBool returns (true, nil) and records nothing if s is one of yes, 1, true, y
in any letter case; returns (false, nil) and records nothing if s is one of
no, 0, false, n in any letter case; and for every other string returns false
with a non-nil error, which it records.  No string is in both sets. -/
theorem bool_coercion_of_strings (rt : Runtime) (c : Ptr) (name : String) (w : World)
    (cfg : Config) (s : String) (es : List GoError) (hw : w.WF)
    (hc : w.configs[c]? = some cfg)
    (hl : (callLoader rt cfg name w).1 = (.string s, none))
    (hes : GetErrors c w = some es) :
    (EqualsAnyCase s ["yes", "1", "true", "y"] →
      ∃ w1, GetBool rt c name w = some ((true, none), w1) ∧ GetErrors c w1 = some es) ∧
    (EqualsAnyCase s ["no", "0", "false", "n"] →
      ∃ w1, GetBool rt c name w = some ((false, none), w1) ∧ GetErrors c w1 = some es) ∧
    (¬ EqualsAnyCase s ["yes", "1", "true", "y"] →
      ¬ EqualsAnyCase s ["no", "0", "false", "n"] →
      ∃ e w1, GetBool rt c name w = some ((false, some e), w1) ∧
        GetErrors c w1 = some (es ++ [some e])) ∧
    ¬ (EqualsAnyCase s ["yes", "1", "true", "y"] ∧
      EqualsAnyCase s ["no", "0", "false", "n"]) := by
  have ht := inArray_iff_equalsAnyCase s ACCEPTABLE_TRUETHY plain_truthy
  have hf := inArray_iff_equalsAnyCase s ACCEPTABLE_FALSY plain_falsy
  have hapart := truthy_falsy_apart s
  rw [ht, hf] at hapart
  simp only [ACCEPTABLE_TRUETHY, ACCEPTABLE_FALSY] at ht hf hapart
  refine ⟨?_, ?_, ?_, hapart⟩
  · intro h
    rw [GetBool_eq, hc]
    simp only [Option.map_some', boolResult, hl, ACCEPTABLE_TRUETHY, ht.mpr h]
    exact ⟨_, rfl, finish_none_getErrors rt c cfg name w es hw hc hes⟩
  · intro h
    have hnt : ¬ inArray s ["yes", "1", "true", "y"] = true := fun x => hapart ⟨ht.mp x, h⟩
    rw [GetBool_eq, hc]
    simp only [Option.map_some', boolResult, hl, ACCEPTABLE_TRUETHY, ACCEPTABLE_FALSY, hnt,
      hf.mpr h]
    exact ⟨_, rfl, finish_none_getErrors rt c cfg name w es hw hc hes⟩
  · intro h1 h2
    have hnt : ¬ inArray s ["yes", "1", "true", "y"] = true := fun x => h1 (ht.mp x)
    have hnf : ¬ inArray s ["no", "0", "false", "n"] = true := fun x => h2 (hf.mp x)
    rw [GetBool_eq, hc]
    simp only [Option.map_some', boolResult, hl, ACCEPTABLE_TRUETHY, ACCEPTABLE_FALSY, hnt,
      hnf, errorsNew]
    exact ⟨_, _, rfl, finish_some_getErrors rt c cfg name _ w es hw hc hes⟩

/-- C6 at work: `YES` is a spelling of yes, and GetBool returns true. -/
theorem bool_coercion_of_strings_witness :
    (NewConfig "app" (constLoader (.string "YES") none) World.empty).2.WF ∧
    EqualsAnyCase "YES" ["yes", "1", "true", "y"] ∧
    ∃ w1, GetBool gc64 0 "someName"
        (NewConfig "app" (constLoader (.string "YES") none) World.empty).2
        = some ((true, none), w1) ∧ GetErrors 0 w1 = some [] :=
  ⟨WF_NewConfig _ _ _ WF_empty, by decide,
    (bool_coercion_of_strings gc64 0 "someName"
      (NewConfig "app" (constLoader (.string "YES") none) World.empty).2
      ⟨constLoader (.string "YES") none, ⟨0, 1, 1⟩, nilSlice⟩ "YES" []
      (WF_NewConfig _ _ _ WF_empty) rfl rfl rfl).1 (by decide)⟩

/-- C7: for every integer n in the range of the platform int, GetInt returns
(n, nil) and records nothing when the loader answers with the base-10 decimal
string of n (a leading `-` when negative), and when it answers with the raw int n. -/
theorem int_round_trip (rt : Runtime) (c : Ptr) (name : String) (w : World) (cfg : Config)
    (n : Int) (es : List GoError) (hw : w.WF) (hc : w.configs[c]? = some cfg)
    (hes : GetErrors c w = some es)
    (h1 : -(2 : Int) ^ (rt.intSize - 1) ≤ n) (h2 : n ≤ 2 ^ (rt.intSize - 1) - 1) :
    ((callLoader rt cfg name w).1 = (.string (toString n), none) →
      ∃ w1, GetInt rt c name w = some ((n, none), w1) ∧ GetErrors c w1 = some es) ∧
    ((callLoader rt cfg name w).1 = (.int n, none) →
      ∃ w1, GetInt rt c name w = some ((n, none), w1) ∧ GetErrors c w1 = some es) := by
  refine ⟨?_, ?_⟩
  · intro hl
    have ha := Atoi_ok rt (toString n) n (toString_int_isDecimalInt rt.intSize n h1 h2)
    rw [GetInt_eq, hc]
    simp only [Option.map_some', intResult, hl, ha]
    exact ⟨_, rfl, finish_none_getErrors rt c cfg name w es hw hc hes⟩
  · intro hl
    rw [GetInt_eq, hc]
    simp only [Option.map_some', intResult, hl]
    exact ⟨_, rfl, finish_none_getErrors rt c cfg name w es hw hc hes⟩

/-- C7 at work: on a 32-bit platform GetInt reads `-2000000000` back. -/
theorem int_round_trip_witness :
    (NewConfig "app" (constLoader (.string "-2000000000") none) World.empty).2.WF ∧
    toString (-2000000000 : Int) = "-2000000000" ∧
    ∃ w1, GetInt gc32 0 "someName"
        (NewConfig "app" (constLoader (.string "-2000000000") none) World.empty).2
        = some ((-2000000000, none), w1) ∧ GetErrors 0 w1 = some [] :=
  ⟨WF_NewConfig _ _ _ WF_empty, by decide,
    (int_round_trip gc32 0 "someName"
      (NewConfig "app" (constLoader (.string "-2000000000") none) World.empty).2
      ⟨constLoader (.string "-2000000000") none, ⟨0, 1, 1⟩, nilSlice⟩ (-2000000000) []
      (WF_NewConfig _ _ _ WF_empty) rfl rfl (by decide) (by decide)).1 (by decide)⟩

/-- C8: when the loader answers with a string that is not a base-10 signed
integer representable in the platform int (optional sign, one or more decimal
digits, value within range), GetInt returns 0 together with the error of Atoi,
and records exactly that error. -/
theorem int_parse_failure (rt : Runtime) (c : Ptr) (name : String) (w : World) (cfg : Config)
    (s : String) (es : List GoError) (hw : w.WF) (hc : w.configs[c]? = some cfg)
    (hl : (callLoader rt cfg name w).1 = (.string s, none))
    (hes : GetErrors c w = some es) (hbad : ∀ v, ¬ IsDecimalInt rt.intSize s v) :
    ∃ e w1, GetInt rt c name w = some ((0, some e), w1) ∧ (Atoi rt s).2 = some e ∧
      GetErrors c w1 = some (es ++ [some e]) := by
  cases ha : (Atoi rt s).2 with
  | none => exact absurd (Atoi_none rt s ha) (hbad _)
  | some e =>
    rw [GetInt_eq, hc]
    simp only [Option.map_some', intResult, hl, ha]
    exact ⟨e, _, rfl, rfl, finish_some_getErrors rt c cfg name e w es hw hc hes⟩

/-- The strings the claim lists are not base-10 signed integers of the platform:
the empty string, surrounding whitespace, a word, digits out of range. -/
theorem not_decimal_examples :
    (∀ v, ¬ IsDecimalInt 64 "" v) ∧ (∀ v, ¬ IsDecimalInt 64 " 12" v) ∧
    (∀ v, ¬ IsDecimalInt 64 "12 " v) ∧ (∀ v, ¬ IsDecimalInt 64 "true" v) ∧
    (∀ v, ¬ IsDecimalInt 64 "9223372036854775808" v) ∧
    (∀ v, ¬ IsDecimalInt 32 "2147483648" v) :=
  ⟨not_decimal_of_error gc64 "" (by decide), not_decimal_of_error gc64 " 12" (by decide),
    not_decimal_of_error gc64 "12 " (by decide), not_decimal_of_error gc64 "true" (by decide),
    not_decimal_of_error gc64 "9223372036854775808" (by decide),
    not_decimal_of_error gc32 "2147483648" (by decide)⟩

/-- C8 at work, as in the tests: GetInt over the raw string `true`. -/
theorem int_parse_failure_witness :
    (NewConfig "app" (constLoader (.string "true") none) World.empty).2.WF ∧
    (∀ v, ¬ IsDecimalInt gc64.intSize "true" v) ∧
    ∃ e w1, GetInt gc64 0 "someName"
        (NewConfig "app" (constLoader (.string "true") none) World.empty).2
        = some ((0, some e), w1) ∧ (Atoi gc64 "true").2 = some e ∧
      GetErrors 0 w1 = some ([] ++ [some e]) :=
  ⟨WF_NewConfig _ _ _ WF_empty, not_decimal_examples.2.2.2.1,
    int_parse_failure gc64 0 "someName"
      (NewConfig "app" (constLoader (.string "true") none) World.empty).2
      ⟨constLoader (.string "true") none, ⟨0, 1, 1⟩, nilSlice⟩ "true" []
      (WF_NewConfig _ _ _ WF_empty) rfl rfl rfl not_decimal_examples.2.2.2.1⟩

/-- C9 as stated fails: GetInt("someName") over the raw string "true" returns and
records the error of Atoi, whose message is
`strconv.Atoi: parsing "true": invalid syntax` and does not contain the field
name. -/
theorem parse_error_omits_field_name :
    ∃ e w1, GetInt gc64 0 "someName"
        (NewConfig "app" (constLoader (.string "true") none) World.empty).2
        = some ((0, some e), w1) ∧
      GetErrors 0 w1 = some [some e] ∧
      e.Error = "strconv.Atoi: parsing \"true\": invalid syntax" ∧
      ¬ Contains e.Error "someName" :=
  ⟨_, _, rfl, rfl, by decide, by decide⟩

/-- C9 amended: when the loader answers with a string s that fails to parse, the
error GetInt (GetFloat) returns and records is exactly the error that
`strconv.Atoi` (`strconv.ParseFloat`) returns for s, unchanged: a `*NumError`
with Func `Atoi` (`ParseFloat`), Num s and Err `ErrSyntax` or `ErrRange`.  When
every rune of s is at most U+00FF, its message is `strconv.Atoi: parsing `
(`strconv.ParseFloat: parsing `), then s as `strconv.Quote` writes it, a colon
and the reason.  For GetFloat the first part holds whatever ParseFloat is. -/
theorem parse_failure_error (rt : Runtime) (fl : FloatOps) (c : Ptr) (name : String)
    (w : World) (cfg : Config) (s : String) (es : List GoError) (hw : w.WF)
    (hc : w.configs[c]? = some cfg)
    (hl : (callLoader rt cfg name w).1 = (.string s, none))
    (hes : GetErrors c w = some es) :
    (∀ e, (Atoi rt s).2 = some e →
      (∃ k : NumErrKind, e = .numError ⟨"Atoi", s, k⟩ ∧
        ((∀ ch ∈ s.data, ch.toNat ≤ 255) →
          e.Error = "strconv.Atoi: parsing " ++ Quote s ++ ": " ++ k.Error)) ∧
      ∃ w1, GetInt rt c name w = some ((0, some e), w1) ∧
        GetErrors c w1 = some (es ++ [some e])) ∧
    (∀ e, (ParseFloat s).2 = some e →
      (∃ k : NumErrKind, e = .numError ⟨"ParseFloat", s, k⟩ ∧
        ((∀ ch ∈ s.data, ch.toNat ≤ 255) →
          e.Error = "strconv.ParseFloat: parsing " ++ Quote s ++ ": " ++ k.Error)) ∧
      ∃ w1, GetFloat rt goFloatOps c name w = some ((⟨0⟩, some e), w1) ∧
        GetErrors c w1 = some (es ++ [some e])) ∧
    (∀ e, (fl.ParseFloat s).2 = some e →
      ∃ w1, GetFloat rt fl c name w = some ((⟨0⟩, some e), w1) ∧
        GetErrors c w1 = some (es ++ [some e])) := by
  have hfl : ∀ (fl1 : FloatOps) (e : ErrorValue), (fl1.ParseFloat s).2 = some e →
      ∃ w1, GetFloat rt fl1 c name w = some ((⟨0⟩, some e), w1) ∧
        GetErrors c w1 = some (es ++ [some e]) := by
    intro fl1 e ha
    rw [GetFloat_eq, hc]
    simp only [Option.map_some', floatResult, hl, ha]
    exact ⟨_, rfl, finish_some_getErrors rt c cfg name e w es hw hc hes⟩
  refine ⟨?_, ?_, hfl fl⟩
  · intro e ha
    refine ⟨?_, ?_⟩
    · rcases Atoi_some rt s e ha with ⟨k, rfl⟩
      exact ⟨k, rfl, fun _ => rfl⟩
    · rw [GetInt_eq, hc]
      simp only [Option.map_some', intResult, hl, ha]
      exact ⟨_, rfl, finish_some_getErrors rt c cfg name e w es hw hc hes⟩
  · intro e ha
    refine ⟨?_, hfl goFloatOps e ha⟩
    rcases ParseFloat_some s e ha with ⟨k, rfl⟩
    exact ⟨k, rfl, fun _ => rfl⟩

/-- C9 amended, at work: GetInt and GetFloat over the raw string `true` return and
record the `*NumError` of Atoi and of ParseFloat. -/
theorem parse_failure_error_witness :
    (NewConfig "app" (constLoader (.string "true") none) World.empty).2.WF ∧
    (Atoi gc64 "true").2 = some (.numError ⟨"Atoi", "true", .ErrSyntax⟩) ∧
    (∃ w1, GetInt gc64 0 "someName"
        (NewConfig "app" (constLoader (.string "true") none) World.empty).2
        = some ((0, some (.numError ⟨"Atoi", "true", .ErrSyntax⟩)), w1) ∧
      GetErrors 0 w1 = some ([] ++ [some (.numError ⟨"Atoi", "true", .ErrSyntax⟩)])) ∧
    (∃ w1, GetFloat gc64 goFloatOps 0 "someName"
        (NewConfig "app" (constLoader (.string "true") none) World.empty).2
        = some ((⟨0⟩, some (.numError ⟨"ParseFloat", "true", .ErrSyntax⟩)), w1) ∧
      GetErrors 0 w1 = some ([] ++ [some (.numError ⟨"ParseFloat", "true", .ErrSyntax⟩)])) ∧
    (ErrorValue.numError ⟨"ParseFloat", "true", .ErrSyntax⟩).Error
      = "strconv.ParseFloat: parsing \"true\": invalid syntax" :=
  ⟨WF_NewConfig _ _ _ WF_empty, by decide,
    ((parse_failure_error gc64 exampleFloatOps 0 "someName"
      (NewConfig "app" (constLoader (.string "true") none) World.empty).2
      ⟨constLoader (.string "true") none, ⟨0, 1, 1⟩, nilSlice⟩ "true" []
      (WF_NewConfig _ _ _ WF_empty) rfl rfl rfl).1 _ (by decide)).2,
    ((parse_failure_error gc64 exampleFloatOps 0 "someName"
      (NewConfig "app" (constLoader (.string "true") none) World.empty).2
      ⟨constLoader (.string "true") none, ⟨0, 1, 1⟩, nilSlice⟩ "true" []
      (WF_NewConfig _ _ _ WF_empty) rfl rfl rfl).2.1 _ (by decide)).2,
    by decide⟩

/-- C10: when the loader answers without error with a raw value whose type is
outside the getter's accepted set (GetString: anything but string; GetBool:
anything but string or bool; GetInt: anything but string or int; GetFloat:
anything but string, float32, float64 or int), the getter returns the zero value
with a non-nil error whose message contains the field name, and records it. -/
theorem type_mismatch (rt : Runtime) (fl : FloatOps) (c : Ptr) (name : String) (w : World)
    (cfg : Config) (v : Value) (es : List GoError) (hw : w.WF)
    (hc : w.configs[c]? = some cfg)
    (hl : (callLoader rt cfg name w).1 = (v, none))
    (hes : GetErrors c w = some es) :
    ((∀ t, v ≠ .string t) →
      ∃ e w1, GetString rt c name w = some (("", some e), w1) ∧ Contains e.Error name ∧
        GetErrors c w1 = some (es ++ [some e])) ∧
    ((∀ t, v ≠ .string t) → (∀ b, v ≠ .bool b) →
      ∃ e w1, GetBool rt c name w = some ((false, some e), w1) ∧ Contains e.Error name ∧
        GetErrors c w1 = some (es ++ [some e])) ∧
    ((∀ t, v ≠ .string t) → (∀ n, v ≠ .int n) →
      ∃ e w1, GetInt rt c name w = some ((0, some e), w1) ∧ Contains e.Error name ∧
        GetErrors c w1 = some (es ++ [some e])) ∧
    ((∀ t, v ≠ .string t) → (∀ x, v ≠ .float32 x) → (∀ x, v ≠ .float64 x) →
      (∀ n, v ≠ .int n) →
      ∃ e w1, GetFloat rt fl c name w = some ((⟨0⟩, some e), w1) ∧ Contains e.Error name ∧
        GetErrors c w1 = some (es ++ [some e])) := by
  refine ⟨?_, ?_, ?_, ?_⟩
  · intro h1
    rw [GetString_eq, hc]
    simp only [Option.map_some', stringResult, hl]
    cases v with
    | string t => exact absurd rfl (h1 t)
    | _ =>
      exact ⟨_, _, rfl, contains_append_right _ name,
        finish_some_getErrors rt c cfg name _ w es hw hc hes⟩
  · intro h1 h2
    rw [GetBool_eq, hc]
    simp only [Option.map_some', boolResult, hl]
    cases v with
    | string t => exact absurd rfl (h1 t)
    | bool b => exact absurd rfl (h2 b)
    | _ =>
      exact ⟨_, _, rfl, contains_append_right _ name,
        finish_some_getErrors rt c cfg name _ w es hw hc hes⟩
  · intro h1 h2
    rw [GetInt_eq, hc]
    simp only [Option.map_some', intResult, hl]
    cases v with
    | string t => exact absurd rfl (h1 t)
    | int n => exact absurd rfl (h2 n)
    | _ =>
      exact ⟨_, _, rfl, contains_append_right _ name,
        finish_some_getErrors rt c cfg name _ w es hw hc hes⟩
  · intro h1 h2 h3 h4
    rw [GetFloat_eq, hc]
    simp only [Option.map_some', floatResult, hl]
    cases v with
    | string t => exact absurd rfl (h1 t)
    | float32 x => exact absurd rfl (h2 x)
    | float64 x => exact absurd rfl (h3 x)
    | int n => exact absurd rfl (h4 n)
    | _ =>
      exact ⟨_, _, rfl, contains_append_right _ name,
        finish_some_getErrors rt c cfg name _ w es hw hc hes⟩

/-- C10 at work, as in the tests: GetBool over the raw int 65. -/
theorem type_mismatch_witness :
    (NewConfig "app" (constLoader (.int 65) none) World.empty).2.WF ∧
    ∃ e w1, GetBool gc64 0 "someName"
        (NewConfig "app" (constLoader (.int 65) none) World.empty).2
        = some ((false, some e), w1) ∧ Contains e.Error "someName" ∧
      GetErrors 0 w1 = some ([] ++ [some e]) :=
  ⟨WF_NewConfig _ _ _ WF_empty,
    (type_mismatch gc64 exampleFloatOps 0 "someName"
      (NewConfig "app" (constLoader (.int 65) none) World.empty).2
      ⟨constLoader (.int 65) none, ⟨0, 1, 1⟩, nilSlice⟩ (.int 65) []
      (WF_NewConfig _ _ _ WF_empty) rfl rfl rfl).2.1
      (fun _ => by simp) (fun _ => by simp)⟩

/-- C11: each MayGetX runs GetX from the same state and returns its value
component with the state GetX leaves (so the same error is recorded on failure
and nothing on success); it has no error result; and whenever GetX returns a
non-nil error its value, hence the value of MayGetX, is the zero value "",
false, 0 or 0.0. -/
theorem mayGet_mirrors_get (rt : Runtime) (fl : FloatOps) (c : Ptr) (f : String) (w : World) :
    (MayGetString rt c f w = (GetString rt c f w).map (fun r => (r.1.1, r.2)) ∧
      ∀ r w1, GetString rt c f w = some (r, w1) →
        MayGetString rt c f w = some (r.1, w1) ∧ (r.2 ≠ none → r.1 = "")) ∧
    (MayGetBool rt c f w = (GetBool rt c f w).map (fun r => (r.1.1, r.2)) ∧
      ∀ r w1, GetBool rt c f w = some (r, w1) →
        MayGetBool rt c f w = some (r.1, w1) ∧ (r.2 ≠ none → r.1 = false)) ∧
    (MayGetInt rt c f w = (GetInt rt c f w).map (fun r => (r.1.1, r.2)) ∧
      ∀ r w1, GetInt rt c f w = some (r, w1) →
        MayGetInt rt c f w = some (r.1, w1) ∧ (r.2 ≠ none → r.1 = 0)) ∧
    (MayGetFloat rt fl c f w = (GetFloat rt fl c f w).map (fun r => (r.1.1, r.2)) ∧
      ∀ r w1, GetFloat rt fl c f w = some (r, w1) →
        MayGetFloat rt fl c f w = some (r.1, w1) ∧ (r.2 ≠ none → r.1 = ⟨0⟩)) := by
  refine ⟨⟨rfl, ?_⟩, ⟨rfl, ?_⟩, ⟨rfl, ?_⟩, ⟨rfl, ?_⟩⟩
  · intro r w1 h
    refine ⟨by simp [MayGetString, h], ?_⟩
    rw [GetString_eq] at h
    cases hc : w.configs[c]? with
    | none => simp [hc] at h
    | some cfg =>
      simp only [hc, Option.map_some', Option.some.injEq, Prod.mk.injEq] at h
      rw [← h.1]
      exact stringResult_zero f _
  · intro r w1 h
    refine ⟨by simp [MayGetBool, h], ?_⟩
    rw [GetBool_eq] at h
    cases hc : w.configs[c]? with
    | none => simp [hc] at h
    | some cfg =>
      simp only [hc, Option.map_some', Option.some.injEq, Prod.mk.injEq] at h
      rw [← h.1]
      exact boolResult_zero f _
  · intro r w1 h
    refine ⟨by simp [MayGetInt, h], ?_⟩
    rw [GetInt_eq] at h
    cases hc : w.configs[c]? with
    | none => simp [hc] at h
    | some cfg =>
      simp only [hc, Option.map_some', Option.some.injEq, Prod.mk.injEq] at h
      rw [← h.1]
      exact intResult_zero rt f _
  · intro r w1 h
    refine ⟨by simp [MayGetFloat, h], ?_⟩
    rw [GetFloat_eq] at h
    cases hc : w.configs[c]? with
    | none => simp [hc] at h
    | some cfg =>
      simp only [hc, Option.map_some', Option.some.injEq, Prod.mk.injEq] at h
      rw [← h.1]
      exact floatResult_zero fl f _

/-- C11 at work: over a failing loader MayGetBool returns false and leaves the
error that GetBool returns in the accessor's list. -/
theorem mayGet_mirrors_get_witness :
    ∃ w1, GetBool gc64 0 "someName"
        (NewConfig "app" (constLoader (.string "") (errorsNew "testerror")) World.empty).2
        = some ((false, errorsNew "testerror"), w1) ∧
      MayGetBool gc64 0 "someName"
        (NewConfig "app" (constLoader (.string "") (errorsNew "testerror")) World.empty).2
        = some (false, w1) ∧
      GetErrors 0 w1 = some [errorsNew "testerror"] := by
  refine ⟨_, rfl, ?_, rfl⟩
  exact ((mayGet_mirrors_get gc64 exampleFloatOps 0 "someName"
    (NewConfig "app" (constLoader (.string "") (errorsNew "testerror")) World.empty).2).2.1.2
    _ _ rfl).1

/-- C12: in every reachable state the accumulated errors errs of an accessor are
all non-nil, and TriggerErrorPanic returns normally if errs is empty and
otherwise panics with the messages of errs, in order, joined by a single
newline, the whole text trimmed of leading and trailing white space. -/
theorem trigger_error_panic (rt : Runtime) (fl : FloatOps) (w : World) (c : Ptr)
    (es : List GoError) (hw : Reachable rt fl w) (hes : GetErrors c w = some es) :
    ∃ errs : List ErrorValue, es = errs.map some ∧
      TriggerErrorPanic c w = some
        (if errs = [] then Outcome.returns
          else Outcome.panics (TrimSpace (Join (errs.map ErrorValue.Error) "\n"))) := by
  rcases map_some_of_noNil es (hw.noNil c es hes) with ⟨errs, rfl⟩
  refine ⟨errs, rfl, ?_⟩
  cases hc : w.configs[c]? with
  | none => simp [GetErrors, hc] at hes
  | some cfg =>
    have hv := getErrors_of_lookup w c cfg _ hc hes
    unfold TriggerErrorPanic
    rw [hc]
    simp only [hv]
    cases errs with
    | nil => simp
    | cons e rest =>
      rw [if_pos (by simp), errorMsgLoop_cons, if_neg (by simp)]
      simp only [Option.map_some', TrimSpace_append_newline]

/-- C12 at work: after two failing getters over the raw boolean true the panic
value is the two messages on two lines. -/
theorem trigger_error_panic_witness :
    ∃ w : World, Reachable gc64 exampleFloatOps w ∧
      (∃ errs : List ErrorValue, GetErrors 0 w = some (errs.map some) ∧
        TriggerErrorPanic 0 w = some
          (if errs = [] then Outcome.returns
            else Outcome.panics (TrimSpace (Join (errs.map ErrorValue.Error) "\n")))) ∧
      TriggerErrorPanic 0 w = some (Outcome.panics
        "value is not a string for name a\nvalue is not an int or parseable string for name b") := by
  have hw : Reachable gc64 exampleFloatOps
      (NewConfig "app" (constLoader (.bool true) none) World.empty).2 :=
    Reachable.newConfig _ _ _ Reachable.empty
  have h1 := Reachable.call 0 (.getString "a") _ _ hw rfl
  have h2 := Reachable.call 0 (.mayGetInt "b") _ _ h1 rfl
  refine ⟨_, h2, ?_, by decide⟩
  rcases trigger_error_panic gc64 exampleFloatOps _ 0 _ h2 rfl with ⟨errs, he, ht⟩
  exact ⟨errs, congrArg some he, ht⟩

/-- C13: when the loader answers GetString's call without error with a raw value
v, GetString returns (s, nil) and records nothing if v is the string s (the empty
string included), returns "" with a non-nil error, which it records, if v is not
a string, and returns no error exactly when v is a string. -/
theorem string_coercion (rt : Runtime) (c : Ptr) (name : String) (w : World) (cfg : Config)
    (v : Value) (es : List GoError) (hw : w.WF) (hc : w.configs[c]? = some cfg)
    (hl : (callLoader rt cfg name w).1 = (v, none)) (hes : GetErrors c w = some es) :
    (∀ s, v = .string s →
      ∃ w1, GetString rt c name w = some ((s, none), w1) ∧ GetErrors c w1 = some es) ∧
    ((∀ s, v ≠ .string s) →
      ∃ e w1, GetString rt c name w = some (("", some e), w1) ∧
        GetErrors c w1 = some (es ++ [some e])) ∧
    (∀ r w1, GetString rt c name w = some (r, w1) → (r.2 = none ↔ ∃ s, v = .string s)) := by
  refine ⟨?_, ?_, ?_⟩
  · rintro s rfl
    rw [GetString_eq, hc]
    simp only [Option.map_some', stringResult, hl]
    exact ⟨_, rfl, finish_none_getErrors rt c cfg name w es hw hc hes⟩
  · intro h
    rw [GetString_eq, hc]
    simp only [Option.map_some', stringResult, hl]
    cases v with
    | string t => exact absurd rfl (h t)
    | _ => exact ⟨_, _, rfl, finish_some_getErrors rt c cfg name _ w es hw hc hes⟩
  · intro r w1 h
    rw [GetString_eq, hc] at h
    simp only [Option.map_some', Option.some.injEq, Prod.mk.injEq] at h
    rw [← h.1]
    simp only [stringResult, hl]
    cases v <;> simp [errorsNew]

/-- C13 at work, as in the tests: the raw string `success` comes back unchanged. -/
theorem string_coercion_witness :
    (NewConfig "app" (constLoader (.string "success") none) World.empty).2.WF ∧
    ∃ w1, GetString gc64 0 "someName"
        (NewConfig "app" (constLoader (.string "success") none) World.empty).2
        = some (("success", none), w1) ∧ GetErrors 0 w1 = some [] :=
  ⟨WF_NewConfig _ _ _ WF_empty,
    (string_coercion gc64 0 "someName"
      (NewConfig "app" (constLoader (.string "success") none) World.empty).2
      ⟨constLoader (.string "success") none, ⟨0, 1, 1⟩, nilSlice⟩ (.string "success") []
      (WF_NewConfig _ _ _ WF_empty) rfl rfl rfl).1 "success" rfl⟩

/-- C14: when the loader answers GetBool's call without error with a raw boolean
b, GetBool returns (b, nil) and records nothing. -/
theorem raw_bool_passes_through (rt : Runtime) (c : Ptr) (name : String) (w : World)
    (cfg : Config) (b : Bool) (es : List GoError) (hw : w.WF)
    (hc : w.configs[c]? = some cfg)
    (hl : (callLoader rt cfg name w).1 = (.bool b, none)) (hes : GetErrors c w = some es) :
    ∃ w1, GetBool rt c name w = some ((b, none), w1) ∧ GetErrors c w1 = some es := by
  rw [GetBool_eq, hc]
  simp only [Option.map_some', boolResult, hl]
  exact ⟨_, rfl, finish_none_getErrors rt c cfg name w es hw hc hes⟩

/-- C14 at work, as in the tests: the raw boolean true. -/
theorem raw_bool_passes_through_witness :
    (NewConfig "app" (constLoader (.bool true) none) World.empty).2.WF ∧
    ∃ w1, GetBool gc64 0 "someName"
        (NewConfig "app" (constLoader (.bool true) none) World.empty).2
        = some ((true, none), w1) ∧ GetErrors 0 w1 = some [] :=
  ⟨WF_NewConfig _ _ _ WF_empty,
    raw_bool_passes_through gc64 0 "someName"
      (NewConfig "app" (constLoader (.bool true) none) World.empty).2
      ⟨constLoader (.bool true) none, ⟨0, 1, 1⟩, nilSlice⟩ true []
      (WF_NewConfig _ _ _ WF_empty) rfl rfl rfl⟩

/-- C15: when the loader answers without error with a raw float64 x, GetFloat
returns (x, nil) and records nothing, while GetInt, GetString and GetBool each
return their zero value with a non-nil error and record it. -/
theorem raw_float64 (rt : Runtime) (fl : FloatOps) (c : Ptr) (name : String) (w : World)
    (cfg : Config) (x : Float64) (es : List GoError) (hw : w.WF)
    (hc : w.configs[c]? = some cfg)
    (hl : (callLoader rt cfg name w).1 = (.float64 x, none))
    (hes : GetErrors c w = some es) :
    (∃ w1, GetFloat rt fl c name w = some ((x, none), w1) ∧ GetErrors c w1 = some es) ∧
    (∃ e w1, GetInt rt c name w = some ((0, some e), w1) ∧
      GetErrors c w1 = some (es ++ [some e])) ∧
    (∃ e w1, GetString rt c name w = some (("", some e), w1) ∧
      GetErrors c w1 = some (es ++ [some e])) ∧
    (∃ e w1, GetBool rt c name w = some ((false, some e), w1) ∧
      GetErrors c w1 = some (es ++ [some e])) := by
  refine ⟨?_, ?_, ?_, ?_⟩
  · rw [GetFloat_eq, hc]
    simp only [Option.map_some', floatResult, hl]
    exact ⟨_, rfl, finish_none_getErrors rt c cfg name w es hw hc hes⟩
  · rw [GetInt_eq, hc]
    simp only [Option.map_some', intResult, hl]
    exact ⟨_, _, rfl, finish_some_getErrors rt c cfg name _ w es hw hc hes⟩
  · rw [GetString_eq, hc]
    simp only [Option.map_some', stringResult, hl]
    exact ⟨_, _, rfl, finish_some_getErrors rt c cfg name _ w es hw hc hes⟩
  · rw [GetBool_eq, hc]
    simp only [Option.map_some', boolResult, hl]
    exact ⟨_, _, rfl, finish_some_getErrors rt c cfg name _ w es hw hc hes⟩

/-- C15 at work: the raw float64 1.5 (bit pattern 0x3FF8000000000000). -/
theorem raw_float64_witness :
    (NewConfig "app" (constLoader (.float64 ⟨0x3FF8000000000000⟩) none) World.empty).2.WF ∧
    ∃ w1, GetFloat gc64 exampleFloatOps 0 "someName"
        (NewConfig "app" (constLoader (.float64 ⟨0x3FF8000000000000⟩) none) World.empty).2
        = some ((⟨0x3FF8000000000000⟩, none), w1) ∧ GetErrors 0 w1 = some [] :=
  ⟨WF_NewConfig _ _ _ WF_empty,
    (raw_float64 gc64 exampleFloatOps 0 "someName"
      (NewConfig "app" (constLoader (.float64 ⟨0x3FF8000000000000⟩) none) World.empty).2
      ⟨constLoader (.float64 ⟨0x3FF8000000000000⟩) none, ⟨0, 1, 1⟩, nilSlice⟩
      ⟨0x3FF8000000000000⟩ [] (WF_NewConfig _ _ _ WF_empty) rfl rfl rfl).1⟩

/-- C16: for every environment and every path, the loader of NewEnvironmentLoader
looks up the variable named by the upper-cased join of the segments with `_`
([app, one, value] gives APP_ONE_VALUE); if it is set, the loader returns its
value as a raw string with no error, and GetString on
NewConfig(app, loader).ChildConfig(s1)...ChildConfig(sn) returns that value with
no error and nothing recorded; if it is not set, the loader returns an error
whose message contains the variable name, and each getter returns that error
and leaves it as the one entry of the accessor's error list. -/
theorem environment_loader (uc : Char → Char) (env : Environ) :
    (∀ (hist : List (List String)) (path : List String),
      (∀ v, env (ToUpper uc (Join path "_")) = some v →
        NewEnvironmentLoader uc env hist path = (.string v, none)) ∧
      (env (ToUpper uc (Join path "_")) = none →
        ∃ e, NewEnvironmentLoader uc env hist path = (.string "", some e) ∧
          Contains e.Error (ToUpper uc (Join path "_")))) ∧
    ToUpper uc (Join ["app", "one", "value"] "_") = "APP_ONE_VALUE" ∧
    (∀ (rt : Runtime) (fl : FloatOps) (w : World) (app : String) (segs : List String)
      (f : String),
      ∃ c w1, ChildConfigs rt (NewConfig app (NewEnvironmentLoader uc env) w).1 segs
          (NewConfig app (NewEnvironmentLoader uc env) w).2 = some (c, w1) ∧
        (∀ v, env (ToUpper uc (Join (app :: segs ++ [f]) "_")) = some v →
          ∃ w2, GetString rt c f w1 = some ((v, none), w2) ∧ GetErrors c w2 = some []) ∧
        (env (ToUpper uc (Join (app :: segs ++ [f]) "_")) = none →
          ∃ e, Contains e.Error (ToUpper uc (Join (app :: segs ++ [f]) "_")) ∧
            (∃ w2, GetString rt c f w1 = some (("", some e), w2) ∧
              GetErrors c w2 = some [some e]) ∧
            (∃ w2, GetBool rt c f w1 = some ((false, some e), w2) ∧
              GetErrors c w2 = some [some e]) ∧
            (∃ w2, GetInt rt c f w1 = some ((0, some e), w2) ∧
              GetErrors c w2 = some [some e]) ∧
            (∃ w2, GetFloat rt fl c f w1 = some ((⟨0⟩, some e), w2) ∧
              GetErrors c w2 = some [some e]))) := by
  refine ⟨?_, rfl, ?_⟩
  · intro hist path
    refine ⟨fun v h => NewEnvironmentLoader_set uc env hist path v h, fun h => ?_⟩
    exact ⟨_, NewEnvironmentLoader_unset uc env hist path h, contains_middle _ _ _⟩
  · intro rt fl w app segs f
    rcases ChildConfigs_accessorIs rt (NewEnvironmentLoader uc env) segs _ _ _
      (NewConfig_accessorIs app (NewEnvironmentLoader uc env) w) with ⟨c, w1, hch, hacc, _⟩
    have hg := getters_of_accessorIs rt fl c f w1 _ _ _ hacc
    simp only [List.singleton_append, List.cons_append, List.nil_append] at hg
    refine ⟨c, w1, hch, ?_, ?_⟩
    · intro v hv
      simp only [List.cons_append] at hv
      rcases hg.1 with ⟨w2, h1, h2⟩
      rw [NewEnvironmentLoader_set uc env _ _ v hv] at h1 h2
      exact ⟨w2, h1, by simpa [stringResult] using h2⟩
    · intro hn
      simp only [List.cons_append] at hn ⊢
      refine ⟨.errorString ("environment variable " ++
        ToUpper uc (Join (app :: (segs ++ [f])) "_") ++ " does not exist"),
        contains_middle _ _ _, ?_, ?_, ?_, ?_⟩
      · rcases hg.1 with ⟨w2, h1, h2⟩
        rw [NewEnvironmentLoader_unset uc env _ _ hn] at h1 h2
        exact ⟨w2, h1, by simpa [stringResult] using h2⟩
      · rcases hg.2.1 with ⟨w2, h1, h2⟩
        rw [NewEnvironmentLoader_unset uc env _ _ hn] at h1 h2
        exact ⟨w2, h1, by simpa [boolResult] using h2⟩
      · rcases hg.2.2.1 with ⟨w2, h1, h2⟩
        rw [NewEnvironmentLoader_unset uc env _ _ hn] at h1 h2
        exact ⟨w2, h1, by simpa [intResult] using h2⟩
      · rcases hg.2.2.2 with ⟨w2, h1, h2⟩
        rw [NewEnvironmentLoader_unset uc env _ _ hn] at h1 h2
        exact ⟨w2, h1, by simpa [floatResult] using h2⟩

/-- C16 at work, as in the tests: with APP_ONE_VALUE set to `success`,
NewConfig("app", loader).ChildConfig("one").GetString("value") returns it. -/
theorem environment_loader_witness :
    ∃ c w1, ChildConfigs gc64
        (NewConfig "app" (NewEnvironmentLoader id
          (fun n => if n = "APP_ONE_VALUE" then some "success" else none)) World.empty).1
        ["one"]
        (NewConfig "app" (NewEnvironmentLoader id
          (fun n => if n = "APP_ONE_VALUE" then some "success" else none)) World.empty).2
        = some (c, w1) ∧
      ∃ w2, GetString gc64 c "value" w1 = some (("success", none), w2) ∧
        GetErrors c w2 = some [] := by
  rcases (environment_loader id
    (fun n => if n = "APP_ONE_VALUE" then some "success" else none)).2.2
    gc64 exampleFloatOps World.empty "app" ["one"] "value" with ⟨c, w1, hch, hset, _⟩
  exact ⟨c, w1, hch, hset "success" (by decide)⟩

/-- C17 as stated fails: the raw strings `NaN`, `Inf` and `0x1p-2`, none of
them a base-10 literal, come back from GetFloat with no error and nothing
recorded, as a NaN, the positive infinity and 0.25 (bit pattern
0x3FD0000000000000). -/
theorem float_coercion_accepts_more :
    (¬ IsDecimalFloat "NaN".data ∧ ¬ IsDecimalFloat "Inf".data ∧
      ¬ IsDecimalFloat "0x1p-2".data) ∧
    (∃ w1, GetFloat gc64 goFloatOps 0 "someName"
        (NewConfig "app" (constLoader (.string "NaN") none) World.empty).2
        = some ((Float64.nan, none), w1) ∧ GetErrors 0 w1 = some []) ∧
    (∃ w1, GetFloat gc64 goFloatOps 0 "someName"
        (NewConfig "app" (constLoader (.string "Inf") none) World.empty).2
        = some ((Float64.inf false, none), w1) ∧ GetErrors 0 w1 = some []) ∧
    (∃ w1, GetFloat gc64 goFloatOps 0 "someName"
        (NewConfig "app" (constLoader (.string "0x1p-2") none) World.empty).2
        = some ((⟨0x3FD0000000000000⟩, none), w1) ∧ GetErrors 0 w1 = some []) := by
  refine ⟨⟨?_, ?_, ?_⟩, ⟨_, rfl, rfl⟩, ⟨_, rfl, rfl⟩, ⟨_, rfl, rfl⟩⟩
  · intro h
    have := decimalFloat_chars _ h 'N' (by decide)
    revert this
    decide
  · intro h
    have := decimalFloat_chars _ h 'I' (by decide)
    revert this
    decide
  · intro h
    have := decimalFloat_chars _ h 'x' (by decide)
    revert this
    decide

/-- C17, amended: when the loader answers without error with a raw string s,
GetFloat returns a value with no error only if s is what `strconv.ParseFloat`
reads:
* after an optional sign, a decimal number: a mantissa that is either decimal
  digits, optionally followed by a point and optional digits, or a point
  followed by digits; then optionally an exponent `e` or `E` with an optional
  sign and decimal digits;
* or after an optional sign, a hexadecimal number: `0x` or `0X`, a mantissa of
  hexadecimal digits of the same two forms, then necessarily an exponent `p` or
  `P` with an optional sign and decimal digits;
* where digits are one or more digits, single underscores being allowed
  between two of them, and in a hexadecimal number one underscore also between
  the prefix and a first digit;
* or one of the words `inf` and `infinity` with an optional sign, or `nan`
  without one, in any letter case.
For every other string (such as `true`) GetFloat returns (0, error), the error
being ParseFloat's, and records that error. -/
theorem float_coercion_of_strings (rt : Runtime) (c : Ptr) (name : String) (w : World)
    (cfg : Config) (s : String) (es : List GoError) (hw : w.WF)
    (hc : w.configs[c]? = some cfg)
    (hl : (callLoader rt cfg name w).1 = (.string s, none))
    (hes : GetErrors c w = some es) :
    (∀ x w1, GetFloat rt goFloatOps c name w = some ((x, none), w1) →
      IsFloatLiteral s ∨ IsFloatWord s) ∧
    (¬ (IsFloatLiteral s ∨ IsFloatWord s) →
      ∃ e w1, GetFloat rt goFloatOps c name w = some ((⟨0⟩, some e), w1) ∧
        (ParseFloat s).2 = some e ∧ GetErrors c w1 = some (es ++ [some e])) := by
  have hpf : goFloatOps.ParseFloat s = ParseFloat s := rfl
  constructor
  · intro x w1 hg
    cases ha : (ParseFloat s).2 with
    | none => exact ParseFloat_sound s ha
    | some e =>
      rw [GetFloat_eq, hc] at hg
      simp only [Option.map_some', floatResult, hl, hpf, ha] at hg
      simp at hg
  · intro hbad
    cases ha : (ParseFloat s).2 with
    | none => exact absurd (ParseFloat_sound s ha) hbad
    | some e =>
      rw [GetFloat_eq, hc]
      simp only [Option.map_some', floatResult, hl, hpf, ha]
      exact ⟨e, _, rfl, rfl, finish_some_getErrors rt c cfg name e w es hw hc hes⟩

/-- C17 at work, as in the tests: GetFloat over the raw string `true`. -/
theorem float_coercion_of_strings_witness :
    (NewConfig "app" (constLoader (.string "true") none) World.empty).2.WF ∧
    ¬ (IsFloatLiteral "true" ∨ IsFloatWord "true") ∧
    ∃ e w1, GetFloat gc64 goFloatOps 0 "someName"
        (NewConfig "app" (constLoader (.string "true") none) World.empty).2
        = some ((⟨0⟩, some e), w1) ∧ (ParseFloat "true").2 = some e ∧
      GetErrors 0 w1 = some ([] ++ [some e]) := by
  have hbad : ¬ (IsFloatLiteral "true" ∨ IsFloatWord "true") := by
    intro h
    obtain ⟨c, t, h1, h2⟩ := floatText_head "true" h
    have hc : c = 't' := by
      have : "true".data = 't' :: "rue".data := rfl
      rw [this] at h1
      exact (List.cons.inj h1).1.symm
    subst hc
    revert h2
    decide
  exact ⟨WF_NewConfig _ _ _ WF_empty, hbad,
    (float_coercion_of_strings gc64 0 "someName"
      (NewConfig "app" (constLoader (.string "true") none) World.empty).2
      ⟨constLoader (.string "true") none, ⟨0, 1, 1⟩, nilSlice⟩ "true" []
      (WF_NewConfig _ _ _ WF_empty) rfl rfl rfl).2 hbad⟩

/-- C17 at work on the strings of the tests: `1.0`, `-2000000000` and
`15.98754379` come back with no error and nothing recorded, as the float64
nearest to the number written. -/
theorem float_coercion_examples :
    (∃ w1, GetFloat gc64 goFloatOps 0 "someName"
        (NewConfig "app" (constLoader (.string "1.0") none) World.empty).2
        = some ((⟨0x3FF0000000000000⟩, none), w1) ∧ GetErrors 0 w1 = some []) ∧
    (∃ w1, GetFloat gc64 goFloatOps 0 "someName"
        (NewConfig "app" (constLoader (.string "-2000000000") none) World.empty).2
        = some ((⟨0xC1DDCD6500000000⟩, none), w1) ∧ GetErrors 0 w1 = some []) ∧
    (∃ w1, GetFloat gc64 goFloatOps 0 "someName"
        (NewConfig "app" (constLoader (.string "15.98754379") none) World.empty).2
        = some ((⟨0x402FF99F56F2D5F6⟩, none), w1) ∧ GetErrors 0 w1 = some []) :=
  ⟨⟨_, rfl, rfl⟩, ⟨_, rfl, rfl⟩, ⟨_, rfl, rfl⟩⟩

/-- C17 at work on the less usual forms: `1_0` (an underscore between digits),
`.5` (no digit before the point), `0x_1p0` (an underscore after the prefix) and
`0x.8p1` come back with no error and nothing recorded, as 10, 0.5, 1 and 1. -/
theorem float_coercion_unusual_forms :
    (∃ w1, GetFloat gc64 goFloatOps 0 "someName"
        (NewConfig "app" (constLoader (.string "1_0") none) World.empty).2
        = some ((⟨0x4024000000000000⟩, none), w1) ∧ GetErrors 0 w1 = some []) ∧
    (∃ w1, GetFloat gc64 goFloatOps 0 "someName"
        (NewConfig "app" (constLoader (.string ".5") none) World.empty).2
        = some ((⟨0x3FE0000000000000⟩, none), w1) ∧ GetErrors 0 w1 = some []) ∧
    (∃ w1, GetFloat gc64 goFloatOps 0 "someName"
        (NewConfig "app" (constLoader (.string "0x_1p0") none) World.empty).2
        = some ((⟨0x3FF0000000000000⟩, none), w1) ∧ GetErrors 0 w1 = some []) ∧
    (∃ w1, GetFloat gc64 goFloatOps 0 "someName"
        (NewConfig "app" (constLoader (.string "0x.8p1") none) World.empty).2
        = some ((⟨0x3FF0000000000000⟩, none), w1) ∧ GetErrors 0 w1 = some []) :=
  ⟨⟨_, rfl, rfl⟩, ⟨_, rfl, rfl⟩, ⟨_, rfl, rfl⟩, ⟨_, rfl, rfl⟩⟩

/-- C18 as stated fails where `int` has 64 bits: the raw int 9007199254740993
(2^53 + 1, within the range of `int` there) comes back from GetFloat, with no
error and nothing recorded, as the float64 of bit pattern 0x4340000000000000,
whose value is 9007199254740992. -/
theorem int_to_float_rounds :
    (-(2 : Int) ^ (gc64.intSize - 1) ≤ 9007199254740993 ∧
      (9007199254740993 : Int) < 2 ^ (gc64.intSize - 1)) ∧
    ∃ x w1, GetFloat gc64 goFloatOps 0 "someName"
        (NewConfig "app" (constLoader (.int 9007199254740993) none) World.empty).2
        = some ((x, none), w1) ∧ GetErrors 0 w1 = some [] ∧
      x.toRat? = some 9007199254740992 ∧
      x.toRat? ≠ some (((9007199254740993 : Int) : ℚ)) := by
  have hv : Float64.toRat? ⟨0x4340000000000000⟩ = some 9007199254740992 := by
    have h := toRat_of_fields 0 1076 0 (by omega) (by omega) (by omega) (by norm_num)
    have e : (⟨0x4340000000000000⟩ : Float64) = ⟨0 * 2 ^ 63 + 1076 * 2 ^ 52 + 0⟩ := by
      norm_num
    rw [e, h]
    norm_num
  refine ⟨by decide, ⟨0x4340000000000000⟩, _, rfl, rfl, hv, ?_⟩
  rw [hv]
  norm_num

/-- C18, amended: when the loader answers without error with a raw int n (in the
range of the platform's `int`), GetFloat returns, with no error and nothing
recorded, a float64 nearest to n: no float64 is nearer to n, and when another
is equally near the result is the one whose significand is even (round to
nearest, ties to even).  Its value is exactly n if and only if n is
representable as a float64, which holds whenever n is at most 2^53 in
magnitude, so for every int where `int` has 32 bits. -/
theorem int_to_float_nearest (rt : Runtime) (c : Ptr) (name : String) (w : World)
    (cfg : Config) (n : Int) (es : List GoError) (hw : w.WF)
    (hc : w.configs[c]? = some cfg)
    (hl : (callLoader rt cfg name w).1 = (.int n, none))
    (hes : GetErrors c w = some es)
    (hn : -(2 : Int) ^ (rt.intSize - 1) ≤ n ∧ n < 2 ^ (rt.intSize - 1)) :
    ∃ (x : Float64) (w1 : World) (v : ℚ),
      GetFloat rt goFloatOps c name w = some ((x, none), w1) ∧
      GetErrors c w1 = some es ∧ x.toRat? = some v ∧
      (∀ (y : Float64) (vy : ℚ), y.toRat? = some vy → |v - n| ≤ |vy - n|) ∧
      (∀ (y : Float64) (vy : ℚ), y.toRat? = some vy → vy ≠ v → |vy - n| = |v - n| →
        x.bits % 2 = 0) ∧
      (v = n ↔ ∃ y : Float64, y.toRat? = some (n : ℚ)) ∧
      (n.natAbs ≤ 2 ^ 53 → v = n) ∧
      (rt.intSize = 32 → v = n) := by
  have hlt : n.natAbs < 2 ^ 64 := by
    rcases rt.intSize_ok with h32 | h64
    · rw [h32] at hn
      norm_num at hn ⊢
      omega
    · rw [h64] at hn
      norm_num at hn ⊢
      omega
  obtain ⟨v, hv, hnear, htie⟩ := float64OfInt_nearest n hlt
  rw [GetFloat_eq, hc]
  simp only [Option.map_some', floatResult, hl]
  have h53 : n.natAbs ≤ 2 ^ 53 → v = n := by
    intro h53
    have h1 := float64OfInt_exact n h53
    have h2 : (float64OfInt n).toRat? = some v := hv
    rw [h1] at h2
    exact (Option.some.inj h2).symm
  refine ⟨_, _, v, rfl, finish_none_getErrors rt c cfg name w es hw hc hes, hv, hnear, htie,
    ?_, h53, ?_⟩
  · constructor
    · intro h
      exact ⟨_, by rw [← h]; exact hv⟩
    · rintro ⟨y, hy⟩
      have := hnear y _ hy
      rw [sub_self, abs_zero] at this
      exact sub_eq_zero.mp (abs_eq_zero.mp (le_antisymm this (abs_nonneg _)))
  · intro h32
    apply h53
    rw [h32] at hn
    norm_num at hn ⊢
    omega

/-- C18 at work above 2^53: the ints 9007199254740994 (2^53 + 2) and
1152921504606846976 (2^60), which are representable, are converted exactly. -/
theorem int_to_float_exact_examples :
    (float64OfInt 9007199254740994).toRat? = some 9007199254740994 ∧
    (float64OfInt 1152921504606846976).toRat? = some 1152921504606846976 := by
  have e1 : float64OfInt 9007199254740994 = ⟨0 * 2 ^ 63 + 1076 * 2 ^ 52 + 1⟩ := by decide
  have e2 : float64OfInt 1152921504606846976 = ⟨0 * 2 ^ 63 + 1083 * 2 ^ 52 + 0⟩ := by decide
  rw [e1, e2, toRat_of_fields 0 1076 1 (by omega) (by omega) (by omega) (by norm_num),
    toRat_of_fields 0 1083 0 (by omega) (by omega) (by omega) (by norm_num)]
  constructor <;> norm_num

/-- C18 at work, as in the tests: the raw int 4 comes back as a float64 of value
exactly 4. -/
theorem int_to_float_nearest_witness :
    (NewConfig "app" (constLoader (.int 4) none) World.empty).2.WF ∧
    (-(2 : Int) ^ (gc64.intSize - 1) ≤ 4 ∧ (4 : Int) < 2 ^ (gc64.intSize - 1)) ∧
    ∃ (x : Float64) (w1 : World) (v : ℚ), GetFloat gc64 goFloatOps 0 "someName"
        (NewConfig "app" (constLoader (.int 4) none) World.empty).2
        = some ((x, none), w1) ∧ GetErrors 0 w1 = some [] ∧ x.toRat? = some v ∧
      v = ((4 : Int) : ℚ) := by
  obtain ⟨x, w1, v, h1, h2, h3, _, _, _, h4, _⟩ := int_to_float_nearest gc64 0 "someName"
    (NewConfig "app" (constLoader (.int 4) none) World.empty).2
    ⟨constLoader (.int 4) none, ⟨0, 1, 1⟩, nilSlice⟩
    4 [] (WF_NewConfig _ _ _ WF_empty) rfl rfl rfl (by decide)
  exact ⟨WF_NewConfig _ _ _ WF_empty, by decide, x, w1, v, h1, h2, h3, h4 (by decide)⟩

/-- C19: the naming of the environment loader is not injective: the different
paths [a_b, c] and [a, b_c], and likewise [App, x] and [app, x], get the same
variable name, so that in every environment the two lookups give the same
result. -/
theorem environment_names_collide :
    ((["a_b", "c"] : List String) ≠ ["a", "b_c"] ∧
      ∀ (uc : Char → Char) (env : Environ) (hist : List (List String)),
        NewEnvironmentLoader uc env hist ["a_b", "c"] =
          NewEnvironmentLoader uc env hist ["a", "b_c"]) ∧
    ((["App", "x"] : List String) ≠ ["app", "x"] ∧
      ∀ (uc : Char → Char) (env : Environ) (hist : List (List String)),
        NewEnvironmentLoader uc env hist ["App", "x"] =
          NewEnvironmentLoader uc env hist ["app", "x"]) :=
  ⟨⟨by decide, fun _ _ _ => rfl⟩, ⟨by decide, fun _ _ _ => rfl⟩⟩

end GoConfig
